import Mathlib

/-!
# Pending-transaction cache (`storage/txcache`) of the node

A shallow embedding of the monitoring code of the transaction cache
(`storage/txcache/monitoring.go`) and of the cache operations it monitors.

* Go integers are `Int`; a conversion such as `uint32(x)` is written out as a
  reduction modulo `2^32`.
* `int` is the 64-bit `int` of the platforms the node runs on.
* Logging is kept as the list of emitted lines (level and message).
-/

namespace Txcache

/-! ## Monitoring (`storage/txcache/monitoring.go`) -/

/-- Severity of a log line: `log.Trace` or `log.Warn`. -/
inductive LogLevel where
  | Trace
  | Warn
deriving DecidableEq, Repr

/-- One emitted log line. -/
structure LogLine where
  level : LogLevel
  message : String
deriving DecidableEq, Repr

/-- Go conversion `uint32(x)` of an integer: the value modulo `2^32`. -/
def toUint32 (x : Int) : Int := x % 4294967296

/-- What `diagnose` reads from the cache, one field per call it makes. The
accessors themselves (`NumBytes`, `CountTx`, `CountSenders`, the backing maps'
`Count`, `CountSorted`, `Keys`, `KeysSorted`, `getSnapshotAscending`) are
declared outside `monitoring.go`, so their results are taken as given. -/
structure DiagnoseReadings where
  /-- Value read by `cache.NumBytes()` -/
  numBytes : Int
  /-- Value read by `cache.CountTx()`: the atomic transaction counter -/
  countTx : Int
  /-- Value read by `cache.txByHash.backingMap.Count()` -/
  txByHashCount : Int
  /-- Value read by `cache.txByHash.backingMap.Keys()` -/
  txByHashKeys : List String
  /-- Value read by `cache.CountSenders()`: the atomic sender counter -/
  countSenders : Int
  /-- Value read by `cache.txListBySender.backingMap.Count()` -/
  bySenderCount : Int
  /-- Value read by `cache.txListBySender.backingMap.CountSorted()` -/
  bySenderCountSorted : Int
  /-- Value read by `cache.txListBySender.backingMap.Keys()` -/
  bySenderKeys : List String
  /-- Value read by `cache.txListBySender.backingMap.KeysSorted()` -/
  bySenderKeysSorted : List String
  /-- Senders of `cache.txListBySender.getSnapshotAscending()` -/
  sendersSnapshot : List String
deriving DecidableEq, Repr

/-- The flag `fine` computed by `diagnose` (lines 114-117). -/
def diagnoseFine (r : DiagnoseReadings) : Bool :=
  let numTxsEstimate : Int := r.countTx
  let numTxsInChunks := r.txByHashCount
  let txsKeys := r.txByHashKeys
  let numSendersEstimate := toUint32 r.countSenders
  let numSendersInChunks := r.bySenderCount
  let numSendersInScoreChunks := r.bySenderCountSorted
  let sendersKeys := r.bySenderKeys
  let sendersKeysSorted := r.bySenderKeysSorted
  let sendersSnapshot := r.sendersSnapshot
  let fine := decide (numSendersEstimate = numSendersInChunks)
    && decide (numSendersEstimate = numSendersInScoreChunks)
  let fine := fine && (decide (sendersKeys.length = sendersKeysSorted.length)
    && decide (sendersKeys.length = sendersSnapshot.length))
  let fine := fine && decide (numSendersEstimate = (sendersKeys.length : Int))
  let fine := fine && (decide (numTxsEstimate = numTxsInChunks)
    && decide (numTxsEstimate = (txsKeys.length : Int)))
  fine

/-- The level `diagnose` logs at: `log.Trace`, replaced by `log.Warn` when the
state is not fine (lines 119-122). -/
def diagnoseLevel (r : DiagnoseReadings) : LogLevel :=
  if !diagnoseFine r then LogLevel.Warn else LogLevel.Trace

/-- `TxCache.diagnose`: the five lines it logs, all through `logFunc`. It has
no other effect and no failure path. -/
def diagnose (r : DiagnoseReadings) : List LogLine :=
  let logFunc := fun (message : String) => LogLine.mk (diagnoseLevel r) message
  [ logFunc "Diagnose",
    logFunc "Size:",
    logFunc "NumSenders:",
    logFunc "NumSenders (continued):",
    logFunc "NumTxs:" ]

/-- The agreement the atomic counters are checked for, taken literally:
`CountSenders()` equals each recomputed sender count and `CountTx()` each
recomputed transaction count. -/
def countsAgree (r : DiagnoseReadings) : Prop :=
  r.countSenders = r.bySenderCount ∧
  r.countSenders = r.bySenderCountSorted ∧
  r.countSenders = (r.bySenderKeys.length : Int) ∧
  r.countSenders = (r.bySenderKeysSorted.length : Int) ∧
  r.countSenders = (r.sendersSnapshot.length : Int) ∧
  r.countTx = r.txByHashCount ∧
  r.countTx = (r.txByHashKeys.length : Int)

/-- The agreement `diagnose` checks: as `countsAgree`, with the sender counter
converted to `uint32` first. -/
def countsAgreeUint32 (r : DiagnoseReadings) : Prop :=
  toUint32 r.countSenders = r.bySenderCount ∧
  toUint32 r.countSenders = r.bySenderCountSorted ∧
  toUint32 r.countSenders = (r.bySenderKeys.length : Int) ∧
  toUint32 r.countSenders = (r.bySenderKeysSorted.length : Int) ∧
  toUint32 r.countSenders = (r.sendersSnapshot.length : Int) ∧
  r.countTx = r.txByHashCount ∧
  r.countTx = (r.txByHashKeys.length : Int)

/-- Readings of a cache whose maps are empty while the sender counter holds
`2^32`. -/
def readingsWrapped : DiagnoseReadings :=
  { numBytes := 0, countTx := 0, txByHashCount := 0, txByHashKeys := [],
    countSenders := 4294967296, bySenderCount := 0, bySenderCountSorted := 0,
    bySenderKeys := [], bySenderKeysSorted := [], sendersSnapshot := [] }

/-! ## Data model -/

/-- Byte strings: transaction hashes and sender identities. -/
abbrev Bytes := List Nat

/-- Modelled from the spec: the Transaction Record (the wrapped transaction
type is declared outside `monitoring.go`). Its fields are those of the data
model; `gasLimit` is the gas of the wrapped transaction, which selection
budgets. -/
structure TxRecord where
  hash : Bytes
  sender : Bytes
  nonce : Nat
  feeRate : Nat
  sizeBytes : Nat
  gasLimit : Nat
deriving DecidableEq, Repr

/-- Modelled from the spec: the Sender Transaction List, the records of one
sender in nonce order. -/
structure SenderTxList where
  sender : Bytes
  items : List TxRecord
deriving DecidableEq, Repr

/-- Modelled from the spec: the configuration surface of the cache. -/
structure CacheConfig where
  maxBytes : Nat
  maxTxCount : Nat
  perSenderTxCountCap : Nat
  numSendersEvictedPerStep : Nat
deriving DecidableEq, Repr

/-- The journal `evictionJournal` of `monitoring.go` (lines 82-89). -/
structure evictionJournal where
  evictionPerformed : Bool
  passOneNumTxs : Nat
  passOneNumSenders : Nat
  passTwoNumTxs : Nat
  passTwoNumSenders : Nat
  passTwoNumSteps : Nat
deriving DecidableEq, Repr

/-- Modelled from the spec: the cache, whose type is declared outside
`monitoring.go`. The two index maps are association lists; the counters are the
atomic counters that `monitoring.go` reads and writes. -/
structure TxCache where
  config : CacheConfig
  /-- By-hash index: hash to record -/
  txByHash : List (Bytes × TxRecord)
  /-- By-sender index: one list per sender -/
  txListBySender : List SenderTxList
  /-- Atomic counter of transactions, read by `CountTx()` -/
  txCount : Int
  /-- Atomic counter of bytes, read by `NumBytes()` -/
  numBytes : Int
  /-- Atomic counter of senders, read by `CountSenders()` -/
  senderCount : Int
  isEvictionInProgress : Bool
  numTxAddedBetweenSelections : Int
  numTxRemovedBetweenSelections : Int
  numTxAddedDuringEviction : Int
  numTxRemovedDuringEviction : Int
  evictionJournal : evictionJournal
deriving DecidableEq, Repr

/-- Modelled from the spec: `core.AtomicCounter.Increment`, declared in
package `core`: the counter goes up by one. -/
def AtomicCounter.Increment (counter : Int) : Int := counter + 1

/-- Modelled from the spec: `core.AtomicCounter.Reset`, declared in package
`core`: the counter is set to zero and its previous value returned. -/
def AtomicCounter.Reset (counter : Int) : Int × Int := (0, counter)

/-- `TxCache.monitorTxAddition` (lines 11-17). -/
def TxCache.monitorTxAddition (cache : TxCache) : TxCache :=
  let cache := { cache with
    numTxAddedBetweenSelections := AtomicCounter.Increment cache.numTxAddedBetweenSelections }
  if cache.isEvictionInProgress then
    { cache with
      numTxAddedDuringEviction := AtomicCounter.Increment cache.numTxAddedDuringEviction }
  else cache

/-- `TxCache.monitorTxRemoval` (lines 19-25). -/
def TxCache.monitorTxRemoval (cache : TxCache) : TxCache :=
  let cache := { cache with
    numTxRemovedBetweenSelections := AtomicCounter.Increment cache.numTxRemovedBetweenSelections }
  if cache.isEvictionInProgress then
    { cache with
      numTxRemovedDuringEviction := AtomicCounter.Increment cache.numTxRemovedDuringEviction }
  else cache

/-- `TxCache.monitorEvictionEnd` (lines 35-43): both during-eviction counters
are reset; the stopwatch, the trace line, the journal display and the senders
histogram do not touch the cache. -/
def TxCache.monitorEvictionEnd (cache : TxCache) : TxCache :=
  let cache := { cache with
    numTxAddedDuringEviction := (AtomicCounter.Reset cache.numTxAddedDuringEviction).1 }
  let cache := { cache with
    numTxRemovedDuringEviction := (AtomicCounter.Reset cache.numTxRemovedDuringEviction).1 }
  cache

/-- `TxCache.monitorSelectionEnd` (lines 53-62): both between-selections
counters are reset; the stopwatch, the trace line and the senders histogram do
not touch the cache, and the detached `diagnose` only reads it. -/
def TxCache.monitorSelectionEnd (cache : TxCache) : TxCache :=
  let cache := { cache with
    numTxAddedBetweenSelections := (AtomicCounter.Reset cache.numTxAddedBetweenSelections).1 }
  let cache := { cache with
    numTxRemovedBetweenSelections := (AtomicCounter.Reset cache.numTxRemovedBetweenSelections).1 }
  cache

/-- Modelled from the spec: `Len()`, the lock-free read of the transaction
counter. -/
def TxCache.Len (cache : TxCache) : Int := cache.txCount

/-- Modelled from the spec: `NumBytes()`, the lock-free read of the byte
counter. -/
def TxCache.NumBytes (cache : TxCache) : Int := cache.numBytes

/-- Modelled from the spec: `CountSenders()`, the lock-free read of the sender
counter. -/
def TxCache.CountSenders (cache : TxCache) : Int := cache.senderCount

/-! ## Sender Transaction List -/

/-- Modelled from the spec: the positional search of `Insert` over the records
of one sender. A record with a new nonce goes to its place in nonce order; a
record whose nonce is already there replaces the one in place only if its
`feeRate` is strictly greater, and is dropped otherwise. -/
def SenderTxList.insertSorted (r : TxRecord) : List TxRecord → List TxRecord
  | [] => [r]
  | x :: xs =>
    if r.nonce < x.nonce then r :: x :: xs
    else if r.nonce = x.nonce then
      if x.feeRate < r.feeRate then r :: xs else x :: xs
    else x :: SenderTxList.insertSorted r xs

/-- Modelled from the spec: `Insert(record)` of the Sender Transaction List
(the list type is declared outside `monitoring.go`). Returns the list and
whether a net-new slot was added. -/
def SenderTxList.Insert (l : SenderTxList) (r : TxRecord) : SenderTxList × Bool :=
  ({ l with items := SenderTxList.insertSorted r l.items },
    !(l.items.any (fun x => decide (x.nonce = r.nonce))))

/-- Modelled from the spec: `Remove(hash)` of the Sender Transaction List:
removes the record matching the hash, a no-op if it is absent. Returns the
list and whether a record was removed. -/
def SenderTxList.Remove (l : SenderTxList) (hash : Bytes) : SenderTxList × Bool :=
  ({ l with items := l.items.eraseP (fun x => decide (x.hash = hash)) },
    l.items.any (fun x => decide (x.hash = hash)))

/-- Modelled from the spec: `TrimToCap(cap)` of the Sender Transaction List: a
list longer than `cap` loses its tail in nonce order until its length is
`cap`. Returns the list and the removed count. -/
def SenderTxList.TrimToCap (l : SenderTxList) (cap : Nat) : SenderTxList × Nat :=
  if cap < l.items.length then
    ({ l with items := l.items.take cap }, l.items.length - cap)
  else (l, 0)

/-- Modelled from the spec: `Score()` of the Sender Transaction List. The spec
leaves the formula open, so the score is a parameter of the operations that
order senders by it. -/
abbrev ScoreFn := SenderTxList → Nat

/-! ## Index maps -/

/-- Modelled from the spec: adding a record to the by-hash index, with the
transaction and byte counters. -/
def TxCache.txByHashAdd (c : TxCache) (r : TxRecord) : TxCache :=
  { c with
    txByHash := (r.hash, r) :: c.txByHash
    txCount := c.txCount + 1
    numBytes := c.numBytes + r.sizeBytes }

/-- Modelled from the spec: removing a hash from the by-hash index, with the
transaction and byte counters; absent hashes are tolerated. Returns the record
that was indexed, if any. -/
def TxCache.txByHashRemove (c : TxCache) (hash : Bytes) : TxCache × Option TxRecord :=
  match c.txByHash.find? (fun e => decide (e.1 = hash)) with
  | none => (c, none)
  | some e =>
    ({ c with
       txByHash := c.txByHash.filter (fun e => decide (e.1 ≠ hash))
       txCount := c.txCount - 1
       numBytes := c.numBytes - e.2.sizeBytes }, some e.2)

/-- Bulk removal from the by-hash index, one hash after the other. -/
def TxCache.txByHashRemoveBulk (c : TxCache) (hashes : List Bytes) : TxCache :=
  hashes.foldl (fun acc h => (acc.txByHashRemove h).1) c

/-- Whether a hash is in the by-hash index. -/
def TxCache.contains (c : TxCache) (hash : Bytes) : Bool :=
  c.txByHash.any (fun e => decide (e.1 = hash))

/-- The list of a sender in the by-sender index. -/
def TxCache.findList (c : TxCache) (sender : Bytes) : Option SenderTxList :=
  c.txListBySender.find? (fun l => decide (l.sender = sender))

/-- Stores a list in the by-sender index in place of the one of its sender. -/
def TxCache.setList (c : TxCache) (l1 : SenderTxList) : TxCache :=
  { c with
    txListBySender := c.txListBySender.map (fun l => if l.sender = l1.sender then l1 else l) }

/-- Modelled from the spec: senders in ascending score order (worst first), as
`ForEachAscendingScore` visits them; equal scores keep the order of the
index. -/
def TxCache.snapshotAscending (score : ScoreFn) (c : TxCache) : List SenderTxList :=
  c.txListBySender.insertionSort (fun a b => score a ≤ score b)

/-- Modelled from the spec: senders in descending score order (best first), as
`ForEachDescendingScore` visits them; equal scores keep the order of the
index. -/
def TxCache.snapshotDescending (score : ScoreFn) (c : TxCache) : List SenderTxList :=
  c.txListBySender.insertionSort (fun a b => score b ≤ score a)

/-! ## Eviction Engine -/

/-- Modelled from the spec: the eviction trigger, total byte size or total
transaction count above its configured threshold. -/
def TxCache.aboveThreshold (c : TxCache) : Bool :=
  decide ((c.config.maxBytes : Int) < c.numBytes)
    || decide ((c.config.maxTxCount : Int) < c.txCount)

/-- Modelled from the spec: pass 1 of the eviction, which trims every list
longer than `perSenderTxCountCap` to the cap, drops the trimmed records from the
by-hash index and journals the counts. A list left without records leaves the
by-sender index. -/
def TxCache.evictPassOne (c : TxCache) : TxCache :=
  let cap := c.config.perSenderTxCountCap
  let oversized := c.txListBySender.filter (fun l => decide (cap < l.items.length))
  let removed := oversized.flatMap (fun l => l.items.drop cap)
  let trimmed := c.txListBySender.map (fun l => (l.TrimToCap cap).1)
  let kept := trimmed.filter (fun l => !l.items.isEmpty)
  let c1 : TxCache :=
    { c with
      txListBySender := kept
      senderCount := c.senderCount - ((trimmed.length : Int) - (kept.length : Int))
      evictionJournal :=
        { c.evictionJournal with
          passOneNumTxs := removed.length
          passOneNumSenders := oversized.length } }
  c1.txByHashRemoveBulk (removed.map (fun x => x.hash))

/-- Modelled from the spec: one step of pass 2, which removes the whole list of
every sender of the batch, drops their records from the by-hash index and
updates the counters and the journal. -/
def TxCache.evictSenders (c : TxCache) (batch : List Bytes) : TxCache :=
  let evicted := c.txListBySender.filter (fun l => decide (l.sender ∈ batch))
  let kept := c.txListBySender.filter (fun l => decide (l.sender ∉ batch))
  let txs := evicted.flatMap (fun l => l.items)
  let c1 : TxCache :=
    { c with
      txListBySender := kept
      senderCount := c.senderCount - (evicted.length : Int)
      evictionJournal :=
        { c.evictionJournal with
          passTwoNumTxs := c.evictionJournal.passTwoNumTxs + txs.length
          passTwoNumSenders := c.evictionJournal.passTwoNumSenders + evicted.length
          passTwoNumSteps := c.evictionJournal.passTwoNumSteps + 1 } }
  c1.txByHashRemoveBulk (txs.map (fun x => x.hash))

/-- Modelled from the spec: the loop of pass 2 over the senders still to visit,
in steps of `numSendersEvictedPerStep`. The threshold is checked before every
step and the loop stops once the cache is back under it, or when no sender is
left to visit. The first argument is the hard step budget. -/
def TxCache.evictPassTwoLoop : Nat → List Bytes → TxCache → TxCache
  | 0, _, c => c
  | fuel + 1, snapshot, c =>
    if !c.aboveThreshold then c
    else if snapshot.isEmpty then c
    else
      TxCache.evictPassTwoLoop fuel
        (snapshot.drop c.config.numSendersEvictedPerStep)
        (c.evictSenders (snapshot.take c.config.numSendersEvictedPerStep))

/-- Modelled from the spec: pass 2 of the eviction, over the senders in
ascending score order; its step budget is the number of senders, which lets a
positive step size visit them all. -/
def TxCache.evictPassTwo (score : ScoreFn) (c : TxCache) : TxCache :=
  let snapshot := (c.snapshotAscending score).map (fun l => l.sender)
  TxCache.evictPassTwoLoop snapshot.length snapshot c

/-- Modelled from the spec: an eviction run. It is gated by the
compare-and-swap on `isEvictionInProgress`: a caller that finds the flag set
returns without evicting; the winner runs pass 1, then pass 2 if the cache is
still above threshold, and releases the flag. -/
def TxCache.doEviction (score : ScoreFn) (c : TxCache) : TxCache :=
  if c.isEvictionInProgress then c
  else
    let c1 : TxCache :=
      { c with
        isEvictionInProgress := true
        evictionJournal :=
          { evictionPerformed := true, passOneNumTxs := 0, passOneNumSenders := 0,
            passTwoNumTxs := 0, passTwoNumSenders := 0, passTwoNumSteps := 0 } }
    let c2 := c1.evictPassOne
    let c3 := if c2.aboveThreshold then c2.evictPassTwo score else c2
    { c3 with isEvictionInProgress := false }

/-! ## Cache operations -/

/-- Errors of the cache. -/
inductive CacheError where
  | InvalidTransaction
deriving DecidableEq, Repr

/-- Modelled from the spec: the insertion of a record into both index maps.
The first record of a sender opens a new list; a record with a new nonce takes
a net-new slot; a record whose nonce is taken replaces the pending one if its
`feeRate` is strictly greater (the replaced record leaves the by-hash index) and
is discarded otherwise (`none`). -/
def TxCache.insertTx (c : TxCache) (r : TxRecord) : Option TxCache :=
  match c.findList r.sender with
  | none =>
    some (TxCache.txByHashAdd
      { c with
        txListBySender := c.txListBySender ++ [{ sender := r.sender, items := [r] }]
        senderCount := c.senderCount + 1 } r)
  | some l =>
    match l.items.find? (fun x => decide (x.nonce = r.nonce)) with
    | none => some ((c.setList (l.Insert r).1).txByHashAdd r)
    | some old =>
      if old.feeRate < r.feeRate then
        some (((c.setList (l.Insert r).1).txByHashRemove old.hash).1.txByHashAdd r)
      else none

/-- Modelled from the spec: `AddTx(record) -> (inserted, err)` (the function is
declared outside `monitoring.go`). A nil record, an empty hash or an empty
sender is rejected with `InvalidTransaction`; a hash already in the cache is a
true duplicate and changes nothing; otherwise the record is inserted and, if
the insertion pushed the cache above a threshold, the eviction runs inline. -/
def TxCache.AddTx (score : ScoreFn) (c : TxCache) (record : Option TxRecord) :
    TxCache × Bool × Option CacheError :=
  match record with
  | none => (c, false, some CacheError.InvalidTransaction)
  | some r =>
    if r.hash = [] ∨ r.sender = [] then (c, false, some CacheError.InvalidTransaction)
    else if c.contains r.hash then (c, false, none)
    else
      match c.insertTx r with
      | none => (c, false, none)
      | some c1 => (if c1.aboveThreshold then c1.doEviction score else c1, true, none)

/-- Modelled from the spec: `RemoveTx(hash)` (the function is declared outside
`monitoring.go`): a tolerant no-op if the hash is absent. The record leaves
the by-hash index, then the list of its sender; a list left without records
leaves the by-sender index. -/
def TxCache.RemoveTx (c : TxCache) (hash : Bytes) : TxCache :=
  match c.txByHashRemove hash with
  | (_, none) => c
  | (c1, some r) =>
    match c1.findList r.sender with
    | none => c1
    | some l =>
      let l1 := (l.Remove hash).1
      if l1.items.isEmpty then
        { c1 with
          txListBySender := c1.txListBySender.filter (fun x => decide (x.sender ≠ r.sender))
          senderCount := c1.senderCount - 1 }
      else c1.setList l1

/-! ## Selection Engine -/

/-- Modelled from the spec: the walk of selection over one sender's list in
ascending nonce order. It appends records while they fit the remaining gas and
byte budgets, stops the sender at the first record that would exceed one of
them, and never goes past a nonce gap. The first argument is the nonce of the
record taken last. -/
def SenderTxList.selectWalk : Option Nat → Nat → Nat → List TxRecord → List TxRecord
  | _, _, _, [] => []
  | last, gas, bytes, x :: xs =>
    if (match last with
        | none => false
        | some p => decide (x.nonce ≠ p + 1)) then []
    else if gas < x.gasLimit ∨ bytes < x.sizeBytes then []
    else x :: SenderTxList.selectWalk (some x.nonce) (gas - x.gasLimit) (bytes - x.sizeBytes) xs

/-- Modelled from the spec: the single pass of selection over the senders, best
score first. `haveTimeFn` is asked before each sender (its argument counts the
earlier calls) and a `false` answer returns what was gathered so far. -/
def TxCache.selectLoop (haveTimeFn : Nat → Bool) :
    Nat → Nat → Nat → List SenderTxList → List TxRecord
  | _, _, _, [] => []
  | calls, gas, bytes, l :: ls =>
    if !haveTimeFn calls then []
    else
      let picked := SenderTxList.selectWalk none gas bytes l.items
      picked ++ TxCache.selectLoop haveTimeFn (calls + 1)
        (gas - (picked.map (fun x => x.gasLimit)).sum)
        (bytes - (picked.map (fun x => x.sizeBytes)).sum) ls

/-- Modelled from the spec: `SelectTransactions(maxGas, maxBytes, haveTimeFn)`
(the function is declared outside `monitoring.go`); read-only on the
cache. -/
def TxCache.SelectTransactions (score : ScoreFn) (c : TxCache) (maxGas maxBytes : Nat)
    (haveTimeFn : Nat → Bool) : List TxRecord :=
  TxCache.selectLoop haveTimeFn 0 maxGas maxBytes (c.snapshotDescending score)

/-- Malformed input of `AddTx`: a nil record, an empty hash or an empty
sender. -/
def Malformed : Option TxRecord → Prop
  | none => True
  | some r => r.hash = [] ∨ r.sender = []

/-- Whether the insertion of `r` pushes the cache above a threshold, which is
what triggers the eviction. -/
def TxCache.insertionBreachesThreshold (c : TxCache) (r : TxRecord) : Bool :=
  match c.insertTx r with
  | none => false
  | some c1 => c1.aboveThreshold

/-- The transactions `SelectTransactions` returns for one sender, in the order
returned. -/
def TxCache.selectedOf (score : ScoreFn) (c : TxCache) (maxGas maxBytes : Nat)
    (haveTimeFn : Nat → Bool) (sender : Bytes) : List TxRecord :=
  (c.SelectTransactions score maxGas maxBytes haveTimeFn).filter
    (fun x => decide (x.sender = sender))

/-! ## Histories -/

/-- Modelled from the spec: a cache as created, with its fixed configuration
and no entry. -/
def NewTxCache (config : CacheConfig) : TxCache :=
  { config := config, txByHash := [], txListBySender := [], txCount := 0, numBytes := 0,
    senderCount := 0, isEvictionInProgress := false, numTxAddedBetweenSelections := 0,
    numTxRemovedBetweenSelections := 0, numTxAddedDuringEviction := 0,
    numTxRemovedDuringEviction := 0,
    evictionJournal :=
      { evictionPerformed := false, passOneNumTxs := 0, passOneNumSenders := 0,
        passTwoNumTxs := 0, passTwoNumSenders := 0, passTwoNumSteps := 0 } }

/-- An operation of a caller on the cache. -/
inductive CacheOp where
  | add (record : Option TxRecord)
  | remove (hash : Bytes)
deriving DecidableEq, Repr

/-- The cache after one operation. -/
def TxCache.applyOp (score : ScoreFn) (c : TxCache) : CacheOp → TxCache
  | CacheOp.add record => (c.AddTx score record).1
  | CacheOp.remove hash => c.RemoveTx hash

/-- The cache after a sequence of operations, at quiescence. -/
def TxCache.runOps (score : ScoreFn) (c : TxCache) (ops : List CacheOp) : TxCache :=
  ops.foldl (TxCache.applyOp score) c

/-- A list strictly ascending by nonce. -/
def StrictlyAscending (items : List TxRecord) : Prop :=
  items.Pairwise (fun a b => a.nonce < b.nonce)

/-- A well-formed Sender Transaction List: strictly ascending by nonce, not
empty, and holding records of its own sender only. -/
def GoodList (l : SenderTxList) : Prop :=
  StrictlyAscending l.items ∧ l.items ≠ [] ∧ ∀ x ∈ l.items, x.sender = l.sender

/-- A well-formed by-sender index: well-formed lists, one per sender. -/
def GoodLists (ls : List SenderTxList) : Prop :=
  (∀ l ∈ ls, GoodList l) ∧ (ls.map (fun l => l.sender)).Nodup

/-- The by-sender index of the cache is well-formed. -/
def TxCache.WellFormed (c : TxCache) : Prop := GoodLists c.txListBySender

/-- A step that touches the by-hash index and its two counters at most. -/
def TxCache.ByHashStep (c c1 : TxCache) : Prop :=
  c1.txListBySender = c.txListBySender ∧ c1.config = c.config ∧
  c1.isEvictionInProgress = c.isEvictionInProgress ∧ c1.senderCount = c.senderCount

/-- The second record carries the nonce right after the first one. -/
def Consecutive (a b : TxRecord) : Prop := b.nonce = a.nonce + 1

/-! ## Example inputs -/

/-- A score for the examples: the sum of the fee rates of the list. -/
def feeScore : ScoreFn := fun l => (l.items.map (fun x => x.feeRate)).sum

/-- A configuration whose thresholds the examples stay far below. -/
def roomyConfig : CacheConfig :=
  { maxBytes := 1000000, maxTxCount := 1000, perSenderTxCountCap := 100,
    numSendersEvictedPerStep := 1 }

/-- Sender `[7]`, nonce 5, feeRate 10. -/
def recLow : TxRecord :=
  { hash := [1], sender := [7], nonce := 5, feeRate := 10, sizeBytes := 100, gasLimit := 50 }

/-- Sender `[7]`, nonce 5 again, feeRate 20, another hash. -/
def recHigh : TxRecord :=
  { hash := [2], sender := [7], nonce := 5, feeRate := 20, sizeBytes := 100, gasLimit := 50 }

/-- Sender `[8]`, nonce 0. -/
def recOther : TxRecord :=
  { hash := [3], sender := [8], nonce := 0, feeRate := 10, sizeBytes := 100, gasLimit := 50 }

/-- A configuration that tolerates one transaction and evicts two senders per
step. -/
def tightConfig : CacheConfig :=
  { maxBytes := 1000000, maxTxCount := 1, perSenderTxCountCap := 100,
    numSendersEvictedPerStep := 2 }

/-- A configuration of 50 bytes whose pass 2 evicts no sender per step. -/
def zeroStepConfig : CacheConfig :=
  { maxBytes := 50, maxTxCount := 1000, perSenderTxCountCap := 100,
    numSendersEvictedPerStep := 0 }

/-- Sender `[7]`, nonce 6. -/
def recNext : TxRecord :=
  { hash := [4], sender := [7], nonce := 6, feeRate := 10, sizeBytes := 100, gasLimit := 50 }

/-- The roomy cache after `recLow` was added. -/
def cacheWithLow : TxCache :=
  (NewTxCache roomyConfig).runOps feeScore [CacheOp.add (some recLow)]

/-- The tight cache after `recLow` was added: at its transaction threshold. -/
def tightCacheWithLow : TxCache :=
  (NewTxCache tightConfig).runOps feeScore [CacheOp.add (some recLow)]

/-- Sender `[7]`, nonce 3. -/
def recThree : TxRecord :=
  { hash := [5], sender := [7], nonce := 3, feeRate := 10, sizeBytes := 100, gasLimit := 50 }

/-- The roomy cache after nonce 5, then nonce 3, of sender `[7]` were added: a
gap at nonce 4. -/
def cacheWithGap : TxCache :=
  (NewTxCache roomyConfig).runOps feeScore
    [CacheOp.add (some recLow), CacheOp.add (some recThree)]

/-- Sender `[7]`, nonce 0, gas 50. -/
def recFirst : TxRecord :=
  { hash := [10], sender := [7], nonce := 0, feeRate := 10, sizeBytes := 100, gasLimit := 50 }

/-- Sender `[7]`, nonce 1, gas 50. -/
def recSecond : TxRecord :=
  { hash := [11], sender := [7], nonce := 1, feeRate := 10, sizeBytes := 100, gasLimit := 50 }

/-- Sender `[8]`, nonce 0, gas 10, a lower fee rate. -/
def recCheap : TxRecord :=
  { hash := [12], sender := [8], nonce := 0, feeRate := 5, sizeBytes := 100, gasLimit := 10 }

/-- The roomy cache with two records of sender `[7]` and one of sender `[8]`. -/
def cacheTwoSenders : TxCache :=
  (NewTxCache roomyConfig).runOps feeScore
    [CacheOp.add (some recFirst), CacheOp.add (some recSecond), CacheOp.add (some recCheap)]

/-! ## Concurrent callers of Add -/

/-- Modelled from the spec: where a caller of Add stands. It has its record
still to insert, or it stands at the compare-and-swap on
`isEvictionInProgress`, or it runs the eviction (before pass 1, before pass 2,
before the release of the flag), or it has returned, having run an eviction or
not. -/
inductive AddCaller where
  | toInsert (record : Option TxRecord)
  | atGate
  | beforePassOne
  | beforePassTwo
  | beforeRelease
  | returned (evicted : Bool)
deriving DecidableEq, Repr

/-- The caller is inside an eviction run. -/
def AddCaller.evicting : AddCaller → Bool
  | AddCaller.beforePassOne => true
  | AddCaller.beforePassTwo => true
  | AddCaller.beforeRelease => true
  | _ => false

/-- Modelled from the spec: one atomic step of a caller of Add on the shared
cache. The insertion is the one of `AddTx` and sends the caller to the gate if
the cache is above a threshold; at the gate the compare-and-swap either finds
the flag set, and the caller returns without evicting, or sets it, and the
caller starts an eviction run; the run is pass 1, then pass 2 if the cache is
still above threshold, then the release of the flag. -/
def AddCaller.step (score : ScoreFn) (c : TxCache) : AddCaller → TxCache × AddCaller
  | AddCaller.toInsert none => (c, AddCaller.returned false)
  | AddCaller.toInsert (some r) =>
    if r.hash = [] ∨ r.sender = [] then (c, AddCaller.returned false)
    else if c.contains r.hash then (c, AddCaller.returned false)
    else
      match c.insertTx r with
      | none => (c, AddCaller.returned false)
      | some c1 =>
        (c1, if c1.aboveThreshold then AddCaller.atGate else AddCaller.returned false)
  | AddCaller.atGate =>
    if c.isEvictionInProgress then (c, AddCaller.returned false)
    else
      ({ c with
         isEvictionInProgress := true
         evictionJournal :=
           { evictionPerformed := true, passOneNumTxs := 0, passOneNumSenders := 0,
             passTwoNumTxs := 0, passTwoNumSenders := 0, passTwoNumSteps := 0 } },
        AddCaller.beforePassOne)
  | AddCaller.beforePassOne => (c.evictPassOne, AddCaller.beforePassTwo)
  | AddCaller.beforePassTwo =>
    (if c.aboveThreshold then c.evictPassTwo score else c, AddCaller.beforeRelease)
  | AddCaller.beforeRelease =>
    ({ c with isEvictionInProgress := false }, AddCaller.returned true)
  | AddCaller.returned evicted => (c, AddCaller.returned evicted)

/-- Modelled from the spec: a cache shared by concurrent callers of Add. -/
structure SharedCache where
  cache : TxCache
  callers : List AddCaller
deriving DecidableEq, Repr

/-- The shared cache when each caller is about to insert its record. -/
def SharedCache.start (c : TxCache) (records : List (Option TxRecord)) : SharedCache :=
  { cache := c, callers := records.map AddCaller.toInsert }

/-- Modelled from the spec: the caller of index `i` takes its next atomic step
on the shared cache; an index that names no caller changes nothing. -/
def SharedCache.step (score : ScoreFn) (s : SharedCache) (i : Nat) : SharedCache :=
  match s.callers[i]? with
  | none => s
  | some caller =>
    { cache := (caller.step score s.cache).1,
      callers := s.callers.set i (caller.step score s.cache).2 }

/-- Modelled from the spec: an interleaving of concurrent Add calls, in which
the callers take their atomic steps in the order of the schedule. -/
def SharedCache.run (score : ScoreFn) (s : SharedCache) (schedule : List Nat) : SharedCache :=
  schedule.foldl (SharedCache.step score) s

/-- The number of callers inside an eviction run. -/
def SharedCache.evictionRuns (s : SharedCache) : Nat :=
  s.callers.countP AddCaller.evicting

/-- The flag counts the eviction runs: one run while it is set, none while it
is clear. -/
def SharedCache.Gated (s : SharedCache) : Prop :=
  s.evictionRuns = if s.cache.isEvictionInProgress then 1 else 0

/-- Two callers on the tight cache that holds `recLow`: each adds one record and
finds the cache above its transaction threshold. -/
def twoCallers : SharedCache :=
  SharedCache.start tightCacheWithLow [some recOther, some recNext]

end Txcache

/-!
# Go maps

A Go map is kept as an association list that is read by its first entry for
a key; the functions and theorems that range over a map hold for every order
of its entries.
-/

namespace GoMap

/-- Lookup `m[k]`; `none` when the key is missing. -/
def lookup {K V : Type} [DecidableEq K] (m : List (K × V)) (k : K) : Option V :=
  (m.find? (fun e => decide (e.1 = k))).map (fun e => e.2)

/-- Assignment `m[k] = v`. -/
def store {K V : Type} [DecidableEq K] (m : List (K × V)) (k : K) (v : V) : List (K × V) :=
  if m.any (fun e => decide (e.1 = k)) then m.map (fun e => if e.1 = k then (k, v) else e)
  else m ++ [(k, v)]

/-- Deletion `delete(m, k)`. -/
def remove {K V : Type} [DecidableEq K] (m : List (K × V)) (k : K) : List (K × V) :=
  m.filter (fun e => decide (e.1 ≠ k))

end GoMap

/-!
# Block tracker (`process/track/baseBlockTrack.go`)

Headers are seen through the getters the tracker calls (`GetShardID`,
`GetRound`, `GetNonce`); a Go map is an association list read by its first
entry for a key; `int64` arithmetic wraps modulo `2^64`.
-/

namespace Track

/-- Byte strings: header hashes. -/
abbrev Bytes := List Nat

/-- The sentinel errors of package `process` that the tracker returns, and
the errors it receives from its collaborators. -/
inductive ProcessError where
  | ErrNilHeaderHandler
  | ErrHigherRoundInBlock
  | ErrLowerRoundInBlock
  | ErrLowerNonceInBlock
  | ErrHigherNonceInBlock
  | collaborator (code : Nat)
deriving DecidableEq, Repr

/-- A Go error value: a sentinel, or `fmt.Errorf("%w ...", err, ...)` wrapping
an error (the formatted text is left out). -/
inductive GoError where
  | sentinel (e : ProcessError)
  | wrap (inner : GoError)
deriving DecidableEq, Repr

/-- A non-nil `data.HeaderHandler`, as the tracker reads it: `GetShardID()`
(`uint32`), `GetRound()` and `GetNonce()` (`uint64`). -/
structure HeaderHandler where
  shardID : Nat
  round : Nat
  nonce : Nat
deriving DecidableEq, Repr

/-- `HeaderInfo` (lines 24-27). -/
structure HeaderInfo where
  Hash : Bytes
  Header : HeaderHandler
deriving DecidableEq, Repr

/-- Go conversion to `int64`, and the result of `int64` arithmetic: the value
modulo `2^64`, taken in `[-2^63, 2^63)`. -/
def toInt64 (x : Int) : Int :=
  (x + 9223372036854775808) % 18446744073709551616 - 9223372036854775808

/-- `baseBlockTrack` (lines 29-47), with what the functions below read of its
collaborators: the shard coordinator's `SelfId()` and `NumberOfShards()`, the
rounder's `Index()` (an `int64`), `GetFirstNotarizedHeader` of the two
notarizers, whose success carries a header and its hash,
`GetLastNotarizedHeader` of the cross notarizer and `ComputeLongestChain` of
the block processor. The interfaces are declared outside
`baseBlockTrack.go`. -/
structure baseBlockTrack where
  /-- Value of `shardCoordinator.SelfId()` -/
  selfId : Nat
  /-- Value of `rounder.Index()` -/
  rounderIndex : Int
  /-- Result of `crossNotarizer.GetFirstNotarizedHeader(shardID)` -/
  crossFirstNotarized : Nat → Except GoError (HeaderHandler × Bytes)
  /-- Result of `selfNotarizer.GetFirstNotarizedHeader(shardID)` -/
  selfFirstNotarized : Nat → Except GoError (HeaderHandler × Bytes)
  /-- The field `headers map[uint32]map[uint64][]*HeaderInfo` -/
  headers : List (Nat × List (Nat × List HeaderInfo))
  /-- Value of `shardCoordinator.NumberOfShards()` -/
  numberOfShards : Nat
  /-- Result of `crossNotarizer.GetLastNotarizedHeader(shardID)`; the header of
  a success may be nil -/
  crossLastNotarized : Nat → Except GoError (Option HeaderHandler × Bytes)
  /-- Result of `blockProcessor.ComputeLongestChain(shardID, header)`: the
  headers of the chain and their hashes; a nil slice is the empty list -/
  blockProcessorLongestChain : Nat → Option HeaderHandler → List HeaderHandler × List Bytes

/-- `baseBlockTrack.GetFinalHeader` (lines 343-350). -/
def baseBlockTrack.GetFinalHeader (bbt : baseBlockTrack) (shardID : Nat) :
    Except GoError (HeaderHandler × Bytes) :=
  if shardID ≠ bbt.selfId then bbt.crossFirstNotarized shardID
  else bbt.selfFirstNotarized shardID

/-- `baseBlockTrack.CheckBlockAgainstRounder` (lines 280-295); `none` is the
nil header, respectively the nil error. -/
def baseBlockTrack.CheckBlockAgainstRounder (bbt : baseBlockTrack)
    (headerHandler : Option HeaderHandler) : Option GoError :=
  match headerHandler with
  | none => some (GoError.sentinel ProcessError.ErrNilHeaderHandler)
  | some h =>
    let nextRound := toInt64 (bbt.rounderIndex + 1)
    if toInt64 h.round > nextRound then
      some (GoError.wrap (GoError.sentinel ProcessError.ErrHigherRoundInBlock))
    else none

/-- `baseBlockTrack.CheckBlockAgainstFinal` (lines 297-341); `none` is the
nil header, respectively the nil error. -/
def baseBlockTrack.CheckBlockAgainstFinal (bbt : baseBlockTrack)
    (headerHandler : Option HeaderHandler) : Option GoError :=
  match headerHandler with
  | none => some (GoError.sentinel ProcessError.ErrNilHeaderHandler)
  | some h =>
    match bbt.GetFinalHeader h.shardID with
    | Except.error err => some (GoError.wrap err)
    | Except.ok (finalHeader, _) =>
      let roundDif := toInt64 (toInt64 h.round - toInt64 finalHeader.round)
      let nonceDif := toInt64 (toInt64 h.nonce - toInt64 finalHeader.nonce)
      if roundDif < 0 then
        some (GoError.wrap (GoError.sentinel ProcessError.ErrLowerRoundInBlock))
      else if nonceDif < 0 then
        some (GoError.wrap (GoError.sentinel ProcessError.ErrLowerNonceInBlock))
      else if roundDif < nonceDif then
        some (GoError.wrap (GoError.sentinel ProcessError.ErrHigherNonceInBlock))
      else none

/-- `baseBlockTrack.restoreTrackedHeadersToGenesis` (lines 493-497): the
tracked headers become an empty map. -/
def baseBlockTrack.restoreTrackedHeadersToGenesis (bbt : baseBlockTrack) : baseBlockTrack :=
  { bbt with headers := [] }

/-- `baseBlockTrack.addHeader` (lines 94-118). The map of the shard is created
when missing; a header whose hash is already stored under its nonce is not
added again. -/
def baseBlockTrack.addHeader (bbt : baseBlockTrack) (header : Option HeaderHandler)
    (hash : Bytes) : baseBlockTrack :=
  match header with
  | none => bbt
  | some h =>
    let shardID := h.shardID
    let nonce := h.nonce
    let created : List (Nat × List (Nat × List HeaderInfo)) × List (Nat × List HeaderInfo) :=
      match GoMap.lookup bbt.headers shardID with
      | some headersForShard => (bbt.headers, headersForShard)
      | none => (GoMap.store bbt.headers shardID [], [])
    let infos := (GoMap.lookup created.2 nonce).getD []
    if infos.any (fun hdrInfo => decide (hdrInfo.Hash = hash)) then
      { bbt with headers := created.1 }
    else
      { bbt with
        headers := GoMap.store created.1 shardID
          (GoMap.store created.2 nonce (infos ++ [{ Hash := hash, Header := h }])) }

/-- `baseBlockTrack.SortHeadersFromNonce` (lines 396-431). `sortSlice` is
`sort.Slice` with the comparison by `Header.GetNonce()`; `none` is a nil
slice. -/
def baseBlockTrack.SortHeadersFromNonce (sortSlice : List HeaderInfo → List HeaderInfo)
    (bbt : baseBlockTrack) (shardID nonce : Nat) :
    Option (List HeaderHandler) × Option (List Bytes) :=
  match GoMap.lookup bbt.headers shardID with
  | none => (none, none)
  | some headersForShard =>
    let sortedHeadersInfo : List HeaderInfo :=
      headersForShard.foldl
        (fun acc e => if e.1 < nonce then acc else acc ++ e.2) []
    let sortedHeadersInfo :=
      if sortedHeadersInfo.length > 1 then sortSlice sortedHeadersInfo else sortedHeadersInfo
    let headers := sortedHeadersInfo.foldl (fun acc hdrInfo => acc ++ [hdrInfo.Header]) []
    let headersHashes := sortedHeadersInfo.foldl (fun acc hdrInfo => acc ++ [hdrInfo.Hash]) []
    (some headers, some headersHashes)

/-- `baseBlockTrack.cleanupTrackedHeadersBehindNonce` (lines 160-178): the
range over the keys of the shard's map deletes every key below `nonce`. -/
def baseBlockTrack.cleanupTrackedHeadersBehindNonce (bbt : baseBlockTrack)
    (shardID nonce : Nat) : baseBlockTrack :=
  if nonce = 0 then bbt
  else
    match GoMap.lookup bbt.headers shardID with
    | none => bbt
    | some headersForShard =>
      { bbt with
        headers := GoMap.store bbt.headers shardID
          ((headersForShard.map (fun e => e.1)).foldl
            (fun m headersNonce => if headersNonce < nonce then GoMap.remove m headersNonce else m)
            headersForShard) }

/-- A call made on a notarizer, which keeps its own lists. -/
inductive NotarizerCall where
  | selfCleanupNotarizedHeadersBehindNonce (shardID nonce : Nat)
  | crossCleanupNotarizedHeadersBehindNonce (shardID nonce : Nat)
deriving DecidableEq, Repr

/-- `baseBlockTrack.CleanupHeadersBehindNonce` (lines 143-158): the tracker
afterwards and the calls made on the notarizers. -/
def baseBlockTrack.CleanupHeadersBehindNonce (bbt : baseBlockTrack)
    (shardID selfNotarizedNonce crossNotarizedNonce : Nat) :
    baseBlockTrack × List NotarizerCall :=
  let calls := [NotarizerCall.selfCleanupNotarizedHeadersBehindNonce shardID selfNotarizedNonce]
  let nonce := selfNotarizedNonce
  if shardID ≠ bbt.selfId then
    (bbt.cleanupTrackedHeadersBehindNonce shardID crossNotarizedNonce,
      calls ++ [NotarizerCall.crossCleanupNotarizedHeadersBehindNonce shardID
        crossNotarizedNonce])
  else (bbt.cleanupTrackedHeadersBehindNonce shardID nonce, calls)

/-- The tracked headers of a shard: every `HeaderInfo` stored in its map. -/
def baseBlockTrack.trackedHeaders (bbt : baseBlockTrack) (shardID : Nat) : List HeaderInfo :=
  match GoMap.lookup bbt.headers shardID with
  | none => []
  | some headersForShard => headersForShard.flatMap (fun e => e.2)

/-- A call of a user of the tracker. -/
inductive TrackerCall where
  | AddTrackedHeader (header : Option HeaderHandler) (hash : Bytes)
  | CleanupHeadersBehindNonce (shardID selfNotarizedNonce crossNotarizedNonce : Nat)
deriving DecidableEq, Repr

/-- The tracker after one call. -/
def baseBlockTrack.call (bbt : baseBlockTrack) : TrackerCall → baseBlockTrack
  | TrackerCall.AddTrackedHeader header hash => bbt.addHeader header hash
  | TrackerCall.CleanupHeadersBehindNonce shardID selfNonce crossNonce =>
    (bbt.CleanupHeadersBehindNonce shardID selfNonce crossNonce).1

/-- The tracker after a sequence of calls. -/
def baseBlockTrack.calls (bbt : baseBlockTrack) (cs : List TrackerCall) : baseBlockTrack :=
  cs.foldl baseBlockTrack.call bbt

/-- The tracker after a sequence of `addHeader` calls. -/
def baseBlockTrack.addHeaders (bbt : baseBlockTrack)
    (cs : List (Option HeaderHandler × Bytes)) : baseBlockTrack :=
  cs.foldl (fun t c => t.addHeader c.1 c.2) bbt

/-- Every `HeaderInfo` of a shard's map is stored under the nonce of its
header. -/
def NoncesMatch (m : List (Nat × List HeaderInfo)) : Prop :=
  ∀ e ∈ m, ∀ info ∈ e.2, info.Header.nonce = e.1

/-- Every tracked header is stored under its own nonce. -/
def baseBlockTrack.KeysMatch (bbt : baseBlockTrack) : Prop :=
  ∀ s ∈ bbt.headers, NoncesMatch s.2

/-- Every shard that has a map tracks at least one header. -/
def baseBlockTrack.ShardsHold (bbt : baseBlockTrack) : Prop :=
  ∀ s ∈ bbt.headers, s.2.flatMap (fun e => e.2) ≠ []

/-- What `sort.Slice` guarantees for the comparison by nonce: the same
elements, none before one of a smaller nonce. -/
def SortsByNonce (sortSlice : List HeaderInfo → List HeaderInfo) : Prop :=
  ∀ l, (sortSlice l).Perm l ∧
    (sortSlice l).Pairwise (fun a b => a.Header.nonce ≤ b.Header.nonce)

/-- An instance of `sort.Slice` by nonce: insertion sort. -/
def insertionSortByNonce (l : List HeaderInfo) : List HeaderInfo :=
  l.insertionSort (fun a b => a.Header.nonce ≤ b.Header.nonce)

/-- The threshold of `CleanupHeadersBehindNonce`: the self notarized nonce for
the node's own shard, the cross notarized nonce for another shard. -/
def baseBlockTrack.cleanupThreshold (bbt : baseBlockTrack)
    (shardID selfNotarizedNonce crossNotarizedNonce : Nat) : Nat :=
  if shardID = bbt.selfId then selfNotarizedNonce else crossNotarizedNonce

/-- `baseBlockTrack.GetLastCrossNotarizedHeader` (lines 352-355). -/
def baseBlockTrack.GetLastCrossNotarizedHeader (bbt : baseBlockTrack) (shardID : Nat) :
    Except GoError (Option HeaderHandler × Bytes) :=
  bbt.crossLastNotarized shardID

/-- The loop of `GetLastCrossNotarizedHeadersForAllShards` (lines 362-369) over
the shard ids still to visit, with the map built so far. -/
def baseBlockTrack.lastHeadersLoop (bbt : baseBlockTrack) :
    List Nat → List (Nat × Option HeaderHandler) →
      Except GoError (List (Nat × Option HeaderHandler))
  | [], lastCrossNotarizedHeaders => Except.ok lastCrossNotarizedHeaders
  | shardID :: rest, lastCrossNotarizedHeaders =>
    match bbt.GetLastCrossNotarizedHeader shardID with
    | Except.error err => Except.error err
    | Except.ok (lastCrossNotarizedHeader, _) =>
      bbt.lastHeadersLoop rest
        (GoMap.store lastCrossNotarizedHeaders shardID lastCrossNotarizedHeader)

/-- `baseBlockTrack.GetLastCrossNotarizedHeadersForAllShards` (lines 357-372):
the map of the last cross notarized header of every shard, or the first
error. -/
def baseBlockTrack.GetLastCrossNotarizedHeadersForAllShards (bbt : baseBlockTrack) :
    Except GoError (List (Nat × Option HeaderHandler)) :=
  bbt.lastHeadersLoop (List.range bbt.numberOfShards) []

/-- `baseBlockTrack.ComputeLongestChain` (lines 180-183). -/
def baseBlockTrack.ComputeLongestChain (bbt : baseBlockTrack) (shardID : Nat)
    (header : Option HeaderHandler) : List HeaderHandler × List Bytes :=
  bbt.blockProcessorLongestChain shardID header

/-- The variables of the first loop of
`ComputeLongestShardsChainsFromLastNotarized`. -/
structure chainsOfShards where
  hdrsMap : List (Nat × List HeaderHandler)
  hdrsHashesMap : List (Nat × List Bytes)
  maxHdrLen : Nat
deriving DecidableEq, Repr

/-- The body of the first loop of `ComputeLongestShardsChainsFromLastNotarized`
(lines 208-217) for one shard id. -/
def baseBlockTrack.chainsStep (bbt : baseBlockTrack)
    (lastCrossNotarizedHeaders : List (Nat × Option HeaderHandler))
    (st : chainsOfShards) (shardID : Nat) : chainsOfShards :=
  let chain := bbt.ComputeLongestChain shardID
    ((GoMap.lookup lastCrossNotarizedHeaders shardID).getD none)
  let hdrsForShard := chain.1
  let hdrsHashesForShard := chain.2
  let tmpHdrLen := hdrsForShard.length
  { hdrsMap := GoMap.store st.hdrsMap shardID
      ((GoMap.lookup st.hdrsMap shardID).getD [] ++ hdrsForShard),
    hdrsHashesMap := GoMap.store st.hdrsHashesMap shardID
      ((GoMap.lookup st.hdrsHashesMap shardID).getD [] ++ hdrsHashesForShard),
    maxHdrLen := if st.maxHdrLen < tmpHdrLen then tmpHdrLen else st.maxHdrLen }

/-- The body of the inner copy loop of
`ComputeLongestShardsChainsFromLastNotarized` (lines 225-233) for position `i`
and one shard id, on the two ordered lists built so far; `none` is the
run-time panic of an index out of range. -/
def copyStep (st : chainsOfShards) (i : Nat) (ordered : List HeaderHandler × List Bytes)
    (shardID : Nat) : Option (List HeaderHandler × List Bytes) :=
  let hdrsForShard := (GoMap.lookup st.hdrsMap shardID).getD []
  let hdrsHashesForShard := (GoMap.lookup st.hdrsHashesMap shardID).getD []
  if i ≥ hdrsForShard.length then some ordered
  else
    match hdrsForShard[i]?, hdrsHashesForShard[i]? with
    | some header, some hash => some (ordered.1 ++ [header], ordered.2 ++ [hash])
    | _, _ => none

/-- `baseBlockTrack.ComputeLongestShardsChainsFromLastNotarized` (lines
197-238). The outer `none` is the run-time panic of an index out of range; in
the result `none` is a nil slice, a nil map, respectively the nil error. -/
def baseBlockTrack.ComputeLongestShardsChainsFromLastNotarized (bbt : baseBlockTrack) :
    Option (Option (List HeaderHandler) × Option (List Bytes) ×
      Option (List (Nat × List HeaderHandler)) × Option GoError) :=
  match bbt.GetLastCrossNotarizedHeadersForAllShards with
  | Except.error err => some (none, none, none, some err)
  | Except.ok lastCrossNotarizedHeaders =>
    let st := (List.range bbt.numberOfShards).foldl
      (bbt.chainsStep lastCrossNotarizedHeaders)
      { hdrsMap := [], hdrsHashesMap := [], maxHdrLen := 0 }
    match (List.range st.maxHdrLen).foldlM
        (fun ordered i => (List.range bbt.numberOfShards).foldlM (copyStep st i) ordered)
        ([], []) with
    | none => none
    | some ordered => some (some ordered.1, some ordered.2, some st.hdrsMap, none)

/-- The last cross notarized header of a shard, nil when the notarizer
fails. -/
def baseBlockTrack.lastCrossNotarizedHeader (bbt : baseBlockTrack) (shardID : Nat) :
    Option HeaderHandler :=
  match bbt.crossLastNotarized shardID with
  | Except.ok (header, _) => header
  | Except.error _ => none

/-- The longest chain of a shard from its last cross notarized header: the
headers and their hashes, as the block processor gives them. -/
def baseBlockTrack.longestChainOf (bbt : baseBlockTrack) (shardID : Nat) :
    List HeaderHandler × List Bytes :=
  bbt.blockProcessorLongestChain shardID (bbt.lastCrossNotarizedHeader shardID)

/-- The order of the copy: by position in the chain first, by shard id
second. The pairs are (position, shard id). -/
def positionThenShard (a b : Nat × Nat) : Prop :=
  a.1 < b.1 ∨ (a.1 = b.1 ∧ a.2 < b.2)

/-- The pairs (position, shard id) in the order of the copy loops over
`maxHdrLen` positions and `numberOfShards` shards, for chains of the given
lengths. -/
def copySlots (lens : Nat → Nat) (numberOfShards maxHdrLen : Nat) : List (Nat × Nat) :=
  (List.range maxHdrLen).flatMap
    (fun i => ((List.range numberOfShards).filter (fun s => decide (i < lens s))).map
      (fun s => (i, s)))

/-- A tracker of three shards whose notarizer gives a header for every shard
and whose block processor gives chains of 2, 0 and 3 headers. -/
def trackerWithChains : baseBlockTrack :=
  { selfId := 0, rounderIndex := 0,
    crossFirstNotarized := fun s => Except.ok ({ shardID := s, round := 0, nonce := 0 }, [s]),
    selfFirstNotarized := fun s => Except.ok ({ shardID := s, round := 0, nonce := 0 }, [s]),
    headers := [], numberOfShards := 3,
    crossLastNotarized :=
      fun s => Except.ok (some { shardID := s, round := 1, nonce := 1 }, [s, 1]),
    blockProcessorLongestChain := fun s _ =>
      if s = 0 then
        ([{ shardID := 0, round := 2, nonce := 2 }, { shardID := 0, round := 3, nonce := 3 }],
          [[0, 2], [0, 3]])
      else if s = 2 then
        ([{ shardID := 2, round := 2, nonce := 2 }, { shardID := 2, round := 3, nonce := 3 },
            { shardID := 2, round := 4, nonce := 4 }],
          [[2, 2], [2, 3], [2, 4]])
      else ([], []) }

/-- The same tracker with a notarizer that fails for shard 1. -/
def trackerWithFailure : baseBlockTrack :=
  { trackerWithChains with
    crossLastNotarized := fun s =>
      if s = 1 then Except.error (GoError.sentinel (ProcessError.collaborator 7))
      else Except.ok (some { shardID := s, round := 1, nonce := 1 }, [s, 1]) }

/-- The same tracker with a block processor that gives shard 0 two headers and
one hash. -/
def trackerWithShortHashes : baseBlockTrack :=
  { trackerWithChains with
    blockProcessorLongestChain := fun s _ =>
      if s = 0 then
        ([{ shardID := 0, round := 2, nonce := 2 }, { shardID := 0, round := 3, nonce := 3 }],
          [[0, 2]])
      else ([], []) }

/-- A tracker of shard 0 whose rounder is at index 0 and whose notarizers hold
`final` as first notarized header of every shard; it tracks no header. -/
def trackerWithFinal (final : HeaderHandler) : baseBlockTrack :=
  { selfId := 0, rounderIndex := 0,
    crossFirstNotarized := fun _ => Except.ok (final, [1]),
    selfFirstNotarized := fun _ => Except.ok (final, [1]),
    headers := [], numberOfShards := 1,
    crossLastNotarized := fun _ => Except.ok (some final, [1]),
    blockProcessorLongestChain := fun _ _ => ([], []) }

/-- The header of shard 0 with round 0 and nonce 0. -/
def headerZero : HeaderHandler := { shardID := 0, round := 0, nonce := 0 }

/-- A header of shard 0 with round `2^63` and nonce 0. -/
def headerFarRound : HeaderHandler :=
  { shardID := 0, round := 9223372036854775808, nonce := 0 }

/-- A header of shard 0 with round 7 and nonce 5. -/
def headerSevenFive : HeaderHandler := { shardID := 0, round := 7, nonce := 5 }

/-- Three `addHeader` calls on shard 0 (nonces 5, 3, 5) and one on shard 1. -/
def sampleAdds : List (Option HeaderHandler × Bytes) :=
  [(some { shardID := 0, round := 1, nonce := 5 }, [5]),
   (some { shardID := 0, round := 1, nonce := 3 }, [3]),
   (some { shardID := 1, round := 1, nonce := 3 }, [13]),
   (some { shardID := 0, round := 2, nonce := 5 }, [55])]

/-- The same calls, as calls of a user of the tracker. -/
def sampleCalls : List TrackerCall :=
  sampleAdds.map (fun c => TrackerCall.AddTrackedHeader c.1 c.2)

end Track

/-!
# Intermediate results post-processor (`process/block/postprocess/basePostProcess.go`)
-/

namespace Postprocess

/-- Byte strings: transaction hashes (the keys `string(txHash)`) and
marshalled transactions. -/
abbrev Bytes := List Nat

/-- The sentinel error of package `process` that `CreateMarshalizedData`
returns. -/
inductive ProcessError where
  | ErrMarshalWithoutSuccess
deriving DecidableEq, Repr

/-- A non-nil `data.TransactionHandler`; its content is not looked at. -/
structure TransactionHandler where
  id : Nat
deriving DecidableEq, Repr

/-- `txInfo` with its `txShardInfo` (lines 18-26): the transaction, which may
be nil, and the two shard ids. -/
structure txInfo where
  tx : Option TransactionHandler
  senderShardID : Nat
  receiverShardID : Nat
deriving DecidableEq, Repr

/-- `basePostProcessor` (lines 30-40), with what the functions below read of
its collaborators: the shard coordinator's `SelfId()` and the marshalizer's
`Marshal`, which gives the bytes or fails (`none`). -/
structure basePostProcessor where
  /-- Value of `shardCoordinator.SelfId()` -/
  selfId : Nat
  /-- Result of `marshalizer.Marshal(tx)` -/
  marshal : TransactionHandler → Option Bytes
  /-- The field `interResultsForBlock map[string]*txInfo` -/
  interResultsForBlock : List (Bytes × txInfo)

/-- The loop of `CreateMarshalizedData` (lines 79-91) over the hashes still to
visit, with the slice `mrsTxs` built so far. -/
def basePostProcessor.marshalLoop (bpp : basePostProcessor) :
    List Bytes → List Bytes → Option (List Bytes) × Option ProcessError
  | [], mrsTxs => (some mrsTxs, none)
  | txHash :: rest, mrsTxs =>
    match GoMap.lookup bpp.interResultsForBlock txHash with
    | none => bpp.marshalLoop rest mrsTxs
    | some txInfoObject =>
      match txInfoObject.tx with
      | none => bpp.marshalLoop rest mrsTxs
      | some tx =>
        match bpp.marshal tx with
        | none => (none, some ProcessError.ErrMarshalWithoutSuccess)
        | some txMrs => bpp.marshalLoop rest (mrsTxs ++ [txMrs])

/-- `basePostProcessor.CreateMarshalizedData` (lines 74-94); `none` is a nil
slice, respectively the nil error. -/
def basePostProcessor.CreateMarshalizedData (bpp : basePostProcessor)
    (txHashes : List Bytes) : Option (List Bytes) × Option ProcessError :=
  bpp.marshalLoop txHashes []

/-- `basePostProcessor.GetAllCurrentFinishedTxs` (lines 96-113): the
post-processor afterwards and the map `scrPool` it returns. -/
def basePostProcessor.GetAllCurrentFinishedTxs (bpp : basePostProcessor) :
    basePostProcessor × List (Bytes × Option TransactionHandler) :=
  (bpp,
    bpp.interResultsForBlock.foldl
      (fun scrPool e =>
        if e.2.receiverShardID ≠ bpp.selfId then scrPool
        else if e.2.senderShardID ≠ bpp.selfId then scrPool
        else GoMap.store scrPool e.1 e.2.tx)
      [])

/-- The cached transactions of a list of hashes, in the order of the hashes:
a hash that is absent or has a nil transaction gives none. -/
def basePostProcessor.cachedTxs (bpp : basePostProcessor) (txHashes : List Bytes) :
    List TransactionHandler :=
  txHashes.filterMap (fun txHash => (GoMap.lookup bpp.interResultsForBlock txHash).bind
    (fun txInfoObject => txInfoObject.tx))

/-- The entry of a hash in the result of `GetAllCurrentFinishedTxs` as the
contract has it: the transaction of the cached entry if its sender shard and
its receiver shard are both the node's own shard, no entry otherwise. -/
def basePostProcessor.finishedEntry (bpp : basePostProcessor) (txHash : Bytes) :
    Option (Option TransactionHandler) :=
  (GoMap.lookup bpp.interResultsForBlock txHash).bind
    (fun txInfoInterResult =>
      if txInfoInterResult.senderShardID = bpp.selfId ∧
          txInfoInterResult.receiverShardID = bpp.selfId then some txInfoInterResult.tx
      else none)

/-- A post-processor of shard 1 whose marshalizer writes the id of a
transaction and fails on id 0, with four cached results. -/
def samplePostProcessor : basePostProcessor :=
  { selfId := 1,
    marshal := fun tx => if tx.id = 0 then none else some [tx.id],
    interResultsForBlock :=
      [([1], { tx := some { id := 11 }, senderShardID := 1, receiverShardID := 1 }),
       ([2], { tx := some { id := 12 }, senderShardID := 1, receiverShardID := 2 }),
       ([3], { tx := none, senderShardID := 1, receiverShardID := 1 }),
       ([4], { tx := some { id := 14 }, senderShardID := 0, receiverShardID := 1 })] }

end Postprocess

/-!
# Smart contract results preprocessor
(`process/block/preprocess/smartContractResults.go`)

`haveTime` and the SCR processor are collaborators with a state of their own:
they are given by the answer to their k-th call of the run.
-/

namespace Preprocess

/-- Byte strings: transaction hashes (the keys `string(txHash)`). -/
abbrev Bytes := List Nat

/-- Errors that `ProcessBlockTransactions` returns: three sentinels of package
`process`, and whatever error the SCR processor returns. -/
inductive ProcessError where
  | ErrTimeIsOut
  | ErrMissingTransaction
  | ErrWrongTypeAssertion
  | processor (code : Nat)
deriving DecidableEq, Repr

/-- `block.Type`, declared in package `block`: the type of smart contract
result miniblocks and the other types. -/
inductive BlockType where
  | SmartContractResultBlock
  | otherBlock (code : Nat)
deriving DecidableEq, Repr

/-- `block.MiniBlock`, declared in package `block`: the fields read here. -/
structure MiniBlock where
  TxHashes : List Bytes
  ReceiverShardID : Nat
  SenderShardID : Nat
  /-- The field `Type` -/
  blockType : BlockType
deriving DecidableEq, Repr

/-- A `smartContractResult.SmartContractResult`; its content is not looked
at. -/
structure SmartContractResult where
  id : Nat
deriving DecidableEq, Repr

/-- A non-nil `data.TransactionHandler`: a `*SmartContractResult` or a value
of another type. -/
inductive TransactionHandler where
  | smartContractResult (v : SmartContractResult)
  | otherHandler (id : Nat)
deriving DecidableEq, Repr

/-- `txInfo` with its `txShardInfo`, declared in the package: the
transaction, which may be nil, and the two shard ids. -/
structure txInfo where
  tx : Option TransactionHandler
  senderShardID : Nat
  receiverShardID : Nat
deriving DecidableEq, Repr

/-- `smartContractResults` (lines 22-31) as `ProcessBlockTransactions` uses it:
the shard coordinator's `SelfId()`, the map `scrForBlock.txHashAndInfo`, and
the record of the calls made on the collaborators during the run. -/
structure smartContractResults where
  /-- Value of `shardCoordinator.SelfId()` -/
  selfId : Nat
  /-- The map `scrForBlock.txHashAndInfo map[string]*txInfo` -/
  txHashAndInfo : List (Bytes × txInfo)
  /-- The arguments of the calls of `scrProcessor.ProcessSmartContractResult`
  made so far, in order -/
  processed : List SmartContractResult
  /-- The number of calls of `haveTime` made so far -/
  haveTimeCalls : Nat
deriving DecidableEq, Repr

/-- `smartContractResults.processSmartContractResult` (lines 345-364).
`process k v` is the result of the k-th call of the SCR processor, made on
`v`. -/
def smartContractResults.processSmartContractResult
    (process : Nat → SmartContractResult → Option ProcessError)
    (scr : smartContractResults) (smartContractResultHash : Bytes)
    (smartContractResult : SmartContractResult) (sndShardId dstShardId : Nat) :
    smartContractResults × Option ProcessError :=
  let err := process scr.processed.length smartContractResult
  let scr := { scr with processed := scr.processed ++ [smartContractResult] }
  match err with
  | some e => (scr, some e)
  | none =>
    ({ scr with
       txHashAndInfo := GoMap.store scr.txHashAndInfo smartContractResultHash
         { tx := some (TransactionHandler.smartContractResult smartContractResult),
           senderShardID := sndShardId, receiverShardID := dstShardId } }, none)

/-- The inner loop of `ProcessBlockTransactions` (lines 213-242) over the
hashes of one miniblock still to visit. `haveTime k` is the answer of the
k-th call of `haveTime`. -/
def smartContractResults.processHashes (haveTime : Nat → Bool)
    (process : Nat → SmartContractResult → Option ProcessError) (miniBlock : MiniBlock) :
    List Bytes → smartContractResults → smartContractResults × Option ProcessError
  | [], scr => (scr, none)
  | txHash :: rest, scr =>
    let answer := haveTime scr.haveTimeCalls
    let scr := { scr with haveTimeCalls := scr.haveTimeCalls + 1 }
    if !answer then (scr, some ProcessError.ErrTimeIsOut)
    else
      match GoMap.lookup scr.txHashAndInfo txHash with
      | none => (scr, some ProcessError.ErrMissingTransaction)
      | some txInfoFromMap =>
        match txInfoFromMap.tx with
        | none => (scr, some ProcessError.ErrMissingTransaction)
        | some (TransactionHandler.otherHandler _) =>
          (scr, some ProcessError.ErrWrongTypeAssertion)
        | some (TransactionHandler.smartContractResult currScr) =>
          match scr.processSmartContractResult process txHash currScr
              miniBlock.SenderShardID miniBlock.ReceiverShardID with
          | (scr, some err) => (scr, some err)
          | (scr, none) =>
            smartContractResults.processHashes haveTime process miniBlock rest scr

/-- `smartContractResults.ProcessBlockTransactions` (lines 194-245) over the
miniblocks of the body still to visit; `none` is the nil error. -/
def smartContractResults.ProcessBlockTransactions (haveTime : Nat → Bool)
    (process : Nat → SmartContractResult → Option ProcessError) :
    List MiniBlock → smartContractResults → smartContractResults × Option ProcessError
  | [], scr => (scr, none)
  | miniBlock :: body, scr =>
    if miniBlock.blockType ≠ BlockType.SmartContractResultBlock then
      smartContractResults.ProcessBlockTransactions haveTime process body scr
    else if miniBlock.ReceiverShardID ≠ scr.selfId then
      smartContractResults.ProcessBlockTransactions haveTime process body scr
    else if miniBlock.SenderShardID = scr.selfId then
      smartContractResults.ProcessBlockTransactions haveTime process body scr
    else
      match smartContractResults.processHashes haveTime process miniBlock
          miniBlock.TxHashes scr with
      | (scr, some err) => (scr, some err)
      | (scr, none) => smartContractResults.ProcessBlockTransactions haveTime process body scr

/-- The miniblocks that are processed: smart contract results, for this shard,
from another shard. -/
def isProcessedHere (selfId : Nat) (miniBlock : MiniBlock) : Bool :=
  decide (miniBlock.blockType = BlockType.SmartContractResultBlock) &&
    decide (miniBlock.ReceiverShardID = selfId) && decide (miniBlock.SenderShardID ≠ selfId)

/-- The hashes of the processed miniblocks, in body order then hash order. -/
def hashesProcessedHere (selfId : Nat) (body : List MiniBlock) : List Bytes :=
  (body.filter (isProcessedHere selfId)).flatMap (fun miniBlock => miniBlock.TxHashes)

/-- The cached transaction of a hash, if any. -/
def cachedTx (m : List (Bytes × txInfo)) (txHash : Bytes) : Option TransactionHandler :=
  (GoMap.lookup m txHash).bind (fun txInfoFromMap => txInfoFromMap.tx)

/-- What stops the processing at the hash visited as number `k`, if anything:
no time left, no cached transaction, a cached transaction of another type, or
the error of the processor. -/
def stepError (haveTime : Nat → Bool)
    (process : Nat → SmartContractResult → Option ProcessError)
    (m : List (Bytes × txInfo)) (k : Nat) (txHash : Bytes) : Option ProcessError :=
  if !haveTime k then some ProcessError.ErrTimeIsOut
  else
    match cachedTx m txHash with
    | none => some ProcessError.ErrMissingTransaction
    | some (TransactionHandler.otherHandler _) => some ProcessError.ErrWrongTypeAssertion
    | some (TransactionHandler.smartContractResult v) => process k v

/-- The smart contract result that the hash visited as number `k` passes to
the processor, if it gets that far. -/
def stepPassed (haveTime : Nat → Bool) (m : List (Bytes × txInfo)) (k : Nat) (txHash : Bytes) :
    Option SmartContractResult :=
  if !haveTime k then none
  else
    match cachedTx m txHash with
    | some (TransactionHandler.smartContractResult v) => some v
    | _ => none

/-- Processing a list of hashes one after the other from visit number `k`,
until the first failure: the smart contract results passed to the processor
and the error, if any. -/
def processInOrder (haveTime : Nat → Bool)
    (process : Nat → SmartContractResult → Option ProcessError)
    (m : List (Bytes × txInfo)) : Nat → List Bytes → List SmartContractResult × Option ProcessError
  | _, [] => ([], none)
  | k, txHash :: rest =>
    match stepError haveTime process m k txHash with
    | some err => ((stepPassed haveTime m k txHash).toList, some err)
    | none =>
      ((stepPassed haveTime m k txHash).toList ++
          (processInOrder haveTime process m (k + 1) rest).1,
        (processInOrder haveTime process m (k + 1) rest).2)

/-- A preprocessor of shard 1 at the start of a run, with three cached
transactions. -/
def samplePreprocessor : smartContractResults :=
  { selfId := 1,
    txHashAndInfo :=
      [([1], { tx := some (TransactionHandler.smartContractResult { id := 11 }),
               senderShardID := 0, receiverShardID := 1 }),
       ([2], { tx := some (TransactionHandler.smartContractResult { id := 12 }),
               senderShardID := 0, receiverShardID := 1 }),
       ([3], { tx := some (TransactionHandler.otherHandler 13),
               senderShardID := 0, receiverShardID := 1 })],
    processed := [], haveTimeCalls := 0 }

/-- A body of four miniblocks: one processed here, one of another type, one
sent by this shard, and one more processed here. -/
def sampleBody : List MiniBlock :=
  [{ TxHashes := [[1]], ReceiverShardID := 1, SenderShardID := 0,
     blockType := BlockType.SmartContractResultBlock },
   { TxHashes := [[3]], ReceiverShardID := 1, SenderShardID := 0,
     blockType := BlockType.otherBlock 0 },
   { TxHashes := [[3]], ReceiverShardID := 1, SenderShardID := 1,
     blockType := BlockType.SmartContractResultBlock },
   { TxHashes := [[2], [1]], ReceiverShardID := 1, SenderShardID := 2,
     blockType := BlockType.SmartContractResultBlock }]

end Preprocess

/-!
# Shard coordinator mock (`node/mock/multipleShardsCoordinatorMock.go`)
-/

namespace Mock

/-- `multipleShardsCoordinatorMock` (lines 9-13): the two `uint32` fields; the
function field `ComputeIdCalled` is not read by `CommunicationIdentifier`. -/
structure multipleShardsCoordinatorMock where
  noShards : Nat
  CurrentShard : Nat
deriving DecidableEq, Repr

/-- The text that the verb `%d` of `fmt.Sprintf` writes for an unsigned
integer: its decimal digits. -/
def sprintfDecimal (n : Nat) : String := Nat.repr n

/-- `multipleShardsCoordinatorMock.CommunicationIdentifier` (lines 53-65). -/
def multipleShardsCoordinatorMock.CommunicationIdentifier (scm : multipleShardsCoordinatorMock)
    (destShardID : Nat) : String :=
  if destShardID = scm.CurrentShard then "_" ++ sprintfDecimal scm.CurrentShard
  else if destShardID < scm.CurrentShard then
    "_" ++ sprintfDecimal destShardID ++ "_" ++ sprintfDecimal scm.CurrentShard
  else "_" ++ sprintfDecimal scm.CurrentShard ++ "_" ++ sprintfDecimal destShardID

end Mock

/-! # Theorems -/

namespace Txcache

/-! ## Monitoring -/

theorem diagnoseFine_eq_true_iff (r : DiagnoseReadings) :
    diagnoseFine r = true ↔ countsAgreeUint32 r := by
  simp only [diagnoseFine, countsAgreeUint32, Bool.and_eq_true, decide_eq_true_eq]
  constructor
  · rintro ⟨⟨⟨⟨h1, h2⟩, h3, h4⟩, h5⟩, h6, h7⟩
    refine ⟨h1, h2, h5, ?_, ?_, h6, h7⟩
    · rw [h5]; exact_mod_cast h3
    · rw [h5]; exact_mod_cast h4
  · rintro ⟨h1, h2, h3, h4, h5, h6, h7⟩
    refine ⟨⟨⟨⟨h1, h2⟩, ?_, ?_⟩, h3⟩, h6, h7⟩
    · have : (r.bySenderKeys.length : Int) = (r.bySenderKeysSorted.length : Int) := by
        rw [← h3, ← h4]
      exact_mod_cast this
    · have : (r.bySenderKeys.length : Int) = (r.sendersSnapshot.length : Int) := by
        rw [← h3, ← h5]
      exact_mod_cast this

/-- A sender counter that fits `uint32` is compared as it is: on such
readings the state is judged fine exactly when all counts agree. -/
theorem diagnoseFine_iff_countsAgree_of_fits (r : DiagnoseReadings)
    (h0 : 0 ≤ r.countSenders) (h1 : r.countSenders < 4294967296) :
    diagnoseFine r = true ↔ countsAgree r := by
  have hmod : toUint32 r.countSenders = r.countSenders := by
    unfold toUint32
    exact Int.emod_eq_of_lt h0 h1
  rw [diagnoseFine_eq_true_iff]
  unfold countsAgreeUint32 countsAgree
  rw [hmod]

/-- C1, as stated, fails: with the sender counter at `2^32` and both index maps
empty, `diagnose` judges the state fine although `CountSenders()` differs from
every recomputed sender count. -/
theorem diagnose_fine_not_iff_countsAgree :
    ¬ (diagnoseFine readingsWrapped = true ↔ countsAgree readingsWrapped) := by
  intro h
  have hfine : diagnoseFine readingsWrapped = true := by decide
  have hagree := h.mp hfine
  have h1 : readingsWrapped.countSenders = readingsWrapped.bySenderCount := hagree.1
  revert h1
  decide

/-- C1, amended: `diagnose` judges the state fine exactly when the recomputed
counts agree with the atomic counters, the sender counter being compared after
its conversion to `uint32`: `uint32(CountSenders())` equals the by-sender map's
`Count()`, its `CountSorted()`, the number of its `Keys()`, of its
`KeysSorted()` and the length of the ascending snapshot, and `CountTx()` equals
the by-hash map's `Count()` and the number of its `Keys()`. Every line is logged
at Warn level when the state is not fine and at Trace level when it is, and the
five lines are produced in both cases. -/
theorem diagnose_fine_iff_uint32 (r : DiagnoseReadings) :
    (diagnoseFine r = true ↔ countsAgreeUint32 r) ∧
    (diagnoseFine r = false → ∀ line ∈ diagnose r, line.level = LogLevel.Warn) ∧
    (diagnoseFine r = true → ∀ line ∈ diagnose r, line.level = LogLevel.Trace) ∧
    (diagnose r).map (fun line => line.message) =
      ["Diagnose", "Size:", "NumSenders:", "NumSenders (continued):", "NumTxs:"] := by
  refine ⟨diagnoseFine_eq_true_iff r, ?_, ?_, ?_⟩
  · intro hf line hline
    simp only [diagnose, diagnoseLevel, hf, List.mem_cons, List.mem_singleton,
      List.not_mem_nil, or_false] at hline
    rcases hline with h | h | h | h | h <;> simp [h]
  · intro hf line hline
    simp only [diagnose, diagnoseLevel, hf, List.mem_cons, List.mem_singleton,
      List.not_mem_nil, or_false] at hline
    rcases hline with h | h | h | h | h <;> simp [h]
  · simp [diagnose]

/-- C2: `monitorTxAddition` adds exactly 1 to `numTxAddedBetweenSelections` and
adds 1 to `numTxAddedDuringEviction` if `isEvictionInProgress` is set and 0
otherwise; `monitorTxRemoval` does the same for the two removal counters;
neither changes the two counters of the other. -/
theorem monitorTx_counters (cache : TxCache) :
    (cache.monitorTxAddition.numTxAddedBetweenSelections
        = cache.numTxAddedBetweenSelections + 1 ∧
      cache.monitorTxAddition.numTxAddedDuringEviction
        = cache.numTxAddedDuringEviction + (if cache.isEvictionInProgress then 1 else 0) ∧
      cache.monitorTxAddition.numTxRemovedBetweenSelections
        = cache.numTxRemovedBetweenSelections ∧
      cache.monitorTxAddition.numTxRemovedDuringEviction
        = cache.numTxRemovedDuringEviction) ∧
    (cache.monitorTxRemoval.numTxRemovedBetweenSelections
        = cache.numTxRemovedBetweenSelections + 1 ∧
      cache.monitorTxRemoval.numTxRemovedDuringEviction
        = cache.numTxRemovedDuringEviction + (if cache.isEvictionInProgress then 1 else 0) ∧
      cache.monitorTxRemoval.numTxAddedBetweenSelections
        = cache.numTxAddedBetweenSelections ∧
      cache.monitorTxRemoval.numTxAddedDuringEviction
        = cache.numTxAddedDuringEviction) := by
  unfold TxCache.monitorTxAddition TxCache.monitorTxRemoval AtomicCounter.Increment
  cases h : cache.isEvictionInProgress <;> simp [h]

/-- C3: after `monitorSelectionEnd` both between-selections counters are 0 and
the two during-eviction counters are unchanged; after `monitorEvictionEnd` both
during-eviction counters are 0 and the two between-selections counters are
unchanged. -/
theorem monitorEnd_counters (cache : TxCache) :
    (cache.monitorSelectionEnd.numTxAddedBetweenSelections = 0 ∧
      cache.monitorSelectionEnd.numTxRemovedBetweenSelections = 0 ∧
      cache.monitorSelectionEnd.numTxAddedDuringEviction = cache.numTxAddedDuringEviction ∧
      cache.monitorSelectionEnd.numTxRemovedDuringEviction
        = cache.numTxRemovedDuringEviction) ∧
    (cache.monitorEvictionEnd.numTxAddedDuringEviction = 0 ∧
      cache.monitorEvictionEnd.numTxRemovedDuringEviction = 0 ∧
      cache.monitorEvictionEnd.numTxAddedBetweenSelections
        = cache.numTxAddedBetweenSelections ∧
      cache.monitorEvictionEnd.numTxRemovedBetweenSelections
        = cache.numTxRemovedBetweenSelections) := by
  simp [TxCache.monitorSelectionEnd, TxCache.monitorEvictionEnd, AtomicCounter.Reset]

/-! ## Sender Transaction List -/

theorem mem_insertSorted {r y : TxRecord} {xs : List TxRecord}
    (h : y ∈ SenderTxList.insertSorted r xs) : y = r ∨ y ∈ xs := by
  induction xs with
  | nil =>
    simp only [SenderTxList.insertSorted, List.mem_singleton] at h
    exact Or.inl h
  | cons x xs ih =>
    simp only [SenderTxList.insertSorted] at h
    split_ifs at h with h1 h2 h3
    · simp only [List.mem_cons] at h ⊢
      tauto
    · simp only [List.mem_cons] at h ⊢
      tauto
    · exact Or.inr h
    · simp only [List.mem_cons] at h ⊢
      rcases h with h | h
      · exact Or.inr (Or.inl h)
      · rcases ih h with h | h
        · exact Or.inl h
        · exact Or.inr (Or.inr h)

theorem insertSorted_ne_nil (r : TxRecord) (xs : List TxRecord) :
    SenderTxList.insertSorted r xs ≠ [] := by
  cases xs with
  | nil => simp [SenderTxList.insertSorted]
  | cons x xs =>
    simp only [SenderTxList.insertSorted]
    split_ifs <;> simp

theorem insertSorted_ascending (r : TxRecord) {xs : List TxRecord}
    (hs : StrictlyAscending xs) : StrictlyAscending (SenderTxList.insertSorted r xs) := by
  unfold StrictlyAscending at hs ⊢
  induction xs with
  | nil => simp [SenderTxList.insertSorted]
  | cons x xs ih =>
    rw [List.pairwise_cons] at hs
    obtain ⟨hx, hxs⟩ := hs
    simp only [SenderTxList.insertSorted]
    split_ifs with h1 h2 h3
    · refine List.Pairwise.cons ?_ (List.Pairwise.cons hx hxs)
      intro y hy
      rcases List.mem_cons.mp hy with h | h
      · rw [h]; exact h1
      · exact Nat.lt_trans h1 (hx y h)
    · refine List.Pairwise.cons ?_ hxs
      intro y hy
      rw [h2]
      exact hx y hy
    · exact List.Pairwise.cons hx hxs
    · refine List.Pairwise.cons ?_ (ih hxs)
      intro y hy
      rcases mem_insertSorted hy with h | h
      · rw [h]; omega
      · exact hx y h

theorem exists_nonce_insertSorted (r : TxRecord) (xs : List TxRecord) :
    ∃ y ∈ SenderTxList.insertSorted r xs, y.nonce = r.nonce := by
  induction xs with
  | nil => exact ⟨r, by simp [SenderTxList.insertSorted], rfl⟩
  | cons x xs ih =>
    simp only [SenderTxList.insertSorted]
    split_ifs with h1 h2 h3
    · exact ⟨r, by simp, rfl⟩
    · exact ⟨r, by simp, rfl⟩
    · exact ⟨x, by simp, h2.symm⟩
    · obtain ⟨y, hy, hn⟩ := ih
      exact ⟨y, List.mem_cons_of_mem _ hy, hn⟩

/-- In a strictly ascending list a nonce that occurs, occurs once. -/
theorem ascending_nonce_once {xs : List TxRecord} (hs : StrictlyAscending xs) (n : Nat)
    (hex : ∃ y ∈ xs, y.nonce = n) :
    (xs.filter (fun x => decide (x.nonce = n))).length = 1 := by
  unfold StrictlyAscending at hs
  induction xs with
  | nil =>
    obtain ⟨y, hy, _⟩ := hex
    simp at hy
  | cons x xs ih =>
    rw [List.pairwise_cons] at hs
    obtain ⟨hx, hxs⟩ := hs
    by_cases hxn : x.nonce = n
    · have hnil : xs.filter (fun x => decide (x.nonce = n)) = [] := by
        rw [List.filter_eq_nil_iff]
        intro y hy
        have := hx y hy
        simp only [decide_eq_true_eq]
        omega
      simp [List.filter_cons, hxn, hnil]
    · have hex2 : ∃ y ∈ xs, y.nonce = n := by
        obtain ⟨y, hy, hyn⟩ := hex
        rcases List.mem_cons.mp hy with h | h
        · rw [h] at hyn; exact absurd hyn hxn
        · exact ⟨y, h, hyn⟩
      simp [List.filter_cons, hxn, ih hxs hex2]

/-- On a strictly ascending list that holds a record `old` with the nonce of
`r`, the positional insertion rewrites that one slot and nothing else. -/
theorem insertSorted_same_nonce (r old : TxRecord) {xs : List TxRecord}
    (hs : StrictlyAscending xs) (hold : old ∈ xs) (hn : old.nonce = r.nonce) :
    SenderTxList.insertSorted r xs
      = xs.map (fun x => if x = old then (if old.feeRate < r.feeRate then r else old) else x) := by
  unfold StrictlyAscending at hs
  induction xs with
  | nil => simp at hold
  | cons x xs ih =>
    rw [List.pairwise_cons] at hs
    obtain ⟨hx, hxs⟩ := hs
    have htail : ∀ y ∈ xs, x.nonce = r.nonce → y ≠ old := by
      intro y hy hxr hyo
      have := hx y hy
      rw [hyo] at this
      omega
    simp only [SenderTxList.insertSorted, List.map_cons]
    rcases List.mem_cons.mp hold with h | h
    · -- the slot is the head
      subst h
      have hid : xs.map (fun x => if x = old then (if old.feeRate < r.feeRate then r else old)
          else x) = xs := by
        conv_rhs => rw [← List.map_id xs]
        apply List.map_congr_left
        intro y hy
        simp [htail y hy hn]
      rw [hid]
      simp only [hn, lt_self_iff_false, if_false, if_true]
      split_ifs <;> rfl
    · -- the slot is further down
      have hlt : x.nonce < r.nonce := by
        have := hx old h
        omega
      have hxo : x ≠ old := by
        intro hxo
        rw [hxo] at hlt
        omega
      have h1 : ¬ r.nonce < x.nonce := by omega
      have h2 : ¬ r.nonce = x.nonce := by omega
      simp only [h1, h2, if_false, hxo]
      rw [ih hxs h]

/-- Inserting a record whose nonce is new makes the list one longer. -/
theorem insertSorted_length_of_new (r : TxRecord) (xs : List TxRecord)
    (hnew : ∀ y ∈ xs, y.nonce ≠ r.nonce) :
    (SenderTxList.insertSorted r xs).length = xs.length + 1 := by
  induction xs with
  | nil => simp [SenderTxList.insertSorted]
  | cons x xs ih =>
    have hx : x.nonce ≠ r.nonce := hnew x (List.mem_cons_self _ _)
    simp only [SenderTxList.insertSorted]
    split_ifs with h1 h2 h3
    · simp
    · exact absurd h2.symm hx
    · exact absurd h2.symm hx
    · simp [ih (fun y hy => hnew y (List.mem_cons_of_mem _ hy))]

/-- C5: on a Sender Transaction List (strictly ascending by nonce) that holds a
record `old` with the nonce of `r`, `Insert(r)` replaces `old` by `r` if and
only if the `feeRate` of `r` is strictly greater, and otherwise leaves the list
unchanged; in both cases the list has exactly one entry with that nonce
afterwards, and no net-new slot is reported. -/
theorem Insert_replace_by_priority (l : SenderTxList) (r old : TxRecord)
    (hs : StrictlyAscending l.items) (hold : old ∈ l.items) (hn : old.nonce = r.nonce) :
    (old ∉ (l.Insert r).1.items ↔ old.feeRate < r.feeRate) ∧
    (old.feeRate < r.feeRate →
      (l.Insert r).1.items = l.items.map (fun x => if x = old then r else x)) ∧
    (¬ old.feeRate < r.feeRate → (l.Insert r).1 = l) ∧
    ((l.Insert r).1.items.filter (fun x => decide (x.nonce = r.nonce))).length = 1 ∧
    (l.Insert r).2 = false := by
  have hmap := insertSorted_same_nonce r old hs hold hn
  have hkeep : ¬ old.feeRate < r.feeRate → SenderTxList.insertSorted r l.items = l.items := by
    intro hfee
    rw [hmap]
    conv_rhs => rw [← List.map_id l.items]
    apply List.map_congr_left
    intro y _
    by_cases hy : y = old
    · simp [hy, hfee]
    · simp [hy]
  have hrepl : old.feeRate < r.feeRate →
      SenderTxList.insertSorted r l.items = l.items.map (fun x => if x = old then r else x) := by
    intro hfee
    rw [hmap]
    simp [hfee]
  refine ⟨?_, ?_, ?_, ?_, ?_⟩
  · constructor
    · intro hout
      by_contra hfee
      apply hout
      show old ∈ SenderTxList.insertSorted r l.items
      rw [hkeep hfee]
      exact hold
    · intro hfee hin
      have hin2 : old ∈ l.items.map (fun x => if x = old then r else x) := by
        rw [← hrepl hfee]
        exact hin
      obtain ⟨y, _, hy⟩ := List.mem_map.mp hin2
      by_cases hyo : y = old
      · simp only [hyo, if_true] at hy
        rw [hy] at hfee
        omega
      · simp only [hyo, if_false] at hy
  · intro hfee
    exact hrepl hfee
  · intro hfee
    show ({ l with items := SenderTxList.insertSorted r l.items } : SenderTxList) = l
    rw [hkeep hfee]
  · exact ascending_nonce_once (insertSorted_ascending r hs) r.nonce
      (exists_nonce_insertSorted r l.items)
  · simp only [SenderTxList.Insert, Bool.not_eq_false', List.any_eq_true, decide_eq_true_eq]
    exact ⟨old, hold, hn⟩

/-- C5 at the example of the spec: nonce 5 with feeRate 10, then nonce 5 with
feeRate 20. -/
theorem Insert_replace_by_priority_witness :
    StrictlyAscending [(⟨[1], [7], 5, 10, 100, 50⟩ : TxRecord)] ∧
    ((SenderTxList.mk [7] [⟨[1], [7], 5, 10, 100, 50⟩]).Insert ⟨[2], [7], 5, 20, 100, 50⟩).1.items
      = [⟨[2], [7], 5, 20, 100, 50⟩] := by
  have hs : StrictlyAscending [(⟨[1], [7], 5, 10, 100, 50⟩ : TxRecord)] :=
    List.pairwise_singleton _ _
  have h := Insert_replace_by_priority (SenderTxList.mk [7] [⟨[1], [7], 5, 10, 100, 50⟩])
    ⟨[2], [7], 5, 20, 100, 50⟩ ⟨[1], [7], 5, 10, 100, 50⟩ hs (by simp) rfl
  refine ⟨hs, ?_⟩
  rw [h.2.1 (by decide)]
  decide

/-! ## Frames of the index operations -/

theorem byHashStep_remove (c : TxCache) (h : Bytes) :
    c.ByHashStep (c.txByHashRemove h).1 := by
  unfold TxCache.txByHashRemove TxCache.ByHashStep
  split <;> simp

theorem byHashStep_bulk (c : TxCache) (hs : List Bytes) :
    c.ByHashStep (c.txByHashRemoveBulk hs) := by
  unfold TxCache.txByHashRemoveBulk
  induction hs generalizing c with
  | nil => simp [TxCache.ByHashStep]
  | cons h hs ih =>
    simp only [List.foldl_cons]
    obtain ⟨a1, a2, a3, a4⟩ := byHashStep_remove c h
    obtain ⟨b1, b2, b3, b4⟩ := ih (c.txByHashRemove h).1
    exact ⟨b1.trans a1, b2.trans a2, b3.trans a3, b4.trans a4⟩

theorem trimToCap_eq (l : SenderTxList) (cap : Nat) :
    (l.TrimToCap cap).1 = { l with items := l.items.take cap } := by
  unfold SenderTxList.TrimToCap
  split_ifs with h
  · rfl
  · have : l.items.take cap = l.items := List.take_of_length_le (by omega)
    rw [this]

theorem evictPassOne_lists (c : TxCache) :
    c.evictPassOne.txListBySender =
      (c.txListBySender.map (fun l => (l.TrimToCap c.config.perSenderTxCountCap).1)).filter
        (fun l => !l.items.isEmpty) := by
  unfold TxCache.evictPassOne
  exact (byHashStep_bulk _ _).1

theorem evictPassOne_config (c : TxCache) : c.evictPassOne.config = c.config := by
  unfold TxCache.evictPassOne
  exact (byHashStep_bulk _ _).2.1

theorem evictPassOne_flag (c : TxCache) :
    c.evictPassOne.isEvictionInProgress = c.isEvictionInProgress := by
  unfold TxCache.evictPassOne
  exact (byHashStep_bulk _ _).2.2.1

theorem evictSenders_lists (c : TxCache) (batch : List Bytes) :
    (c.evictSenders batch).txListBySender =
      c.txListBySender.filter (fun l => decide (l.sender ∉ batch)) := by
  unfold TxCache.evictSenders
  exact (byHashStep_bulk _ _).1

theorem evictSenders_config (c : TxCache) (batch : List Bytes) :
    (c.evictSenders batch).config = c.config := by
  unfold TxCache.evictSenders
  exact (byHashStep_bulk _ _).2.1

theorem evictPassTwoLoop_config (fuel : Nat) (snapshot : List Bytes) (c : TxCache) :
    (TxCache.evictPassTwoLoop fuel snapshot c).config = c.config := by
  induction fuel generalizing snapshot c with
  | zero => rfl
  | succ fuel ih =>
    simp only [TxCache.evictPassTwoLoop]
    split_ifs
    · rfl
    · rfl
    · rw [ih, evictSenders_config]

theorem evictPassTwoLoop_sublist (fuel : Nat) (snapshot : List Bytes) (c : TxCache) :
    (TxCache.evictPassTwoLoop fuel snapshot c).txListBySender.Sublist c.txListBySender := by
  induction fuel generalizing snapshot c with
  | zero => exact List.Sublist.refl _
  | succ fuel ih =>
    simp only [TxCache.evictPassTwoLoop]
    split_ifs
    · exact List.Sublist.refl _
    · exact List.Sublist.refl _
    · refine (ih _ _).trans ?_
      rw [evictSenders_lists]
      exact List.filter_sublist _

/-! ## Well-formedness of the by-sender index -/

theorem goodLists_sublist {ls ls1 : List SenderTxList} (hsub : ls1.Sublist ls)
    (h : GoodLists ls) : GoodLists ls1 :=
  ⟨fun l hl => h.1 l (hsub.subset hl), (hsub.map _).nodup h.2⟩

theorem goodLists_replace {ls : List SenderTxList} {l1 : SenderTxList}
    (h : GoodLists ls) (h1 : GoodList l1) :
    GoodLists (ls.map (fun l => if l.sender = l1.sender then l1 else l)) := by
  constructor
  · intro l hl
    obtain ⟨l0, hl0, rfl⟩ := List.mem_map.mp hl
    split_ifs
    · exact h1
    · exact h.1 l0 hl0
  · have hsame : (ls.map (fun l => if l.sender = l1.sender then l1 else l)).map
        (fun l => l.sender) = ls.map (fun l => l.sender) := by
      rw [List.map_map]
      apply List.map_congr_left
      intro l _
      simp only [Function.comp]
      split_ifs with hs
      · exact hs.symm
      · rfl
    rw [hsame]
    exact h.2

theorem goodLists_append {ls : List SenderTxList} {l1 : SenderTxList}
    (h : GoodLists ls) (h1 : GoodList l1) (hnew : ∀ l ∈ ls, l.sender ≠ l1.sender) :
    GoodLists (ls ++ [l1]) := by
  constructor
  · intro l hl
    rcases List.mem_append.mp hl with hl | hl
    · exact h.1 l hl
    · rw [List.mem_singleton.mp hl]
      exact h1
  · rw [List.map_append, List.nodup_append]
    refine ⟨h.2, by simp, ?_⟩
    intro a ha hb
    obtain ⟨l, hl, rfl⟩ := List.mem_map.mp ha
    simp only [List.map_cons, List.map_nil, List.mem_singleton] at hb
    exact hnew l hl hb

theorem goodLists_trim {ls : List SenderTxList} (cap : Nat) (h : GoodLists ls) :
    GoodLists ((ls.map (fun l => (l.TrimToCap cap).1)).filter (fun l => !l.items.isEmpty)) := by
  constructor
  · intro l hl
    obtain ⟨hmem, hne⟩ := List.mem_filter.mp hl
    obtain ⟨l0, hl0, rfl⟩ := List.mem_map.mp hmem
    obtain ⟨g1, _, g3⟩ := h.1 l0 hl0
    rw [trimToCap_eq] at hne ⊢
    refine ⟨?_, ?_, ?_⟩
    · exact List.Pairwise.sublist (List.take_sublist _ _) g1
    · intro hnil
      have hnil2 : l0.items.take cap = [] := hnil
      rw [hnil2] at hne
      simp at hne
    · intro x hx
      exact g3 x (List.mem_of_mem_take hx)
  · have hsame : (ls.map (fun l => (l.TrimToCap cap).1)).map (fun l => l.sender)
        = ls.map (fun l => l.sender) := by
      rw [List.map_map]
      apply List.map_congr_left
      intro l _
      simp only [Function.comp, trimToCap_eq]
    exact ((List.filter_sublist _).map _).nodup (hsame ▸ h.2)

theorem goodList_Insert {l : SenderTxList} (r : TxRecord) (h : GoodList l)
    (hr : r.sender = l.sender) : GoodList (l.Insert r).1 := by
  obtain ⟨g1, _, g3⟩ := h
  refine ⟨insertSorted_ascending r g1, insertSorted_ne_nil r l.items, ?_⟩
  intro x hx
  rcases mem_insertSorted hx with hx | hx
  · rw [hx]; exact hr
  · exact g3 x hx

theorem goodList_Remove {l : SenderTxList} (hash : Bytes) (h : GoodList l)
    (hne : (l.Remove hash).1.items ≠ []) : GoodList (l.Remove hash).1 := by
  obtain ⟨g1, _, g3⟩ := h
  refine ⟨List.Pairwise.sublist (List.eraseP_sublist _) g1, hne, ?_⟩
  intro x hx
  exact g3 x ((List.eraseP_sublist _).subset hx)

theorem findList_some {c : TxCache} {sender : Bytes} {l : SenderTxList}
    (h : c.findList sender = some l) : l ∈ c.txListBySender ∧ l.sender = sender := by
  unfold TxCache.findList at h
  refine ⟨List.mem_of_find?_eq_some h, ?_⟩
  have := List.find?_some h
  simpa using this

theorem findList_none {c : TxCache} {sender : Bytes} (h : c.findList sender = none) :
    ∀ l ∈ c.txListBySender, l.sender ≠ sender := by
  unfold TxCache.findList at h
  intro l hl
  have := List.find?_eq_none.mp h l hl
  simpa using this

theorem insertTx_wellFormed {c c1 : TxCache} {r : TxRecord} (h : c.WellFormed)
    (hins : c.insertTx r = some c1) : c1.WellFormed := by
  unfold TxCache.WellFormed at h ⊢
  unfold TxCache.insertTx at hins
  split at hins
  · next hfind =>
    injection hins with hins
    subst hins
    show GoodLists (c.txListBySender ++ [{ sender := r.sender, items := [r] }])
    refine goodLists_append h ⟨List.pairwise_singleton _ _, by simp, ?_⟩ (findList_none hfind)
    intro x hx
    simp only [List.mem_singleton] at hx
    rw [hx]
  · next l hfind =>
    obtain ⟨hl, hls⟩ := findList_some hfind
    have hgood : GoodLists (c.setList (l.Insert r).1).txListBySender :=
      goodLists_replace h (goodList_Insert r (h.1 l hl) hls.symm)
    split at hins
    · injection hins with hins
      subst hins
      exact hgood
    · split_ifs at hins
      injection hins with hins
      subst hins
      show GoodLists ((c.setList (l.Insert r).1).txByHashRemove _).1.txListBySender
      rw [(byHashStep_remove _ _).1]
      exact hgood

theorem doEviction_wellFormed (score : ScoreFn) {c : TxCache} (h : c.WellFormed) :
    (c.doEviction score).WellFormed := by
  unfold TxCache.WellFormed at h ⊢
  unfold TxCache.doEviction
  split_ifs with hflag
  · exact h
  · dsimp only
    split_ifs with habove
    · unfold TxCache.evictPassTwo
      refine goodLists_sublist (evictPassTwoLoop_sublist _ _ _) ?_
      rw [evictPassOne_lists]
      exact goodLists_trim _ h
    · rw [evictPassOne_lists]
      exact goodLists_trim _ h

theorem AddTx_wellFormed (score : ScoreFn) {c : TxCache} (record : Option TxRecord)
    (h : c.WellFormed) : (c.AddTx score record).1.WellFormed := by
  unfold TxCache.AddTx
  split
  · exact h
  · split_ifs
    · exact h
    · exact h
    · split
      · exact h
      · next c1 hins =>
        have h1 := insertTx_wellFormed h hins
        show (if c1.aboveThreshold then c1.doEviction score else c1).WellFormed
        split_ifs
        · exact doEviction_wellFormed score h1
        · exact h1

theorem RemoveTx_wellFormed {c : TxCache} (hash : Bytes) (h : c.WellFormed) :
    (c.RemoveTx hash).WellFormed := by
  unfold TxCache.RemoveTx
  split
  · exact h
  · next c1 r heq =>
    have hc1 : c1 = (c.txByHashRemove hash).1 := by rw [heq]
    have hlists : c1.txListBySender = c.txListBySender := by
      rw [hc1]; exact (byHashStep_remove c hash).1
    have h1 : c1.WellFormed := by
      unfold TxCache.WellFormed at h ⊢
      rw [hlists]; exact h
    split
    · exact h1
    · next l hfind =>
      obtain ⟨hl, _⟩ := findList_some hfind
      show (if (l.Remove hash).1.items.isEmpty then _ else _ : TxCache).WellFormed
      split_ifs with hempty
      · exact goodLists_sublist (List.filter_sublist _) h1
      · refine goodLists_replace h1 (goodList_Remove hash (h1.1 l hl) ?_)
        intro hnil
        rw [hnil] at hempty
        simp at hempty

theorem NewTxCache_wellFormed (config : CacheConfig) : (NewTxCache config).WellFormed := by
  unfold TxCache.WellFormed GoodLists NewTxCache
  simp

theorem runOps_wellFormed (score : ScoreFn) (ops : List CacheOp) {c : TxCache}
    (h : c.WellFormed) : (c.runOps score ops).WellFormed := by
  unfold TxCache.runOps
  induction ops generalizing c with
  | nil => exact h
  | cons op ops ih =>
    simp only [List.foldl_cons]
    apply ih
    cases op with
    | add record => exact AddTx_wellFormed score record h
    | remove hash => exact RemoveTx_wellFormed hash h

/-- C4: after any finite sequence of Add and Remove operations on a cache, every
Sender Transaction List is strictly ascending by nonce, whatever the order in
which the transactions were inserted. -/
theorem nonce_ordering_invariant (score : ScoreFn) (config : CacheConfig)
    (ops : List CacheOp) :
    ∀ l ∈ ((NewTxCache config).runOps score ops).txListBySender,
      StrictlyAscending l.items :=
  fun l hl => ((runOps_wellFormed score ops (NewTxCache_wellFormed config)).1 l hl).1

/-- C4 on the cache where nonce 5, then nonce 3, of one sender were added: the
list of the sender holds nonce 3 before nonce 5. -/
theorem nonce_ordering_invariant_witness :
    ({ sender := [7], items := [recThree, recLow] } : SenderTxList)
      ∈ cacheWithGap.txListBySender ∧
    StrictlyAscending [recThree, recLow] :=
  ⟨by decide,
    nonce_ordering_invariant feeScore roomyConfig
      [CacheOp.add (some recLow), CacheOp.add (some recThree)]
      { sender := [7], items := [recThree, recLow] } (by decide)⟩

/-! ## Cache operations -/

/-- C6: `AddTx` returns the `InvalidTransaction` error exactly when its input is
malformed (nil record, empty hash or empty sender), and in that case the cache
is unchanged, `Len()`, `NumBytes()`, `CountSenders()` and both index maps
included; for every well-formed record it returns no error. -/
theorem AddTx_invalid_iff_malformed (score : ScoreFn) (c : TxCache)
    (record : Option TxRecord) :
    ((c.AddTx score record).2.2 = some CacheError.InvalidTransaction ↔ Malformed record) ∧
    (Malformed record →
      (c.AddTx score record).1 = c ∧
      (c.AddTx score record).1.Len = c.Len ∧
      (c.AddTx score record).1.NumBytes = c.NumBytes ∧
      (c.AddTx score record).1.CountSenders = c.CountSenders ∧
      (c.AddTx score record).1.txByHash = c.txByHash ∧
      (c.AddTx score record).1.txListBySender = c.txListBySender) ∧
    (¬ Malformed record → (c.AddTx score record).2.2 = none) := by
  cases record with
  | none => simp [TxCache.AddTx, Malformed]
  | some r =>
    by_cases hm : r.hash = [] ∨ r.sender = []
    · simp [TxCache.AddTx, Malformed, hm]
    · have herr : (c.AddTx score (some r)).2.2 = none := by
        simp only [TxCache.AddTx, hm, if_false]
        split_ifs
        · rfl
        · split <;> rfl
      refine ⟨?_, ?_, ?_⟩
      · simp [herr, Malformed, hm]
      · intro h
        exact absurd h hm
      · intro _
        exact herr

theorem txByHashRemove_absent {c : TxCache} {hash : Bytes} (h : c.contains hash = false) :
    c.txByHashRemove hash = (c, none) := by
  unfold TxCache.contains at h
  have hnone : c.txByHash.find? (fun e => decide (e.1 = hash)) = none := by
    rw [List.find?_eq_none]
    intro e he
    have := List.any_eq_false.mp h e he
    simpa using this
  unfold TxCache.txByHashRemove
  rw [hnone]

theorem RemoveTx_absent {c : TxCache} {hash : Bytes} (h : c.contains hash = false) :
    c.RemoveTx hash = c := by
  unfold TxCache.RemoveTx
  rw [txByHashRemove_absent h]

theorem txByHashRemove_added (c : TxCache) (r : TxRecord) :
    ((c.txByHashAdd r).txByHashRemove r.hash).2 = some r ∧
    ((c.txByHashAdd r).txByHashRemove r.hash).1.txCount = c.txCount ∧
    ((c.txByHashAdd r).txByHashRemove r.hash).1.numBytes = c.numBytes ∧
    ((c.txByHashAdd r).txByHashRemove r.hash).1.senderCount = c.senderCount ∧
    ((c.txByHashAdd r).txByHashRemove r.hash).1.txListBySender = c.txListBySender := by
  simp [TxCache.txByHashAdd, TxCache.txByHashRemove]

/-- The three aggregate counters of `RemoveTx`, when the hash is indexed: the
transaction and byte counters follow the by-hash index, the sender counter
drops by one exactly when the list of the sender is left without records. -/
theorem RemoveTx_counters {c c1 : TxCache} {hash : Bytes} {r : TxRecord} {l : SenderTxList}
    (hrem : c.txByHashRemove hash = (c1, some r)) (hfind : c1.findList r.sender = some l) :
    (c.RemoveTx hash).txCount = c1.txCount ∧
    (c.RemoveTx hash).numBytes = c1.numBytes ∧
    (c.RemoveTx hash).senderCount
      = if (l.Remove hash).1.items.isEmpty then c1.senderCount - 1 else c1.senderCount := by
  unfold TxCache.RemoveTx
  rw [hrem]
  simp only [hfind]
  split_ifs <;> simp [TxCache.setList]

theorem AddTx_of_quiet (score : ScoreFn) {c : TxCache} {r : TxRecord}
    (hr : ¬ Malformed (some r)) (hnew : c.contains r.hash = false)
    (hquiet : c.insertionBreachesThreshold r = false) :
    (c.AddTx score (some r)).1 = (c.insertTx r).getD c := by
  have hm : ¬ (r.hash = [] ∨ r.sender = []) := hr
  unfold TxCache.insertionBreachesThreshold at hquiet
  simp only [TxCache.AddTx, hm, if_false, hnew]
  cases hadm : c.insertTx r with
  | none => simp
  | some c1 =>
    rw [hadm] at hquiet
    simp only [] at hquiet
    simp [hquiet]

theorem findList_setList {c : TxCache} {l l1 : SenderTxList} {sender : Bytes}
    (hfind : c.findList sender = some l) (hs : l1.sender = sender) :
    (c.setList l1).findList sender = some l1 := by
  obtain ⟨_, hls⟩ := findList_some hfind
  unfold TxCache.findList at hfind ⊢
  unfold TxCache.setList
  simp only [List.find?_map]
  have hfun : ((fun l => decide (l.sender = sender)) ∘
      fun l => if l.sender = l1.sender then l1 else l)
      = fun l => decide (l.sender = sender) := by
    funext x
    simp only [Function.comp]
    split_ifs with hx
    · simp [hs, hx]
    · rfl
  rw [hfun, hfind]
  simp [hls, hs]

/-- Round trip on a well-formed index: adding a record that takes a net-new
slot or is discarded, without eviction, and removing it again restores the
three aggregate counters. -/
theorem roundtrip_counters (score : ScoreFn) {c : TxCache} (r : TxRecord)
    (hwf : c.WellFormed) (hr : ¬ Malformed (some r)) (hnew : c.contains r.hash = false)
    (hquiet : c.insertionBreachesThreshold r = false)
    (hslot : ∀ l old, c.findList r.sender = some l → old ∈ l.items →
      old.nonce = r.nonce → ¬ old.feeRate < r.feeRate) :
    ((c.AddTx score (some r)).1.RemoveTx r.hash).txCount = c.txCount ∧
    ((c.AddTx score (some r)).1.RemoveTx r.hash).numBytes = c.numBytes ∧
    ((c.AddTx score (some r)).1.RemoveTx r.hash).senderCount = c.senderCount := by
  rw [AddTx_of_quiet score hr hnew hquiet]
  cases hadm : c.insertTx r with
  | none =>
    simp only [Option.getD_none]
    rw [RemoveTx_absent hnew]
    exact ⟨rfl, rfl, rfl⟩
  | some c1 =>
    simp only [Option.getD_some]
    unfold TxCache.insertTx at hadm
    split at hadm
    · next hnone =>
      -- the first record of its sender
      injection hadm with hadm
      subst hadm
      obtain ⟨a1, a2, a3, a4, a5⟩ := txByHashRemove_added
        { c with
          txListBySender := c.txListBySender ++ [{ sender := r.sender, items := [r] }]
          senderCount := c.senderCount + 1 } r
      have hfind : (TxCache.txByHashRemove (TxCache.txByHashAdd
          { c with
            txListBySender := c.txListBySender ++ [{ sender := r.sender, items := [r] }]
            senderCount := c.senderCount + 1 } r) r.hash).1.findList r.sender
            = some { sender := r.sender, items := [r] } := by
        unfold TxCache.findList at hnone ⊢
        rw [a5]
        simp only [List.find?_append, hnone]
        simp
      obtain ⟨b1, b2, b3⟩ := RemoveTx_counters (Prod.ext rfl a1) hfind
      rw [b1, b2, b3, a2, a3, a4]
      simp [SenderTxList.Remove]
    · next l hsome =>
      obtain ⟨hl, hls⟩ := findList_some hsome
      split at hadm
      · next hnonce =>
        -- a net-new slot in the list of its sender
        injection hadm with hadm
        subst hadm
        obtain ⟨a1, a2, a3, a4, a5⟩ := txByHashRemove_added (c.setList (l.Insert r).1) r
        have hfind : (TxCache.txByHashRemove (TxCache.txByHashAdd
            (c.setList (l.Insert r).1) r) r.hash).1.findList r.sender
              = some (l.Insert r).1 := by
          have := @findList_setList c l (l.Insert r).1 r.sender hsome hls
          unfold TxCache.findList at this ⊢
          rw [a5]
          exact this
        obtain ⟨b1, b2, b3⟩ := RemoveTx_counters (Prod.ext rfl a1) hfind
        rw [b1, b2, b3, a2, a3, a4]
        refine ⟨rfl, rfl, ?_⟩
        have hlen : (SenderTxList.insertSorted r l.items).length = l.items.length + 1 := by
          apply insertSorted_length_of_new
          intro y hy hyn
          have := List.find?_eq_none.mp hnonce y hy
          simp [hyn] at this
        have hpos : 0 < l.items.length := List.length_pos.mpr (hwf.1 l hl).2.1
        have hle := List.le_length_eraseP (p := fun x => decide (x.hash = r.hash))
          (SenderTxList.insertSorted r l.items)
        have hne : ((l.Insert r).1.Remove r.hash).1.items.isEmpty = false := by
          rw [Bool.eq_false_iff]
          intro hempty
          have hnil := List.isEmpty_iff.mp hempty
          have : ((l.Insert r).1.Remove r.hash).1.items.length = 0 := by rw [hnil]; rfl
          simp only [SenderTxList.Remove, SenderTxList.Insert] at this
          omega
        rw [hne]
        simp [TxCache.setList]
      · next old hold =>
        -- the slot is taken: the claim's hypothesis leaves the discard only
        have hmem := List.mem_of_find?_eq_some hold
        have hn : old.nonce = r.nonce := by
          have := List.find?_some hold
          simpa using this
        have := hslot l old hsome hmem hn
        simp [this] at hadm

/-- C7, as stated, fails: on the cache holding `recLow`, the record `recHigh` is
well-formed, its hash is not in the cache and adding it triggers no eviction,
yet it replaces `recLow`, so that removing it again leaves `Len()`,
`NumBytes()` and `CountSenders()` at 0 instead of 1, 100 and 1. -/
theorem roundtrip_fails_on_replacement :
    ¬ Malformed (some recHigh) ∧
    cacheWithLow.contains recHigh.hash = false ∧
    cacheWithLow.insertionBreachesThreshold recHigh = false ∧
    ((cacheWithLow.AddTx feeScore (some recHigh)).1.RemoveTx recHigh.hash).Len
      ≠ cacheWithLow.Len ∧
    ((cacheWithLow.AddTx feeScore (some recHigh)).1.RemoveTx recHigh.hash).NumBytes
      ≠ cacheWithLow.NumBytes ∧
    ((cacheWithLow.AddTx feeScore (some recHigh)).1.RemoveTx recHigh.hash).CountSenders
      ≠ cacheWithLow.CountSenders := by
  refine ⟨?_, ?_, ?_, ?_, ?_, ?_⟩
  · simp [Malformed, recHigh]
  all_goals decide

/-- C7, amended: for every cache state reached by Add and Remove operations and
every well-formed record `r` whose hash is not yet in the cache, whose addition
triggers no eviction and which replaces no pending record (no record of its
sender with the same nonce and a strictly lower feeRate), `AddTx(r)` followed
by `RemoveTx(r.hash)` returns `Len()`, `NumBytes()` and `CountSenders()` to
their values before the add. -/
theorem AddTx_RemoveTx_roundtrip (score : ScoreFn) (config : CacheConfig)
    (ops : List CacheOp) (c : TxCache) (r : TxRecord)
    (hc : c = (NewTxCache config).runOps score ops)
    (hr : ¬ Malformed (some r)) (hnew : c.contains r.hash = false)
    (hquiet : c.insertionBreachesThreshold r = false)
    (hslot : ∀ l old, c.findList r.sender = some l → old ∈ l.items →
      old.nonce = r.nonce → ¬ old.feeRate < r.feeRate) :
    ((c.AddTx score (some r)).1.RemoveTx r.hash).Len = c.Len ∧
    ((c.AddTx score (some r)).1.RemoveTx r.hash).NumBytes = c.NumBytes ∧
    ((c.AddTx score (some r)).1.RemoveTx r.hash).CountSenders = c.CountSenders := by
  have hwf : c.WellFormed := by
    rw [hc]
    exact runOps_wellFormed score ops (NewTxCache_wellFormed config)
  exact roundtrip_counters score r hwf hr hnew hquiet hslot

/-- C7, amended, on the cache holding `recLow` (nonce 5) and the record
`recNext` of the same sender (nonce 6). -/
theorem AddTx_RemoveTx_roundtrip_witness :
    ((cacheWithLow.AddTx feeScore (some recNext)).1.RemoveTx recNext.hash).Len
      = cacheWithLow.Len ∧
    ((cacheWithLow.AddTx feeScore (some recNext)).1.RemoveTx recNext.hash).NumBytes
      = cacheWithLow.NumBytes ∧
    ((cacheWithLow.AddTx feeScore (some recNext)).1.RemoveTx recNext.hash).CountSenders
      = cacheWithLow.CountSenders := by
  refine AddTx_RemoveTx_roundtrip feeScore roomyConfig [CacheOp.add (some recLow)]
    cacheWithLow recNext rfl (by simp [Malformed, recNext]) (by decide) (by decide) ?_
  intro l old hfind hmem hn
  have hl : cacheWithLow.findList recNext.sender
      = some { sender := [7], items := [recLow] } := by decide
  rw [hl] at hfind
  injection hfind with hfind
  subst hfind
  simp only [List.mem_singleton] at hmem
  subst hmem
  revert hn
  decide

/-- C8, as stated, fails: on the tight cache holding `recLow`, the first add of
`recOther` triggers an eviction run that evicts both senders (`Len()` is 0);
the second add of the same record inserts it again (`Len()` is 1). -/
theorem duplicate_add_fails_after_eviction :
    (tightCacheWithLow.AddTx feeScore (some recOther)).1.Len = 0 ∧
    ((tightCacheWithLow.AddTx feeScore (some recOther)).1.AddTx feeScore
      (some recOther)).1.Len = 1 ∧
    ((tightCacheWithLow.AddTx feeScore (some recOther)).1.AddTx feeScore
      (some recOther)).1.Len ≠ (tightCacheWithLow.AddTx feeScore (some recOther)).1.Len := by
  refine ⟨?_, ?_, ?_⟩ <;> decide

/-- C8, amended: for every cache state and every record `r`, if the first add
left the cache unchanged (it rejected or discarded `r`, or `r` was already
there) or `r` is held by the cache after it (the eviction run it may have
triggered did not evict `r`), then adding `r` a second time leaves the cache,
and so `Len()`, as it was after the first add. -/
theorem AddTx_twice_Len (score : ScoreFn) (c : TxCache) (record : Option TxRecord)
    (hkept : (c.AddTx score record).1 = c ∨
      ∃ r, record = some r ∧ (c.AddTx score record).1.contains r.hash = true) :
    ((c.AddTx score record).1.AddTx score record).1 = (c.AddTx score record).1 ∧
    ((c.AddTx score record).1.AddTx score record).1.Len = (c.AddTx score record).1.Len := by
  have hsame : ((c.AddTx score record).1.AddTx score record).1 = (c.AddTx score record).1 := by
    rcases hkept with h | ⟨r, hrec, hin⟩
    · rw [h, h]
    · subst hrec
      generalize (c.AddTx score (some r)).1 = c1 at hin ⊢
      unfold TxCache.AddTx
      simp only [hin, if_true]
      split_ifs <;> rfl
  exact ⟨hsame, by rw [hsame]⟩

/-- C8, amended, on the empty roomy cache and `recLow`, which the first add
inserts. -/
theorem AddTx_twice_Len_witness :
    (((NewTxCache roomyConfig).AddTx feeScore (some recLow)).1.AddTx feeScore
      (some recLow)).1.Len = ((NewTxCache roomyConfig).AddTx feeScore (some recLow)).1.Len :=
  (AddTx_twice_Len feeScore (NewTxCache roomyConfig) (some recLow)
    (Or.inr ⟨recLow, rfl, by decide⟩)).2

/-! ## Eviction Engine -/

theorem insertTx_frame {c c1 : TxCache} {r : TxRecord} (hins : c.insertTx r = some c1) :
    c1.config = c.config ∧ c1.isEvictionInProgress = c.isEvictionInProgress := by
  unfold TxCache.insertTx at hins
  split at hins
  · injection hins with hins
    subst hins
    exact ⟨rfl, rfl⟩
  · split at hins
    · injection hins with hins
      subst hins
      exact ⟨rfl, rfl⟩
    · split_ifs at hins
      injection hins with hins
      subst hins
      obtain ⟨_, a2, a3, _⟩ := byHashStep_remove (c.setList (_ : SenderTxList)) (_ : Bytes)
      exact ⟨a2, a3⟩

/-- Pass 2 with a positive step size and a budget of one step per sender ends
with the cache under its thresholds or with no sender left. -/
theorem evictPassTwoLoop_done (fuel : Nat) (snapshot : List Bytes) (c : TxCache)
    (hstep : 0 < c.config.numSendersEvictedPerStep) (hfuel : snapshot.length ≤ fuel)
    (hcover : ∀ l ∈ c.txListBySender, l.sender ∈ snapshot) :
    (TxCache.evictPassTwoLoop fuel snapshot c).aboveThreshold = false ∨
    (TxCache.evictPassTwoLoop fuel snapshot c).txListBySender = [] := by
  induction fuel generalizing snapshot c with
  | zero =>
    right
    have hnil : snapshot = [] := List.length_eq_zero.mp (Nat.le_zero.mp hfuel)
    simp only [TxCache.evictPassTwoLoop]
    rw [List.eq_nil_iff_forall_not_mem]
    intro l hl
    have := hcover l hl
    rw [hnil] at this
    simp at this
  | succ fuel ih =>
    simp only [TxCache.evictPassTwoLoop]
    split_ifs with h1 h2
    · left
      simpa using h1
    · right
      rw [List.eq_nil_iff_forall_not_mem]
      intro l hl
      have := hcover l hl
      rw [List.isEmpty_iff.mp h2] at this
      simp at this
    · have hne : snapshot ≠ [] := by
        intro hnil
        rw [hnil] at h2
        simp at h2
      have hpos : 0 < snapshot.length := List.length_pos.mpr hne
      apply ih
      · rw [evictSenders_config]
        exact hstep
      · rw [List.length_drop]
        omega
      · intro l hl
        rw [evictSenders_lists] at hl
        obtain ⟨hmem, hout⟩ := List.mem_filter.mp hl
        have hin := hcover l hmem
        rw [← List.take_append_drop c.config.numSendersEvictedPerStep snapshot] at hin
        rcases List.mem_append.mp hin with h | h
        · simp only [decide_eq_true_eq] at hout
          exact absurd h hout
        · exact h

theorem doEviction_config (score : ScoreFn) (c : TxCache) :
    (c.doEviction score).config = c.config := by
  unfold TxCache.doEviction
  split_ifs with hflag
  · rfl
  · dsimp only
    split_ifs
    · unfold TxCache.evictPassTwo
      rw [evictPassTwoLoop_config, evictPassOne_config]
    · rw [evictPassOne_config]

/-- An eviction run that wins the gate, with a positive step size, ends with
the cache under its thresholds or with no sender left. -/
theorem doEviction_done (score : ScoreFn) (c : TxCache)
    (hgate : c.isEvictionInProgress = false)
    (hstep : 0 < c.config.numSendersEvictedPerStep) :
    (c.doEviction score).aboveThreshold = false ∨ (c.doEviction score).txListBySender = [] := by
  unfold TxCache.doEviction
  simp only [hgate, Bool.false_eq_true, if_false]
  split_ifs with habove
  · have hloop := evictPassTwoLoop_done
      ((TxCache.snapshotAscending score (TxCache.evictPassOne
        { c with
          isEvictionInProgress := true
          evictionJournal :=
            { evictionPerformed := true, passOneNumTxs := 0, passOneNumSenders := 0,
              passTwoNumTxs := 0, passTwoNumSenders := 0, passTwoNumSteps := 0 } })).map
        (fun l => l.sender)).length
      ((TxCache.snapshotAscending score (TxCache.evictPassOne
        { c with
          isEvictionInProgress := true
          evictionJournal :=
            { evictionPerformed := true, passOneNumTxs := 0, passOneNumSenders := 0,
              passTwoNumTxs := 0, passTwoNumSenders := 0, passTwoNumSteps := 0 } })).map
        (fun l => l.sender))
      (TxCache.evictPassOne
        { c with
          isEvictionInProgress := true
          evictionJournal :=
            { evictionPerformed := true, passOneNumTxs := 0, passOneNumSenders := 0,
              passTwoNumTxs := 0, passTwoNumSenders := 0, passTwoNumSteps := 0 } })
      (by rw [evictPassOne_config]; exact hstep) (Nat.le_refl _)
      (by
        intro l hl
        apply List.mem_map_of_mem
        unfold TxCache.snapshotAscending
        exact (List.perm_insertionSort _ _).mem_iff.mpr hl)
    exact hloop
  · left
    simpa [TxCache.aboveThreshold] using habove

/-- C9, as stated, fails: with `numSendersEvictedPerStep = 0` and
`maxBytes = 50`, adding the 100 bytes of `recLow` to the empty cache triggers
an eviction run whose pass 2 evicts nobody in any step; when the run completes
`NumBytes()` is 100, above `maxBytes`, and the sender is still there. -/
theorem eviction_overshoot_with_zero_step :
    ¬ Malformed (some recLow) ∧
    (NewTxCache zeroStepConfig).contains recLow.hash = false ∧
    (NewTxCache zeroStepConfig).insertionBreachesThreshold recLow = true ∧
    (NewTxCache zeroStepConfig).isEvictionInProgress = false ∧
    ((NewTxCache zeroStepConfig).AddTx feeScore (some recLow)).1.isEvictionInProgress = false ∧
    ((NewTxCache zeroStepConfig).AddTx feeScore (some recLow)).1.evictionJournal.evictionPerformed
      = true ∧
    ((NewTxCache zeroStepConfig).AddTx feeScore (some recLow)).1.NumBytes = 100 ∧
    ¬ (((NewTxCache zeroStepConfig).AddTx feeScore (some recLow)).1.NumBytes
          ≤ ((NewTxCache zeroStepConfig).config.maxBytes : Int) ∨
        ((NewTxCache zeroStepConfig).AddTx feeScore (some recLow)).1.txListBySender = []) ∧
    ((NewTxCache zeroStepConfig).AddTx feeScore (some recLow)).1.aboveThreshold = true ∧
    ((NewTxCache zeroStepConfig).AddTx feeScore (some recLow)).1.txListBySender
      = [{ sender := [7], items := [recLow] }] := by
  refine ⟨by simp [Malformed, recLow], by decide, by decide, by decide, by decide, by decide,
    by decide, by decide, by decide, by decide⟩

/-- C9, amended: for every Add that triggers an eviction run (the record is
inserted, the insertion pushes the cache above a threshold and the add wins the
gate), with a pass-2 step size of at least one sender, when the run completes
either `NumBytes() <= maxBytes` or pass 2 has evicted every sender; the cache
stays above a threshold only when no sender is left to evict. -/
theorem eviction_bounded_overshoot (score : ScoreFn) (c : TxCache) (r : TxRecord)
    (hr : ¬ Malformed (some r)) (hnew : c.contains r.hash = false)
    (htrigger : c.insertionBreachesThreshold r = true)
    (hgate : c.isEvictionInProgress = false)
    (hstep : 0 < c.config.numSendersEvictedPerStep) :
    ((c.AddTx score (some r)).1.NumBytes ≤ (c.config.maxBytes : Int) ∨
      (c.AddTx score (some r)).1.txListBySender = []) ∧
    ((c.AddTx score (some r)).1.aboveThreshold = true →
      (c.AddTx score (some r)).1.txListBySender = []) := by
  have hm : ¬ (r.hash = [] ∨ r.sender = []) := hr
  unfold TxCache.insertionBreachesThreshold at htrigger
  cases hadm : c.insertTx r with
  | none =>
    rw [hadm] at htrigger
    simp at htrigger
  | some c1 =>
    rw [hadm] at htrigger
    simp only [] at htrigger
    obtain ⟨hcfg, hflag⟩ := insertTx_frame hadm
    have hrun : (c.AddTx score (some r)).1 = c1.doEviction score := by
      simp only [TxCache.AddTx, hm, if_false, hnew, hadm]
      simp [htrigger]
    rw [hrun]
    have hdone := doEviction_done score c1 (hflag.trans hgate) (hcfg ▸ hstep)
    have hcfg2 : (c1.doEviction score).config = c.config :=
      (doEviction_config score c1).trans hcfg
    constructor
    · rcases hdone with h | h
      · left
        unfold TxCache.aboveThreshold at h
        rw [hcfg2] at h
        simp only [Bool.or_eq_false_iff, decide_eq_false_iff_not, not_lt] at h
        exact h.1
      · right
        exact h
    · intro habove
      rcases hdone with h | h
      · rw [h] at habove
        exact absurd habove (by simp)
      · exact h

/-- C9, amended, on the tight cache holding `recLow`: adding `recOther`
pushes the transaction count to 2, above the threshold of 1, and the run
evicts both senders. -/
theorem eviction_bounded_overshoot_witness :
    tightCacheWithLow.insertionBreachesThreshold recOther = true ∧
    ((tightCacheWithLow.AddTx feeScore (some recOther)).1.NumBytes
        ≤ (tightCacheWithLow.config.maxBytes : Int) ∨
      (tightCacheWithLow.AddTx feeScore (some recOther)).1.txListBySender = []) :=
  ⟨by decide,
    (eviction_bounded_overshoot feeScore tightCacheWithLow recOther
      (by simp [Malformed, recOther]) (by decide) (by decide) (by decide) (by decide)).1⟩

/-! ## Selection Engine -/

theorem selectWalk_initial (last : Option Nat) (gas bytes : Nat) (xs : List TxRecord) :
    SenderTxList.selectWalk last gas bytes xs <+: xs := by
  induction xs generalizing last gas bytes with
  | nil =>
    simp only [SenderTxList.selectWalk]
    exact List.prefix_refl _
  | cons x xs ih =>
    simp only [SenderTxList.selectWalk]
    split_ifs
    · exact List.nil_prefix
    · exact List.nil_prefix
    · rw [List.cons_prefix_cons]
      exact ⟨rfl, ih _ _ _⟩

theorem selectWalk_consecutive (last : Option Nat) (gas bytes : Nat) (xs : List TxRecord) :
    List.Chain' Consecutive (SenderTxList.selectWalk last gas bytes xs) ∧
    ∀ p, last = some p →
      ∀ y ∈ (SenderTxList.selectWalk last gas bytes xs).head?, y.nonce = p + 1 := by
  induction xs generalizing last gas bytes with
  | nil => simp [SenderTxList.selectWalk]
  | cons x xs ih =>
    simp only [SenderTxList.selectWalk]
    split_ifs with hgap hbudget
    · simp
    · simp
    · obtain ⟨hchain, hhead⟩ := ih (some x.nonce) (gas - x.gasLimit) (bytes - x.sizeBytes)
      constructor
      · rw [List.chain'_cons']
        exact ⟨fun y hy => hhead x.nonce rfl y hy, hchain⟩
      · intro p hp y hy
        subst hp
        simp only [List.head?_cons, Option.mem_def, Option.some.injEq] at hy
        subst hy
        simpa using hgap

theorem selectLoop_mem (haveTimeFn : Nat → Bool) (calls gas bytes : Nat)
    (ls : List SenderTxList) {x : TxRecord}
    (hx : x ∈ TxCache.selectLoop haveTimeFn calls gas bytes ls) :
    ∃ l ∈ ls, x ∈ l.items := by
  induction ls generalizing calls gas bytes with
  | nil => simp [TxCache.selectLoop] at hx
  | cons l ls ih =>
    simp only [TxCache.selectLoop] at hx
    split_ifs at hx
    · simp at hx
    · rcases List.mem_append.mp hx with h | h
      · exact ⟨l, List.mem_cons_self _ _, (selectWalk_initial _ _ _ _).subset h⟩
      · obtain ⟨l1, hl1, hx1⟩ := ih _ _ _ h
        exact ⟨l1, List.mem_cons_of_mem _ hl1, hx1⟩

/-- What selection returns for one sender is nothing, or one walk over the list
of that sender. -/
theorem selectLoop_of_sender (haveTimeFn : Nat → Bool) (calls gas bytes : Nat)
    (ls : List SenderTxList) (hgood : GoodLists ls) (sender : Bytes) :
    (TxCache.selectLoop haveTimeFn calls gas bytes ls).filter
        (fun x => decide (x.sender = sender)) = [] ∨
    ∃ l ∈ ls, l.sender = sender ∧ ∃ g b,
      (TxCache.selectLoop haveTimeFn calls gas bytes ls).filter
        (fun x => decide (x.sender = sender)) = SenderTxList.selectWalk none g b l.items := by
  induction ls generalizing calls gas bytes with
  | nil => simp [TxCache.selectLoop]
  | cons l ls ih =>
    have hgood1 : GoodLists ls := goodLists_sublist (List.sublist_cons_self l ls) hgood
    have hown := (hgood.1 l (List.mem_cons_self _ _)).2.2
    simp only [TxCache.selectLoop]
    split_ifs with htime
    · simp
    · rw [List.filter_append]
      by_cases hs : l.sender = sender
      · -- the walk over this list is kept whole, later lists are of other senders
        right
        refine ⟨l, List.mem_cons_self _ _, hs, gas, bytes, ?_⟩
        have hkeep : (SenderTxList.selectWalk none gas bytes l.items).filter
            (fun x => decide (x.sender = sender))
            = SenderTxList.selectWalk none gas bytes l.items := by
          rw [List.filter_eq_self]
          intro x hx
          have := hown x ((selectWalk_initial _ _ _ _).subset hx)
          simp [this, hs]
        have hrest : (TxCache.selectLoop haveTimeFn (calls + 1)
            (gas - ((SenderTxList.selectWalk none gas bytes l.items).map
              (fun x => x.gasLimit)).sum)
            (bytes - ((SenderTxList.selectWalk none gas bytes l.items).map
              (fun x => x.sizeBytes)).sum) ls).filter
            (fun x => decide (x.sender = sender)) = [] := by
          rw [List.filter_eq_nil_iff]
          intro x hx
          obtain ⟨l1, hl1, hx1⟩ := selectLoop_mem _ _ _ _ _ hx
          have hxs := (hgood1.1 l1 hl1).2.2 x hx1
          have hnodup := hgood.2
          simp only [List.map_cons, List.nodup_cons, List.mem_map, not_exists, not_and] at hnodup
          have hne := hnodup.1 l1 hl1
          simp only [decide_eq_true_eq]
          intro hxsender
          apply hne
          rw [hs, ← hxs, hxsender]
        rw [hkeep, hrest, List.append_nil]
      · have hdrop : (SenderTxList.selectWalk none gas bytes l.items).filter
            (fun x => decide (x.sender = sender)) = [] := by
          rw [List.filter_eq_nil_iff]
          intro x hx
          have := hown x ((selectWalk_initial _ _ _ _).subset hx)
          simp only [decide_eq_true_eq]
          intro hxsender
          exact hs (this ▸ hxsender)
        rw [hdrop, List.nil_append]
        rcases ih (calls + 1) _ _ hgood1 with h | ⟨l1, hl1, hs1, g, b, h⟩
        · left
          exact h
        · right
          exact ⟨l1, List.mem_cons_of_mem _ hl1, hs1, g, b, h⟩

theorem consecutive_ascending {xs : List TxRecord} (h : List.Chain' Consecutive xs) :
    StrictlyAscending xs := by
  unfold StrictlyAscending
  have htrans : IsTrans TxRecord (fun a b => a.nonce < b.nonce) :=
    ⟨fun _ _ _ hab hbc => Nat.lt_trans hab hbc⟩
  rw [← List.chain'_iff_pairwise]
  refine List.Chain'.imp ?_ h
  intro a b hab
  unfold Consecutive at hab
  omega

/-- A run of consecutive nonces holds every nonce between its first and any
of its records. -/
theorem consecutive_fill (h : TxRecord) (t : List TxRecord)
    (hchain : List.Chain' Consecutive (h :: t)) :
    ∀ x ∈ h :: t, ∀ n, h.nonce ≤ n → n ≤ x.nonce → ∃ y ∈ h :: t, y.nonce = n := by
  induction t generalizing h with
  | nil =>
    intro x hx n h1 h2
    simp only [List.mem_singleton] at hx
    subst hx
    exact ⟨x, by simp, by omega⟩
  | cons h2 t ih =>
    intro x hx n h1 h2n
    rw [List.chain'_cons'] at hchain
    obtain ⟨hhead, hrest⟩ := hchain
    have hstep : h2.nonce = h.nonce + 1 := hhead h2 (by simp)
    by_cases hn : n = h.nonce
    · exact ⟨h, by simp, hn.symm⟩
    · rcases List.mem_cons.mp hx with hx | hx
      · subst hx
        omega
      · obtain ⟨y, hy, hyn⟩ := ih h2 hrest x hx n (by omega) h2n
        exact ⟨y, List.mem_cons_of_mem _ hy, hyn⟩

/-- C10: for every cache state reached by Add and Remove operations, every
budget and every time predicate, the transactions `SelectTransactions` returns
for one sender appear in ascending nonce order, each nonce right after the one
before, and form an initial run of the pending list of that sender: every
nonce from the first pending one up to a selected one is selected too, so that
no selected nonce lies beyond a gap. -/
theorem select_respects_nonce_continuity (score : ScoreFn) (config : CacheConfig)
    (ops : List CacheOp) (maxGas maxBytes : Nat) (haveTimeFn : Nat → Bool) (sender : Bytes) :
    StrictlyAscending
      (((NewTxCache config).runOps score ops).selectedOf score maxGas maxBytes haveTimeFn
        sender) ∧
    List.Chain' Consecutive
      (((NewTxCache config).runOps score ops).selectedOf score maxGas maxBytes haveTimeFn
        sender) ∧
    (((NewTxCache config).runOps score ops).selectedOf score maxGas maxBytes haveTimeFn
        sender = [] ∨
      ∃ l ∈ ((NewTxCache config).runOps score ops).txListBySender, l.sender = sender ∧
        ((NewTxCache config).runOps score ops).selectedOf score maxGas maxBytes haveTimeFn
          sender <+: l.items ∧
        ∀ x ∈ ((NewTxCache config).runOps score ops).selectedOf score maxGas maxBytes
            haveTimeFn sender,
          ∀ n, (∀ first ∈ l.items.head?, first.nonce ≤ n) → n ≤ x.nonce →
            ∃ y ∈ ((NewTxCache config).runOps score ops).selectedOf score maxGas maxBytes
              haveTimeFn sender, y.nonce = n) := by
  generalize hc : (NewTxCache config).runOps score ops = c
  have hwf : c.WellFormed := by
    rw [← hc]
    exact runOps_wellFormed score ops (NewTxCache_wellFormed config)
  have hperm : (c.snapshotDescending score).Perm c.txListBySender := by
    unfold TxCache.snapshotDescending
    exact List.perm_insertionSort _ _
  have hgood : GoodLists (c.snapshotDescending score) :=
    ⟨fun l hl => hwf.1 l (hperm.mem_iff.mp hl),
      ((hperm.map (fun l => l.sender)).nodup_iff).mpr hwf.2⟩
  unfold TxCache.selectedOf TxCache.SelectTransactions
  rcases selectLoop_of_sender haveTimeFn 0 maxGas maxBytes _ hgood sender with
    h | ⟨l, hl, hs, g, b, h⟩
  · rw [h]
    exact ⟨List.Pairwise.nil, List.chain'_nil, Or.inl rfl⟩
  · rw [h]
    have hchain := (selectWalk_consecutive none g b l.items).1
    have hinit := selectWalk_initial none g b l.items
    refine ⟨consecutive_ascending hchain, hchain, Or.inr ⟨l, hperm.mem_iff.mp hl, hs, hinit, ?_⟩⟩
    intro x hx n hfirst hn
    cases hwalk : SenderTxList.selectWalk none g b l.items with
    | nil =>
      rw [hwalk] at hx
      simp at hx
    | cons w ws =>
      rw [hwalk] at hx hchain hinit
      obtain ⟨rest, hrest⟩ := hinit
      have hhead : l.items.head? = some w := by
        rw [← hrest]
        rfl
      exact consecutive_fill w ws hchain x hx n (hfirst w (by rw [hhead]; rfl)) hn

/-- The example of the spec: with pending nonces 3 and 5 of one sender and a
budget that fits everything, only nonce 3 is returned. -/
theorem select_stops_at_gap :
    (cacheWithGap.txListBySender.map (fun l => l.items.map (fun x => x.nonce))) = [[3, 5]] ∧
    (cacheWithGap.SelectTransactions feeScore 1000000 1000000 (fun _ => true)).map
      (fun x => x.nonce) = [3] := by
  constructor <;> decide

theorem selectWalk_within_budget (last : Option Nat) (gas bytes : Nat) (xs : List TxRecord) :
    ((SenderTxList.selectWalk last gas bytes xs).map (fun x => x.gasLimit)).sum ≤ gas ∧
    ((SenderTxList.selectWalk last gas bytes xs).map (fun x => x.sizeBytes)).sum ≤ bytes := by
  induction xs generalizing last gas bytes with
  | nil => simp [SenderTxList.selectWalk]
  | cons x xs ih =>
    simp only [SenderTxList.selectWalk]
    split_ifs with hgap hbudget
    · simp
    · simp
    · obtain ⟨h1, h2⟩ := ih (some x.nonce) (gas - x.gasLimit) (bytes - x.sizeBytes)
      simp only [List.map_cons, List.sum_cons]
      omega

theorem selectLoop_within_budget (haveTimeFn : Nat → Bool) (calls gas bytes : Nat)
    (ls : List SenderTxList) :
    ((TxCache.selectLoop haveTimeFn calls gas bytes ls).map (fun x => x.gasLimit)).sum ≤ gas ∧
    ((TxCache.selectLoop haveTimeFn calls gas bytes ls).map (fun x => x.sizeBytes)).sum
      ≤ bytes := by
  induction ls generalizing calls gas bytes with
  | nil => simp [TxCache.selectLoop]
  | cons l ls ih =>
    simp only [TxCache.selectLoop]
    split_ifs with htime
    · simp
    · obtain ⟨w1, w2⟩ := selectWalk_within_budget none gas bytes l.items
      obtain ⟨r1, r2⟩ := ih (calls + 1)
        (gas - ((SenderTxList.selectWalk none gas bytes l.items).map (fun x => x.gasLimit)).sum)
        (bytes - ((SenderTxList.selectWalk none gas bytes l.items).map
          (fun x => x.sizeBytes)).sum)
      simp only [List.map_append, List.sum_append]
      omega

/-- C11: for every cache state reached by Add and Remove operations, every
`maxGas`, `maxBytes` and time predicate, the sequence `SelectTransactions`
returns has cumulative gas at most `maxGas` and cumulative size at most
`maxBytes`, and for each sender the selected transactions are an initial
segment of the nonce-ordered list of that sender. A sender whose walk stopped
stops alone: the pass goes on with the next sender and the budget that is
left. -/
theorem select_respects_budgets (score : ScoreFn) (config : CacheConfig)
    (ops : List CacheOp) (maxGas maxBytes : Nat) (haveTimeFn : Nat → Bool) (sender : Bytes) :
    ((((NewTxCache config).runOps score ops).SelectTransactions score maxGas maxBytes
      haveTimeFn).map (fun x => x.gasLimit)).sum ≤ maxGas ∧
    ((((NewTxCache config).runOps score ops).SelectTransactions score maxGas maxBytes
      haveTimeFn).map (fun x => x.sizeBytes)).sum ≤ maxBytes ∧
    (((NewTxCache config).runOps score ops).selectedOf score maxGas maxBytes haveTimeFn
        sender = [] ∨
      ∃ l ∈ ((NewTxCache config).runOps score ops).txListBySender, l.sender = sender ∧
        ((NewTxCache config).runOps score ops).selectedOf score maxGas maxBytes haveTimeFn
          sender <+: l.items) ∧
    (∀ (l : SenderTxList) (ls : List SenderTxList) (calls gas bytes : Nat),
      haveTimeFn calls = true →
      TxCache.selectLoop haveTimeFn calls gas bytes (l :: ls)
        = SenderTxList.selectWalk none gas bytes l.items ++
          TxCache.selectLoop haveTimeFn (calls + 1)
            (gas - ((SenderTxList.selectWalk none gas bytes l.items).map
              (fun x => x.gasLimit)).sum)
            (bytes - ((SenderTxList.selectWalk none gas bytes l.items).map
              (fun x => x.sizeBytes)).sum) ls) := by
  generalize hc : (NewTxCache config).runOps score ops = c
  have hwf : c.WellFormed := by
    rw [← hc]
    exact runOps_wellFormed score ops (NewTxCache_wellFormed config)
  have hperm : (c.snapshotDescending score).Perm c.txListBySender := by
    unfold TxCache.snapshotDescending
    exact List.perm_insertionSort _ _
  have hgood : GoodLists (c.snapshotDescending score) :=
    ⟨fun l hl => hwf.1 l (hperm.mem_iff.mp hl),
      ((hperm.map (fun l => l.sender)).nodup_iff).mpr hwf.2⟩
  have hbudget := selectLoop_within_budget haveTimeFn 0 maxGas maxBytes
    (c.snapshotDescending score)
  refine ⟨hbudget.1, hbudget.2, ?_, ?_⟩
  · unfold TxCache.selectedOf TxCache.SelectTransactions
    rcases selectLoop_of_sender haveTimeFn 0 maxGas maxBytes _ hgood sender with
      h | ⟨l, hl, hs, g, b, h⟩
    · exact Or.inl h
    · right
      refine ⟨l, hperm.mem_iff.mp hl, hs, ?_⟩
      rw [h]
      exact selectWalk_initial none g b l.items
  · intro l ls calls gas bytes htime
    simp [TxCache.selectLoop, htime]

/-- With 70 gas, the second record of sender `[7]` (50 gas after 50) does not
fit and stops that sender; the record of sender `[8]` (10 gas) is still
selected. -/
theorem select_budget_stops_one_sender :
    (cacheTwoSenders.SelectTransactions feeScore 70 1000000 (fun _ => true)).map
      (fun x => (x.sender, x.nonce)) = [([7], 0), ([8], 0)] := by
  decide

/-! ## Concurrent callers of Add -/

theorem evictSenders_flag (c : TxCache) (batch : List Bytes) :
    (c.evictSenders batch).isEvictionInProgress = c.isEvictionInProgress := by
  unfold TxCache.evictSenders
  exact (byHashStep_bulk _ _).2.2.1

theorem evictPassTwoLoop_flag (fuel : Nat) (snapshot : List Bytes) (c : TxCache) :
    (TxCache.evictPassTwoLoop fuel snapshot c).isEvictionInProgress
      = c.isEvictionInProgress := by
  induction fuel generalizing snapshot c with
  | zero => rfl
  | succ fuel ih =>
    simp only [TxCache.evictPassTwoLoop]
    split_ifs
    · rfl
    · rfl
    · rw [ih, evictSenders_flag]

theorem evictPassTwo_flag (score : ScoreFn) (c : TxCache) :
    (c.evictPassTwo score).isEvictionInProgress = c.isEvictionInProgress := by
  unfold TxCache.evictPassTwo
  exact evictPassTwoLoop_flag _ _ _

theorem countP_set_evicting (callers : List AddCaller) (i : Nat) (old new : AddCaller)
    (hold : callers[i]? = some old) :
    (callers.set i new).countP AddCaller.evicting + (if old.evicting then 1 else 0)
      = callers.countP AddCaller.evicting + (if new.evicting then 1 else 0) := by
  induction callers generalizing i with
  | nil => simp at hold
  | cons a rest ih =>
    cases i with
    | zero =>
      simp only [List.getElem?_cons_zero, Option.some.injEq] at hold
      subst hold
      simp only [List.set_cons_zero, List.countP_cons]
      omega
    | succ i =>
      simp only [List.getElem?_cons_succ] at hold
      have h := ih i hold
      simp only [List.set_cons_succ, List.countP_cons]
      omega

/-- What one step of a caller does to the flag and to the caller's being
inside an eviction run. -/
theorem AddCaller_step_gate (score : ScoreFn) (c : TxCache) (caller : AddCaller) :
    (caller.evicting = false ∧ (caller.step score c).2.evicting = false ∧
      (caller.step score c).1.isEvictionInProgress = c.isEvictionInProgress) ∨
    (caller = AddCaller.atGate ∧ c.isEvictionInProgress = false ∧
      (caller.step score c).2 = AddCaller.beforePassOne ∧
      (caller.step score c).1.isEvictionInProgress = true) ∨
    (caller.evicting = true ∧ (caller.step score c).2.evicting = true ∧
      (caller.step score c).1.isEvictionInProgress = c.isEvictionInProgress) ∨
    (caller = AddCaller.beforeRelease ∧
      (caller.step score c).2 = AddCaller.returned true ∧
      (caller.step score c).1.isEvictionInProgress = false) := by
  cases caller with
  | toInsert record =>
    left
    cases record with
    | none => exact ⟨rfl, rfl, rfl⟩
    | some r =>
      simp only [AddCaller.step]
      split_ifs with h1 h2
      · exact ⟨rfl, rfl, rfl⟩
      · exact ⟨rfl, rfl, rfl⟩
      · cases hins : c.insertTx r with
        | none => exact ⟨rfl, rfl, rfl⟩
        | some c1 =>
          refine ⟨rfl, ?_, (insertTx_frame hins).2⟩
          simp only
          split_ifs <;> rfl
  | atGate =>
    cases hflag : c.isEvictionInProgress with
    | true =>
      left
      simp [AddCaller.step, AddCaller.evicting, hflag]
    | false =>
      right
      left
      simp [AddCaller.step, hflag]
  | beforePassOne =>
    right
    right
    left
    exact ⟨rfl, rfl, evictPassOne_flag c⟩
  | beforePassTwo =>
    right
    right
    left
    refine ⟨rfl, rfl, ?_⟩
    simp only [AddCaller.step]
    split_ifs
    · exact evictPassTwo_flag score c
    · rfl
  | beforeRelease =>
    right
    right
    right
    exact ⟨rfl, rfl, rfl⟩
  | returned evicted =>
    left
    exact ⟨rfl, rfl, rfl⟩

theorem step_gated (score : ScoreFn) (s : SharedCache) (i : Nat) (h : s.Gated) :
    (s.step score i).Gated := by
  unfold SharedCache.step
  cases hget : s.callers[i]? with
  | none => exact h
  | some caller =>
    unfold SharedCache.Gated SharedCache.evictionRuns at h ⊢
    have hcount := countP_set_evicting s.callers i caller (caller.step score s.cache).2 hget
    simp only
    rcases AddCaller_step_gate score s.cache caller with
      ⟨a1, a2, a3⟩ | ⟨a1, a2, a3, a4⟩ | ⟨a1, a2, a3⟩ | ⟨a1, a2, a3⟩
    · rw [a1, a2] at hcount
      rw [a3, ← h]
      simpa using hcount
    · rw [a3, a1] at hcount
      rw [a2] at h
      rw [a4, a3]
      simp only [AddCaller.evicting, Bool.false_eq_true, if_false, if_true] at hcount h ⊢
      omega
    · rw [a1, a2] at hcount
      rw [a3, ← h]
      simpa using hcount
    · rw [a2, a1] at hcount
      rw [a3, a2]
      simp only [AddCaller.evicting, Bool.false_eq_true, if_false, if_true] at hcount ⊢
      have hpos : 0 < s.callers.countP AddCaller.evicting := by
        rw [List.countP_pos_iff]
        exact ⟨caller, List.getElem?_mem hget, by rw [a1]; rfl⟩
      cases hflag : s.cache.isEvictionInProgress with
      | false =>
        rw [hflag] at h
        simp only [Bool.false_eq_true, if_false] at h
        omega
      | true =>
        rw [hflag] at h
        simp only [if_true] at h
        omega

theorem run_gated (score : ScoreFn) (schedule : List Nat) (s : SharedCache) (h : s.Gated) :
    (s.run score schedule).Gated := by
  unfold SharedCache.run
  induction schedule generalizing s with
  | nil => exact h
  | cons i rest ih => exact ih (s.step score i) (step_gated score s i h)

theorem start_gated (c : TxCache) (records : List (Option TxRecord))
    (hfree : c.isEvictionInProgress = false) : (SharedCache.start c records).Gated := by
  unfold SharedCache.Gated SharedCache.evictionRuns SharedCache.start
  simp only [hfree, Bool.false_eq_true, if_false]
  rw [List.countP_eq_zero]
  intro a ha
  obtain ⟨r, _, rfl⟩ := List.mem_map.mp ha
  simp [AddCaller.evicting]

theorem step_single (score : ScoreFn) (c : TxCache) (caller : AddCaller) :
    SharedCache.step score { cache := c, callers := [caller] } 0
      = { cache := (caller.step score c).1, callers := [(caller.step score c).2] } := by
  simp [SharedCache.step]

/-- A caller alone on a cache with the flag clear does what `AddTx` does. -/
theorem solo_run_eq_AddTx (score : ScoreFn) (c : TxCache) (record : Option TxRecord)
    (hfree : c.isEvictionInProgress = false) :
    ((SharedCache.start c [record]).run score [0, 0, 0, 0, 0]).cache
      = (c.AddTx score record).1 := by
  simp only [SharedCache.run, SharedCache.start, List.map, List.foldl, step_single]
  cases record with
  | none => rfl
  | some r =>
    by_cases h1 : r.hash = [] ∨ r.sender = []
    · simp [AddCaller.step, TxCache.AddTx, h1]
    · by_cases h2 : c.contains r.hash = true
      · simp [AddCaller.step, TxCache.AddTx, h1, h2]
      · cases hins : c.insertTx r with
        | none => simp [AddCaller.step, TxCache.AddTx, h1, h2, hins]
        | some c1 =>
          have hflag : c1.isEvictionInProgress = false := by
            rw [(insertTx_frame hins).2, hfree]
          by_cases h3 : c1.aboveThreshold = true
          · simp [AddCaller.step, TxCache.AddTx, h1, h2, hins, h3, hflag, TxCache.doEviction]
          · simp [AddCaller.step, TxCache.AddTx, h1, h2, hins, h3]

theorem getElem?_set_caller (callers : List AddCaller) (i : Nat) (old new : AddCaller)
    (hold : callers[i]? = some old) : (callers.set i new)[i]? = some new := by
  have hlt : i < callers.length := by
    rcases Nat.lt_or_ge i callers.length with h1 | h1
    · exact h1
    · rw [List.getElem?_eq_none h1] at hold
      cases hold
  simp [hlt]

/-- Only the compare-and-swap that finds the flag clear starts a run. -/
theorem AddCaller_step_starts (score : ScoreFn) (c : TxCache) (caller : AddCaller)
    (h : (caller.step score c).2 = AddCaller.beforePassOne) :
    caller = AddCaller.atGate ∧ c.isEvictionInProgress = false := by
  rcases AddCaller_step_gate score c caller with
    ⟨_, a2, _⟩ | ⟨a1, a2, _, _⟩ | ⟨a1, _, _⟩ | ⟨_, a2, _⟩
  · rw [h] at a2
    cases a2
  · exact ⟨a1, a2⟩
  · cases caller <;> simp [AddCaller.evicting, AddCaller.step] at a1 h
  · rw [a2] at h
    cases h

/-- C12: on a cache shared by any number of concurrent callers of Add, started
with the flag `isEvictionInProgress` clear, under every interleaving of their
atomic steps at most one caller is inside an eviction run, and one is exactly
while the flag is set. A run starts only by the compare-and-swap of a caller
that finds the flag clear, when no run is under way; a caller that finds the
flag set returns at that very step, without evicting: the cache is left as it
was. -/
theorem eviction_mutual_exclusion (score : ScoreFn) (c : TxCache)
    (records : List (Option TxRecord)) (schedule : List Nat)
    (hfree : c.isEvictionInProgress = false) :
    ((SharedCache.start c records).run score schedule).evictionRuns ≤ 1 ∧
    (((SharedCache.start c records).run score schedule).cache.isEvictionInProgress = true ↔
      ((SharedCache.start c records).run score schedule).evictionRuns = 1) ∧
    (∀ i,
      (((SharedCache.start c records).run score schedule).step score i).callers[i]?
        = some AddCaller.beforePassOne →
      ((SharedCache.start c records).run score schedule).callers[i]? = some AddCaller.atGate ∧
      ((SharedCache.start c records).run score schedule).cache.isEvictionInProgress = false ∧
      ((SharedCache.start c records).run score schedule).evictionRuns = 0 ∧
      (((SharedCache.start c records).run score schedule).step score
        i).cache.isEvictionInProgress = true) ∧
    (∀ i,
      ((SharedCache.start c records).run score schedule).callers[i]? = some AddCaller.atGate →
      ((SharedCache.start c records).run score schedule).cache.isEvictionInProgress = true →
      (((SharedCache.start c records).run score schedule).step score i).cache
        = ((SharedCache.start c records).run score schedule).cache ∧
      (((SharedCache.start c records).run score schedule).step score i).callers[i]?
        = some (AddCaller.returned false)) := by
  have hg := run_gated score schedule _ (start_gated c records hfree)
  generalize (SharedCache.start c records).run score schedule = s at hg
  unfold SharedCache.Gated at hg
  refine ⟨?_, ?_, ?_, ?_⟩
  · rw [hg]
    split_ifs <;> omega
  · rw [hg]
    cases s.cache.isEvictionInProgress <;> simp
  · intro i hi
    unfold SharedCache.step at hi ⊢
    cases hget : s.callers[i]? with
    | none =>
      rw [hget] at hi
      simp only at hi
      rw [hget] at hi
      cases hi
    | some caller =>
      rw [hget] at hi
      simp only at hi ⊢
      rw [getElem?_set_caller _ _ _ _ hget, Option.some.injEq] at hi
      obtain ⟨e1, e2⟩ := AddCaller_step_starts score s.cache caller hi
      subst e1
      refine ⟨rfl, e2, ?_, ?_⟩
      · rw [hg, e2]
        rfl
      · simp [AddCaller.step, e2]
  · intro i hi hflag
    unfold SharedCache.step
    rw [hi]
    simp only
    rw [getElem?_set_caller _ _ _ _ hi]
    simp [AddCaller.step, hflag]

/-- C12 on the two callers of the tight cache, after each has inserted its
record and the first has won the compare-and-swap: one run, the flag set. -/
theorem eviction_mutual_exclusion_witness :
    tightCacheWithLow.isEvictionInProgress = false ∧
    ((SharedCache.start tightCacheWithLow [some recOther, some recNext]).run feeScore
      [0, 1, 0]).evictionRuns ≤ 1 ∧
    ((SharedCache.start tightCacheWithLow [some recOther, some recNext]).run feeScore
      [0, 1, 0]).evictionRuns = 1 :=
  ⟨by decide,
    (eviction_mutual_exclusion feeScore tightCacheWithLow [some recOther, some recNext]
      [0, 1, 0] (by decide)).1,
    by decide⟩

end Txcache

namespace GoMap

theorem mem_store {K V : Type} [DecidableEq K] {m : List (K × V)} {k : K} {v : V} {e : K × V}
    (h : e ∈ store m k v) : e = (k, v) ∨ (e ∈ m ∧ e.1 ≠ k) := by
  unfold store at h
  split_ifs at h with hany
  · obtain ⟨e0, he0, rfl⟩ := List.mem_map.mp h
    split_ifs with hk
    · exact Or.inl rfl
    · exact Or.inr ⟨he0, hk⟩
  · rcases List.mem_append.mp h with h | h
    · right
      refine ⟨h, ?_⟩
      intro hk
      apply hany
      rw [List.any_eq_true]
      exact ⟨e, h, by simpa using hk⟩
    · left
      simpa using h

theorem lookup_store_self {K V : Type} [DecidableEq K] (m : List (K × V)) (k : K) (v : V) :
    lookup (store m k v) k = some v := by
  unfold store
  split_ifs with hany
  · unfold lookup
    rw [List.find?_map]
    obtain ⟨e, he, hek⟩ := List.any_eq_true.mp hany
    have hfun : ((fun e : K × V => decide (e.1 = k)) ∘
        fun e => if e.1 = k then (k, v) else e) = fun e => decide (e.1 = k) := by
      funext x
      simp only [Function.comp]
      split_ifs with hx
      · simp [hx]
      · rfl
    rw [hfun]
    cases hfind : m.find? (fun e => decide (e.1 = k)) with
    | none =>
      have := List.find?_eq_none.mp hfind e he
      exact absurd hek this
    | some e1 =>
      have h1 : e1.1 = k := by simpa using List.find?_some hfind
      simp [h1]
  · unfold lookup
    have hnone : m.find? (fun e => decide (e.1 = k)) = none := by
      rw [List.find?_eq_none]
      intro e he hek
      apply hany
      rw [List.any_eq_true]
      exact ⟨e, he, hek⟩
    simp [List.find?_append, hnone]

theorem lookup_store_ne {K V : Type} [DecidableEq K] (m : List (K × V)) {k k1 : K} (v : V) (hne : k1 ≠ k) :
    lookup (store m k v) k1 = lookup m k1 := by
  unfold store
  split_ifs with hany
  · unfold lookup
    rw [List.find?_map]
    have hfun : ((fun e : K × V => decide (e.1 = k1)) ∘
        fun e => if e.1 = k then (k, v) else e) = fun e => decide (e.1 = k1) := by
      funext x
      simp only [Function.comp]
      split_ifs with hx
      · have : ¬ x.1 = k1 := by rw [hx]; exact fun h => hne h.symm
        simp [this, Ne.symm hne]
      · rfl
    rw [hfun]
    cases hfind : m.find? (fun e => decide (e.1 = k1)) with
    | none => rfl
    | some e1 =>
      have h1 : e1.1 = k1 := by simpa using List.find?_some hfind
      have h2 : ¬ e1.1 = k := by rw [h1]; exact hne
      simp [h2]
  · unfold lookup
    rw [List.find?_append]
    cases hfind : m.find? (fun e => decide (e.1 = k1)) with
    | none => simp [hne.symm]
    | some e1 => simp

theorem mem_of_lookup {K V : Type} [DecidableEq K] {m : List (K × V)} {k : K} {v : V}
    (h : lookup m k = some v) : (k, v) ∈ m := by
  unfold lookup at h
  cases hfind : m.find? (fun e => decide (e.1 = k)) with
  | none => simp [hfind] at h
  | some e =>
    rw [hfind] at h
    have hk : e.1 = k := by simpa using List.find?_some hfind
    have hv : e.2 = v := by simpa using h
    have hmem := List.mem_of_find?_eq_some hfind
    have : e = (k, v) := Prod.ext hk hv
    rw [← this]
    exact hmem

theorem lookup_of_not_mem {K V : Type} [DecidableEq K] {m : List (K × V)} {k : K}
    (h : k ∉ m.map (fun e => e.1)) : lookup m k = none := by
  unfold lookup
  have hnone : m.find? (fun e => decide (e.1 = k)) = none := by
    rw [List.find?_eq_none]
    intro e he hek
    apply h
    rw [List.mem_map]
    exact ⟨e, he, by simpa using hek⟩
  rw [hnone]
  rfl

theorem lookup_cons_self {K V : Type} [DecidableEq K] (m : List (K × V)) (k : K) (v : V) :
    lookup ((k, v) :: m) k = some v := by
  simp [lookup]

theorem lookup_cons_ne {K V : Type} [DecidableEq K] (m : List (K × V)) {k k1 : K} (v : V)
    (hne : k1 ≠ k) : lookup ((k, v) :: m) k1 = lookup m k1 := by
  unfold lookup
  rw [List.find?_cons_of_neg]
  simpa using hne.symm

theorem keys_store {K V : Type} [DecidableEq K] (m : List (K × V)) (k : K) (v : V)
    (hm : (m.map (fun e => e.1)).Nodup) : ((store m k v).map (fun e => e.1)).Nodup := by
  unfold store
  split_ifs with hany
  · have hsame : (m.map (fun e => if e.1 = k then (k, v) else e)).map (fun e => e.1)
        = m.map (fun e => e.1) := by
      rw [List.map_map]
      apply List.map_congr_left
      intro e _
      simp only [Function.comp]
      split_ifs with hk
      · exact hk.symm
      · rfl
    rw [hsame]
    exact hm
  · rw [List.map_append, List.nodup_append]
    refine ⟨hm, by simp, ?_⟩
    intro a ha hb
    simp only [List.map_cons, List.map_nil, List.mem_singleton] at hb
    apply hany
    rw [List.any_eq_true]
    obtain ⟨e, he, hea⟩ := List.mem_map.mp ha
    exact ⟨e, he, by simpa [hb] using hea⟩

end GoMap

namespace Track

/-! ## Checks of a header against the rounder and the final header -/

theorem toInt64_of_fits {x : Int} (h0 : -9223372036854775808 ≤ x)
    (h1 : x < 9223372036854775808) : toInt64 x = x := by
  unfold toInt64
  omega

/-- C13, as stated, fails: for the header of round `2^63` and nonce 0 and the
final header of round 0 and nonce 0, the three conditions of the claim hold,
yet `CheckBlockAgainstFinal` returns an error wrapping `ErrLowerRoundInBlock`:
`int64(2^63)` is negative. -/
theorem CheckBlockAgainstFinal_far_round :
    (trackerWithFinal headerZero).GetFinalHeader headerFarRound.shardID
      = Except.ok (headerZero, [1]) ∧
    (headerFarRound.round ≥ headerZero.round ∧ headerFarRound.nonce ≥ headerZero.nonce ∧
      headerFarRound.round - headerZero.round ≥ headerFarRound.nonce - headerZero.nonce) ∧
    (trackerWithFinal headerZero).CheckBlockAgainstFinal (some headerFarRound)
      = some (GoError.wrap (GoError.sentinel ProcessError.ErrLowerRoundInBlock)) := by
  refine ⟨rfl, by decide, by decide⟩

/-- C13, amended: for every non-nil header `h` whose shard has a final header
`f`, with rounds and nonces below `2^63` (where the conversion to `int64` is
exact), `CheckBlockAgainstFinal(h)` returns nil exactly when
`h.round >= f.round`, `h.nonce >= f.nonce` and
`h.round - f.round >= h.nonce - f.nonce`; otherwise it returns an error
wrapping `ErrLowerRoundInBlock` when `h.round < f.round`, else
`ErrLowerNonceInBlock` when `h.nonce < f.nonce`, else `ErrHigherNonceInBlock`.
A nil header gives `ErrNilHeaderHandler` and a `GetFinalHeader` failure is
returned wrapped. -/
theorem CheckBlockAgainstFinal_below_2_63 (bbt : baseBlockTrack) (h f : HeaderHandler)
    (hash : Bytes) (hfinal : bbt.GetFinalHeader h.shardID = Except.ok (f, hash))
    (hhr : h.round < 9223372036854775808) (hhn : h.nonce < 9223372036854775808)
    (hfr : f.round < 9223372036854775808) (hfn : f.nonce < 9223372036854775808) :
    (bbt.CheckBlockAgainstFinal (some h) = none ↔
      h.round ≥ f.round ∧ h.nonce ≥ f.nonce ∧
        (h.round : Int) - f.round ≥ (h.nonce : Int) - f.nonce) ∧
    (h.round < f.round → bbt.CheckBlockAgainstFinal (some h)
      = some (GoError.wrap (GoError.sentinel ProcessError.ErrLowerRoundInBlock))) ∧
    (f.round ≤ h.round → h.nonce < f.nonce → bbt.CheckBlockAgainstFinal (some h)
      = some (GoError.wrap (GoError.sentinel ProcessError.ErrLowerNonceInBlock))) ∧
    (f.round ≤ h.round → f.nonce ≤ h.nonce →
      (h.round : Int) - f.round < (h.nonce : Int) - f.nonce →
      bbt.CheckBlockAgainstFinal (some h)
        = some (GoError.wrap (GoError.sentinel ProcessError.ErrHigherNonceInBlock))) ∧
    bbt.CheckBlockAgainstFinal none
      = some (GoError.sentinel ProcessError.ErrNilHeaderHandler) ∧
    (∀ (other : baseBlockTrack) (err : GoError),
      other.GetFinalHeader h.shardID = Except.error err →
      other.CheckBlockAgainstFinal (some h) = some (GoError.wrap err)) := by
  have e1 : toInt64 (h.round : Int) = h.round := toInt64_of_fits (by omega) (by omega)
  have e2 : toInt64 (f.round : Int) = f.round := toInt64_of_fits (by omega) (by omega)
  have e3 : toInt64 (h.nonce : Int) = h.nonce := toInt64_of_fits (by omega) (by omega)
  have e4 : toInt64 (f.nonce : Int) = f.nonce := toInt64_of_fits (by omega) (by omega)
  have e5 : toInt64 ((h.round : Int) - f.round) = (h.round : Int) - f.round :=
    toInt64_of_fits (by omega) (by omega)
  have e6 : toInt64 ((h.nonce : Int) - f.nonce) = (h.nonce : Int) - f.nonce :=
    toInt64_of_fits (by omega) (by omega)
  have hrun : bbt.CheckBlockAgainstFinal (some h) =
      if (h.round : Int) - f.round < 0 then
        some (GoError.wrap (GoError.sentinel ProcessError.ErrLowerRoundInBlock))
      else if (h.nonce : Int) - f.nonce < 0 then
        some (GoError.wrap (GoError.sentinel ProcessError.ErrLowerNonceInBlock))
      else if (h.round : Int) - f.round < (h.nonce : Int) - f.nonce then
        some (GoError.wrap (GoError.sentinel ProcessError.ErrHigherNonceInBlock))
      else none := by
    simp only [baseBlockTrack.CheckBlockAgainstFinal, hfinal, e1, e2, e3, e4, e5, e6]
  refine ⟨?_, ?_, ?_, ?_, rfl, ?_⟩
  · rw [hrun]
    constructor
    · intro hnone
      split_ifs at hnone with c1 c2 c3
      omega
    · rintro ⟨a1, a2, a3⟩
      have c1 : ¬ (h.round : Int) - f.round < 0 := by omega
      have c2 : ¬ (h.nonce : Int) - f.nonce < 0 := by omega
      have c3 : ¬ (h.round : Int) - f.round < (h.nonce : Int) - f.nonce := by omega
      simp only [c1, c2, c3, if_false]
  · intro a1
    have c1 : (h.round : Int) - f.round < 0 := by omega
    rw [hrun]
    simp only [c1, if_true]
  · intro a1 a2
    have c1 : ¬ (h.round : Int) - f.round < 0 := by omega
    have c2 : (h.nonce : Int) - f.nonce < 0 := by omega
    rw [hrun]
    simp only [c1, c2, if_false, if_true]
  · intro a1 a2 a3
    have c1 : ¬ (h.round : Int) - f.round < 0 := by omega
    have c2 : ¬ (h.nonce : Int) - f.nonce < 0 := by omega
    rw [hrun]
    simp only [c1, c2, a3, if_false, if_true]
  · intro other err herr
    simp only [baseBlockTrack.CheckBlockAgainstFinal, herr]

/-- C13, amended, at the header of round 7 and nonce 5 against the final header
of round 0 and nonce 0: accepted. -/
theorem CheckBlockAgainstFinal_below_2_63_witness :
    (trackerWithFinal headerZero).CheckBlockAgainstFinal (some headerSevenFive) = none :=
  (CheckBlockAgainstFinal_below_2_63 (trackerWithFinal headerZero) headerSevenFive headerZero
    [1] rfl (by decide) (by decide) (by decide) (by decide)).1.mpr (by decide)

/-- C14, as stated, fails: with the rounder at index 0 the header of round
`2^63` is beyond the next round 1, yet `CheckBlockAgainstRounder` returns nil:
`int64(2^63)` is negative. -/
theorem CheckBlockAgainstRounder_far_round :
    (headerFarRound.round : Int) > (trackerWithFinal headerZero).rounderIndex + 1 ∧
    (trackerWithFinal headerZero).CheckBlockAgainstRounder (some headerFarRound) = none := by
  refine ⟨by decide, by decide⟩

/-- C14, amended: for every non-nil header `h` with a round below `2^63` and
every rounder index `i` below `2^63 - 1` (so that neither `int64(h.round)` nor
`i + 1` wraps), `CheckBlockAgainstRounder(h)` returns an error wrapping
`ErrHigherRoundInBlock` exactly when `h.round` is greater than `i + 1`, and nil
otherwise; a nil header gives `ErrNilHeaderHandler`. -/
theorem CheckBlockAgainstRounder_below_2_63 (bbt : baseBlockTrack) (h : HeaderHandler)
    (hr : h.round < 9223372036854775808)
    (hi0 : -9223372036854775808 ≤ bbt.rounderIndex)
    (hi1 : bbt.rounderIndex < 9223372036854775807) :
    (bbt.CheckBlockAgainstRounder (some h)
        = some (GoError.wrap (GoError.sentinel ProcessError.ErrHigherRoundInBlock)) ↔
      (h.round : Int) > bbt.rounderIndex + 1) ∧
    (¬ (h.round : Int) > bbt.rounderIndex + 1 →
      bbt.CheckBlockAgainstRounder (some h) = none) ∧
    bbt.CheckBlockAgainstRounder none
      = some (GoError.sentinel ProcessError.ErrNilHeaderHandler) := by
  have e1 : toInt64 (h.round : Int) = h.round := toInt64_of_fits (by omega) (by omega)
  have e2 : toInt64 (bbt.rounderIndex + 1) = bbt.rounderIndex + 1 :=
    toInt64_of_fits (by omega) (by omega)
  have hrun : bbt.CheckBlockAgainstRounder (some h) =
      if (h.round : Int) > bbt.rounderIndex + 1 then
        some (GoError.wrap (GoError.sentinel ProcessError.ErrHigherRoundInBlock))
      else none := by
    simp only [baseBlockTrack.CheckBlockAgainstRounder, e1, e2]
  refine ⟨?_, ?_, rfl⟩
  · rw [hrun]
    constructor
    · intro hsome
      split_ifs at hsome with c1
      exact c1
    · intro c1
      simp only [c1, if_true]
  · intro c1
    rw [hrun]
    simp only [c1, if_false]

/-- C14, amended, with the rounder at index 0: the header of round 7 is beyond
the next round 1. -/
theorem CheckBlockAgainstRounder_below_2_63_witness :
    (trackerWithFinal headerZero).CheckBlockAgainstRounder (some headerSevenFive)
      = some (GoError.wrap (GoError.sentinel ProcessError.ErrHigherRoundInBlock)) :=
  (CheckBlockAgainstRounder_below_2_63 (trackerWithFinal headerZero) headerSevenFive
    (by decide) (by decide) (by decide)).1.mpr (by decide)

/-! ## Tracked headers -/

theorem collect_foldl (n : Nat) (m : List (Nat × List HeaderInfo)) (acc : List HeaderInfo) :
    m.foldl (fun acc e => if e.1 < n then acc else acc ++ e.2) acc
      = acc ++ (m.filter (fun e => decide (¬ e.1 < n))).flatMap (fun e => e.2) := by
  induction m generalizing acc with
  | nil => simp
  | cons e m ih =>
    simp only [List.foldl_cons]
    rw [ih]
    by_cases he : e.1 < n
    · simp [he, List.filter_cons]
    · have hle : n ≤ e.1 := by omega
      simp [he, hle, List.filter_cons, List.flatMap_cons]

theorem collect_by_header_nonce (n : Nat) {m : List (Nat × List HeaderInfo)}
    (hm : NoncesMatch m) :
    (m.filter (fun e => decide (¬ e.1 < n))).flatMap (fun e => e.2)
      = (m.flatMap (fun e => e.2)).filter (fun i => decide (n ≤ i.Header.nonce)) := by
  induction m with
  | nil => simp
  | cons e m ih =>
    have hm1 : NoncesMatch m := fun e1 he1 => hm e1 (List.mem_cons_of_mem _ he1)
    have he : ∀ info ∈ e.2, info.Header.nonce = e.1 := hm e (List.mem_cons_self _ _)
    rw [List.flatMap_cons, List.filter_append, ← ih hm1]
    by_cases hlt : e.1 < n
    · have hnil : e.2.filter (fun i => decide (n ≤ i.Header.nonce)) = [] := by
        rw [List.filter_eq_nil_iff]
        intro info hinfo
        have := he info hinfo
        simp only [decide_eq_true_eq]
        omega
      simp [List.filter_cons, hlt, hnil]
    · have hall : e.2.filter (fun i => decide (n ≤ i.Header.nonce)) = e.2 := by
        rw [List.filter_eq_self]
        intro info hinfo
        have := he info hinfo
        simp only [decide_eq_true_eq]
        omega
      have hle : n ≤ e.1 := by omega
      simp [List.filter_cons, hlt, hle, hall, List.flatMap_cons]

theorem append_foldl {α β : Type} (f : α → β) (l : List α) (acc : List β) :
    l.foldl (fun acc x => acc ++ [f x]) acc = acc ++ l.map f := by
  induction l generalizing acc with
  | nil => simp
  | cons x l ih =>
    simp only [List.foldl_cons, List.map_cons]
    rw [ih]
    simp

theorem cleanup_foldl (n : Nat) (ks : List Nat) (m : List (Nat × List HeaderInfo)) :
    ks.foldl (fun m headersNonce => if headersNonce < n then GoMap.remove m headersNonce else m) m
      = m.filter (fun e => decide (¬ (e.1 < n ∧ e.1 ∈ ks))) := by
  induction ks generalizing m with
  | nil => simp
  | cons k ks ih =>
    simp only [List.foldl_cons]
    rw [ih]
    by_cases hk : k < n
    · simp only [hk, if_true, GoMap.remove, List.filter_filter]
      apply List.filter_congr
      intro e _
      by_cases hek : e.1 = k
      · simp [hek, hk]
      · simp [hek]
    · simp only [hk, if_false]
      apply List.filter_congr
      intro e _
      by_cases hek : e.1 = k
      · simp [hek, hk]
      · simp [hek]

theorem cleanup_keys (n : Nat) (m : List (Nat × List HeaderInfo)) :
    (m.map (fun e => e.1)).foldl
        (fun m headersNonce => if headersNonce < n then GoMap.remove m headersNonce else m) m
      = m.filter (fun e => decide (¬ e.1 < n)) := by
  rw [cleanup_foldl]
  apply List.filter_congr
  intro e he
  have : e.1 ∈ m.map (fun e => e.1) := List.mem_map_of_mem _ he
  simp [this]

theorem noncesMatch_mapSet {m : List (Nat × List HeaderInfo)} {k : Nat}
    {infos : List HeaderInfo} (hm : NoncesMatch m)
    (hinfos : ∀ info ∈ infos, info.Header.nonce = k) : NoncesMatch (GoMap.store m k infos) := by
  intro e he
  rcases GoMap.mem_store he with h | ⟨h, _⟩
  · rw [h]
    exact hinfos
  · exact hm e h

theorem keysMatch_mapSet {H : List (Nat × List (Nat × List HeaderInfo))} {k : Nat}
    {v : List (Nat × List HeaderInfo)} (hH : ∀ s ∈ H, NoncesMatch s.2) (hv : NoncesMatch v) :
    ∀ s ∈ GoMap.store H k v, NoncesMatch s.2 := by
  intro s hs
  rcases GoMap.mem_store hs with h | ⟨h, _⟩
  · rw [h]
    exact hv
  · exact hH s h

theorem addHeader_keysMatch {bbt : baseBlockTrack} (header : Option HeaderHandler)
    (hash : Bytes) (hk : bbt.KeysMatch) : (bbt.addHeader header hash).KeysMatch := by
  cases header with
  | none => exact hk
  | some h =>
    unfold baseBlockTrack.KeysMatch at hk ⊢
    cases hget : GoMap.lookup bbt.headers h.shardID with
    | none =>
      have hcreated : ∀ s ∈ GoMap.store bbt.headers h.shardID ([] : List (Nat × List HeaderInfo)),
          NoncesMatch s.2 :=
        keysMatch_mapSet hk (fun e he => by simp at he)
      simp only [baseBlockTrack.addHeader, hget]
      split_ifs
      · exact hcreated
      · refine keysMatch_mapSet hcreated (noncesMatch_mapSet (fun e he => by simp at he) ?_)
        intro info hinfo
        simp only [GoMap.lookup, List.find?_nil, Option.map_none', Option.getD_none, List.nil_append,
          List.mem_singleton] at hinfo
        rw [hinfo]
    | some m =>
      have hm : NoncesMatch m := hk _ (GoMap.mem_of_lookup hget)
      simp only [baseBlockTrack.addHeader, hget]
      split_ifs
      · exact hk
      · refine keysMatch_mapSet hk (noncesMatch_mapSet hm ?_)
        intro info hinfo
        rcases List.mem_append.mp hinfo with h1 | h1
        · cases hn : GoMap.lookup m h.nonce with
          | none => simp [hn] at h1
          | some infos =>
            rw [hn] at h1
            exact hm _ (GoMap.mem_of_lookup hn) info h1
        · simp only [List.mem_singleton] at h1
          rw [h1]

theorem addHeader_shardsHold {bbt : baseBlockTrack} (header : Option HeaderHandler)
    (hash : Bytes) (hs : bbt.ShardsHold) : (bbt.addHeader header hash).ShardsHold := by
  cases header with
  | none => exact hs
  | some h =>
    unfold baseBlockTrack.ShardsHold at hs ⊢
    have hnew : ∀ (m : List (Nat × List HeaderInfo)) (infos : List HeaderInfo),
        (GoMap.store m h.nonce (infos ++ [{ Hash := hash, Header := h }])).flatMap (fun e => e.2)
          ≠ [] := by
      intro m infos hnil
      have hget := GoMap.lookup_store_self m h.nonce (infos ++ [{ Hash := hash, Header := h }])
      have hmem := GoMap.mem_of_lookup hget
      have : ({ Hash := hash, Header := h } : HeaderInfo) ∈
          (GoMap.store m h.nonce (infos ++ [{ Hash := hash, Header := h }])).flatMap
            (fun e => e.2) := by
        rw [List.mem_flatMap]
        exact ⟨_, hmem, by simp⟩
      rw [hnil] at this
      simp at this
    cases hget : GoMap.lookup bbt.headers h.shardID with
    | none =>
      simp only [baseBlockTrack.addHeader, hget]
      split_ifs with hany
      · simp [GoMap.lookup] at hany
      · intro s hsmem
        rcases GoMap.mem_store hsmem with h1 | ⟨h1, hne⟩
        · rw [h1]
          exact hnew [] ((GoMap.lookup ([] : List (Nat × List HeaderInfo)) h.nonce).getD [])
        · rcases GoMap.mem_store h1 with h2 | ⟨h2, _⟩
          · rw [h2] at hne
            exact absurd rfl hne
          · exact hs s h2
    | some m =>
      simp only [baseBlockTrack.addHeader, hget]
      split_ifs
      · exact hs
      · intro s hsmem
        rcases GoMap.mem_store hsmem with h1 | ⟨h1, _⟩
        · rw [h1]
          exact hnew m ((GoMap.lookup m h.nonce).getD [])
        · exact hs s h1

theorem addHeaders_invariants (bbt : baseBlockTrack) (cs : List (Option HeaderHandler × Bytes))
    (hk : bbt.KeysMatch) (hs : bbt.ShardsHold) :
    (bbt.addHeaders cs).KeysMatch ∧ (bbt.addHeaders cs).ShardsHold := by
  unfold baseBlockTrack.addHeaders
  induction cs generalizing bbt with
  | nil => exact ⟨hk, hs⟩
  | cons c cs ih =>
    simp only [List.foldl_cons]
    exact ih _ (addHeader_keysMatch c.1 c.2 hk) (addHeader_shardsHold c.1 c.2 hs)

theorem cleanupTracked_keysMatch {bbt : baseBlockTrack} (shardID nonce : Nat)
    (hk : bbt.KeysMatch) : (bbt.cleanupTrackedHeadersBehindNonce shardID nonce).KeysMatch := by
  unfold baseBlockTrack.cleanupTrackedHeadersBehindNonce
  split_ifs
  · exact hk
  · split
    · exact hk
    · next m hget =>
      unfold baseBlockTrack.KeysMatch at hk ⊢
      refine keysMatch_mapSet hk ?_
      rw [cleanup_keys]
      intro e he
      exact hk _ (GoMap.mem_of_lookup hget) e (List.mem_of_mem_filter he)

theorem calls_keysMatch (bbt : baseBlockTrack) (cs : List TrackerCall) (hk : bbt.KeysMatch) :
    (bbt.calls cs).KeysMatch := by
  unfold baseBlockTrack.calls
  induction cs generalizing bbt with
  | nil => exact hk
  | cons c cs ih =>
    simp only [List.foldl_cons]
    apply ih
    cases c with
    | AddTrackedHeader header hash => exact addHeader_keysMatch header hash hk
    | CleanupHeadersBehindNonce shardID selfNonce crossNonce =>
      simp only [baseBlockTrack.call, baseBlockTrack.CleanupHeadersBehindNonce]
      split_ifs <;> exact cleanupTracked_keysMatch _ _ hk

theorem insertionSortByNonce_sorts : SortsByNonce insertionSortByNonce := by
  intro l
  unfold insertionSortByNonce
  have htotal : IsTotal HeaderInfo (fun a b => a.Header.nonce ≤ b.Header.nonce) :=
    ⟨fun a b => Nat.le_total a.Header.nonce b.Header.nonce⟩
  have htrans : IsTrans HeaderInfo (fun a b => a.Header.nonce ≤ b.Header.nonce) :=
    ⟨fun _ _ _ hab hbc => Nat.le_trans hab hbc⟩
  exact ⟨List.perm_insertionSort _ l, List.sorted_insertionSort _ l⟩

/-- C15: for every tracker state reached by `addHeader` calls, every shard and
nonce, and whatever order `sort.Slice` leaves equal nonces in,
`SortHeadersFromNonce` returns the tracked headers of the shard whose nonce is
at least the given one, each once, in non-decreasing nonce order, with the
hash stored with each header at the same index of the second list; for a
shard with no tracked headers it returns `(nil, nil)`. -/
theorem SortHeadersFromNonce_sorted (start : baseBlockTrack)
    (cs : List (Option HeaderHandler × Bytes))
    (sortSlice : List HeaderInfo → List HeaderInfo) (hsort : SortsByNonce sortSlice)
    (shardID nonce : Nat) :
    ((start.restoreTrackedHeadersToGenesis.addHeaders cs).trackedHeaders shardID = [] →
      (start.restoreTrackedHeadersToGenesis.addHeaders cs).SortHeadersFromNonce sortSlice
        shardID nonce = (none, none)) ∧
    ((start.restoreTrackedHeadersToGenesis.addHeaders cs).trackedHeaders shardID ≠ [] →
      ∃ infos : List HeaderInfo,
        infos.Perm
          (((start.restoreTrackedHeadersToGenesis.addHeaders cs).trackedHeaders shardID).filter
            (fun i => decide (nonce ≤ i.Header.nonce))) ∧
        infos.Pairwise (fun a b => a.Header.nonce ≤ b.Header.nonce) ∧
        (start.restoreTrackedHeadersToGenesis.addHeaders cs).SortHeadersFromNonce sortSlice
          shardID nonce
          = (some (infos.map (fun i => i.Header)), some (infos.map (fun i => i.Hash)))) := by
  obtain ⟨hk, hs⟩ := addHeaders_invariants start.restoreTrackedHeadersToGenesis cs
    (fun s hs => by simp [baseBlockTrack.restoreTrackedHeadersToGenesis] at hs)
    (fun s hs => by simp [baseBlockTrack.restoreTrackedHeadersToGenesis] at hs)
  generalize start.restoreTrackedHeadersToGenesis.addHeaders cs = t at hk hs ⊢
  cases hget : GoMap.lookup t.headers shardID with
  | none =>
    simp [baseBlockTrack.trackedHeaders, baseBlockTrack.SortHeadersFromNonce, hget]
  | some m =>
    have hmem := GoMap.mem_of_lookup hget
    have hne : m.flatMap (fun e => e.2) ≠ [] := hs _ hmem
    have hm : NoncesMatch m := hk _ hmem
    have htracked : t.trackedHeaders shardID = m.flatMap (fun e => e.2) := by
      simp [baseBlockTrack.trackedHeaders, hget]
    rw [htracked]
    refine ⟨fun h => absurd h hne, fun _ => ?_⟩
    have hcollect : m.foldl (fun acc e => if e.1 < nonce then acc else acc ++ e.2) []
        = (m.flatMap (fun e => e.2)).filter (fun i => decide (nonce ≤ i.Header.nonce)) := by
      rw [collect_foldl, List.nil_append, collect_by_header_nonce nonce hm]
    simp only [baseBlockTrack.SortHeadersFromNonce, hget, hcollect, append_foldl,
      List.nil_append]
    split_ifs with hlen
    · exact ⟨_, (hsort _).1, (hsort _).2, rfl⟩
    · refine ⟨_, List.Perm.refl _, ?_, rfl⟩
      generalize (m.flatMap (fun e => e.2)).filter
        (fun i => decide (nonce ≤ i.Header.nonce)) = l at hlen
      match l, hlen with
      | [], _ => exact List.Pairwise.nil
      | [a], _ => exact List.pairwise_singleton _ a
      | a :: b :: rest, hlen => simp at hlen

/-- C15 on the tracker after the sample calls, for shard 0 from nonce 4, with
insertion sort as `sort.Slice`. -/
theorem SortHeadersFromNonce_sorted_witness :
    ((trackerWithFinal headerZero).restoreTrackedHeadersToGenesis.addHeaders
        sampleAdds).SortHeadersFromNonce insertionSortByNonce 0 4
      = (some [{ shardID := 0, round := 1, nonce := 5 }, { shardID := 0, round := 2, nonce := 5 }],
          some [[5], [55]]) ∧
    ∃ infos : List HeaderInfo,
      infos.Perm
        ((((trackerWithFinal headerZero).restoreTrackedHeadersToGenesis.addHeaders
          sampleAdds).trackedHeaders 0).filter (fun i => decide (4 ≤ i.Header.nonce))) ∧
      infos.Pairwise (fun a b => a.Header.nonce ≤ b.Header.nonce) ∧
      ((trackerWithFinal headerZero).restoreTrackedHeadersToGenesis.addHeaders
          sampleAdds).SortHeadersFromNonce insertionSortByNonce 0 4
        = (some (infos.map (fun i => i.Header)), some (infos.map (fun i => i.Hash))) :=
  ⟨by decide,
    (SortHeadersFromNonce_sorted (trackerWithFinal headerZero) sampleAdds insertionSortByNonce
      insertionSortByNonce_sorts 0 4).2 (by decide)⟩

theorem cleanupTracked_tracked {bbt : baseBlockTrack} (hk : bbt.KeysMatch)
    (shardID nonce : Nat) :
    ((bbt.cleanupTrackedHeadersBehindNonce shardID nonce).trackedHeaders shardID
      = (bbt.trackedHeaders shardID).filter (fun i => decide (nonce ≤ i.Header.nonce))) ∧
    (∀ other, other ≠ shardID →
      (bbt.cleanupTrackedHeadersBehindNonce shardID nonce).trackedHeaders other
        = bbt.trackedHeaders other) ∧
    (nonce = 0 → (bbt.cleanupTrackedHeadersBehindNonce shardID nonce).headers = bbt.headers) := by
  by_cases hzero : nonce = 0
  · have hrun : bbt.cleanupTrackedHeadersBehindNonce shardID nonce = bbt := by
      unfold baseBlockTrack.cleanupTrackedHeadersBehindNonce
      rw [if_pos hzero]
    rw [hrun]
    refine ⟨?_, fun _ _ => rfl, fun _ => rfl⟩
    symm
    rw [List.filter_eq_self]
    intro i _
    simp [hzero]
  · cases hget : GoMap.lookup bbt.headers shardID with
    | none =>
      have hrun : bbt.cleanupTrackedHeadersBehindNonce shardID nonce = bbt := by
        unfold baseBlockTrack.cleanupTrackedHeadersBehindNonce
        rw [if_neg hzero, hget]
      rw [hrun]
      refine ⟨?_, fun _ _ => rfl, fun _ => rfl⟩
      simp [baseBlockTrack.trackedHeaders, hget]
    | some m =>
      have hm : NoncesMatch m := hk _ (GoMap.mem_of_lookup hget)
      have hrun : (bbt.cleanupTrackedHeadersBehindNonce shardID nonce).headers
          = GoMap.store bbt.headers shardID (m.filter (fun e => decide (¬ e.1 < nonce))) := by
        unfold baseBlockTrack.cleanupTrackedHeadersBehindNonce
        rw [if_neg hzero, hget]
        simp only [cleanup_keys]
      refine ⟨?_, ?_, fun h => absurd h hzero⟩
      · simp only [baseBlockTrack.trackedHeaders, hrun, GoMap.lookup_store_self, hget]
        exact collect_by_header_nonce nonce hm
      · intro other hother
        simp only [baseBlockTrack.trackedHeaders, hrun, GoMap.lookup_store_ne _ _ hother]

/-- C16: on every tracker state reached by `AddTrackedHeader` and
`CleanupHeadersBehindNonce` calls, `CleanupHeadersBehindNonce(s, selfNonce,
crossNonce)` removes from the tracked headers exactly those of shard `s` whose
nonce is below the threshold `t`, where `t = selfNonce` if `s` is the node's
own shard and `t = crossNonce` otherwise; the tracked headers of `s` with a
nonce of at least `t` stay as they are, in their order, the tracked headers of
every other shard are unchanged, and when `t = 0` nothing is removed. -/
theorem CleanupHeadersBehindNonce_tracked (start : baseBlockTrack) (cs : List TrackerCall)
    (bbt : baseBlockTrack) (hreach : bbt = start.restoreTrackedHeadersToGenesis.calls cs)
    (shardID selfNonce crossNonce : Nat) :
    ((bbt.CleanupHeadersBehindNonce shardID selfNonce crossNonce).1.trackedHeaders shardID
      = (bbt.trackedHeaders shardID).filter
          (fun i => decide (bbt.cleanupThreshold shardID selfNonce crossNonce
            ≤ i.Header.nonce))) ∧
    (∀ other, other ≠ shardID →
      (bbt.CleanupHeadersBehindNonce shardID selfNonce crossNonce).1.trackedHeaders other
        = bbt.trackedHeaders other) ∧
    (bbt.cleanupThreshold shardID selfNonce crossNonce = 0 →
      (bbt.CleanupHeadersBehindNonce shardID selfNonce crossNonce).1.headers = bbt.headers) := by
  have hk : bbt.KeysMatch := by
    rw [hreach]
    exact calls_keysMatch _ cs
      (fun s hs => by simp [baseBlockTrack.restoreTrackedHeadersToGenesis] at hs)
  unfold baseBlockTrack.CleanupHeadersBehindNonce baseBlockTrack.cleanupThreshold
  by_cases hself : shardID = bbt.selfId
  · simp only [hself, ne_eq, not_true_eq_false, if_false, if_true]
    have := cleanupTracked_tracked hk bbt.selfId selfNonce
    exact this
  · simp only [hself, ne_eq, not_false_eq_true, if_true, if_false]
    exact cleanupTracked_tracked hk shardID crossNonce

/-- C16 on the tracker after the sample calls: cleaning the own shard 0 behind
nonce 4 leaves its two headers of nonce 5. -/
theorem CleanupHeadersBehindNonce_tracked_witness :
    (((trackerWithFinal headerZero).restoreTrackedHeadersToGenesis.calls
        sampleCalls).CleanupHeadersBehindNonce 0 4 9).1.trackedHeaders 0
      = [{ Hash := [5], Header := { shardID := 0, round := 1, nonce := 5 } },
         { Hash := [55], Header := { shardID := 0, round := 2, nonce := 5 } }] := by
  rw [(CleanupHeadersBehindNonce_tracked (trackerWithFinal headerZero) sampleCalls _ rfl
    0 4 9).1]
  decide

/-! ## Longest chains of the shards -/

theorem lastHeadersLoop_ok (bbt : baseBlockTrack) (l : List Nat)
    (m0 m : List (Nat × Option HeaderHandler))
    (h : bbt.lastHeadersLoop l m0 = Except.ok m) :
    (∀ s ∈ l, ∃ v, bbt.crossLastNotarized s = Except.ok v) ∧
    ∀ s, GoMap.lookup m s
      = if s ∈ l then some (bbt.lastCrossNotarizedHeader s) else GoMap.lookup m0 s := by
  induction l generalizing m0 with
  | nil =>
    simp only [baseBlockTrack.lastHeadersLoop, Except.ok.injEq] at h
    subst h
    simp
  | cons a rest ih =>
    cases hc : bbt.crossLastNotarized a with
    | error e =>
      simp [baseBlockTrack.lastHeadersLoop, baseBlockTrack.GetLastCrossNotarizedHeader, hc] at h
    | ok v =>
      obtain ⟨hdr, hash⟩ := v
      simp only [baseBlockTrack.lastHeadersLoop, baseBlockTrack.GetLastCrossNotarizedHeader,
        hc] at h
      obtain ⟨i1, i2⟩ := ih _ h
      refine ⟨?_, ?_⟩
      · intro s hs
        rcases List.mem_cons.mp hs with rfl | hs
        · exact ⟨_, hc⟩
        · exact i1 s hs
      · intro s
        rw [i2 s]
        by_cases hr : s ∈ rest
        · simp [hr]
        · by_cases hsa : s = a
          · subst hsa
            simp [hr, GoMap.lookup_store_self, baseBlockTrack.lastCrossNotarizedHeader, hc]
          · simp [hr, hsa, GoMap.lookup_store_ne _ _ hsa]

theorem lastHeadersLoop_succeeds (bbt : baseBlockTrack) (l : List Nat)
    (m0 : List (Nat × Option HeaderHandler))
    (h : ∀ s ∈ l, ∃ v, bbt.crossLastNotarized s = Except.ok v) :
    ∃ m, bbt.lastHeadersLoop l m0 = Except.ok m := by
  induction l generalizing m0 with
  | nil => exact ⟨m0, rfl⟩
  | cons a rest ih =>
    obtain ⟨v, hv⟩ := h a (List.mem_cons_self a rest)
    obtain ⟨hdr, hash⟩ := v
    obtain ⟨m, hm⟩ := ih (GoMap.store m0 a hdr) (fun s hs => h s (List.mem_cons_of_mem a hs))
    refine ⟨m, ?_⟩
    simp only [baseBlockTrack.lastHeadersLoop, baseBlockTrack.GetLastCrossNotarizedHeader, hv]
    exact hm

/-- After the first loop over the shards below `n`, the two maps hold the
chain of each of them and `maxHdrLen` bounds their lengths. -/
theorem chainsLoop_maps (bbt : baseBlockTrack) (m : List (Nat × Option HeaderHandler))
    (n : Nat) :
    (∀ s, GoMap.lookup ((List.range n).foldl (bbt.chainsStep m)
        { hdrsMap := [], hdrsHashesMap := [], maxHdrLen := 0 }).hdrsMap s
      = if s < n then some (bbt.ComputeLongestChain s ((GoMap.lookup m s).getD none)).1
        else none) ∧
    (∀ s, GoMap.lookup ((List.range n).foldl (bbt.chainsStep m)
        { hdrsMap := [], hdrsHashesMap := [], maxHdrLen := 0 }).hdrsHashesMap s
      = if s < n then some (bbt.ComputeLongestChain s ((GoMap.lookup m s).getD none)).2
        else none) ∧
    (∀ s, s < n →
      (bbt.ComputeLongestChain s ((GoMap.lookup m s).getD none)).1.length
        ≤ ((List.range n).foldl (bbt.chainsStep m)
          { hdrsMap := [], hdrsHashesMap := [], maxHdrLen := 0 }).maxHdrLen) := by
  induction n with
  | zero =>
    refine ⟨fun s => ?_, fun s => ?_, fun s hs => ?_⟩
    · simp [GoMap.lookup]
    · simp [GoMap.lookup]
    · omega
  | succ n ih =>
    obtain ⟨i1, i2, i3⟩ := ih
    rw [List.range_succ, List.foldl_append]
    simp only [List.foldl_cons, List.foldl_nil]
    generalize (List.range n).foldl (bbt.chainsStep m)
      { hdrsMap := [], hdrsHashesMap := [], maxHdrLen := 0 } = st at i1 i2 i3
    have h1 : GoMap.lookup st.hdrsMap n = none := by
      rw [i1 n]
      simp
    have h2 : GoMap.lookup st.hdrsHashesMap n = none := by
      rw [i2 n]
      simp
    refine ⟨fun s => ?_, fun s => ?_, fun s hs => ?_⟩
    · simp only [baseBlockTrack.chainsStep, h1, Option.getD_none, List.nil_append]
      by_cases hsn : s = n
      · subst hsn
        simp [GoMap.lookup_store_self]
      · rw [GoMap.lookup_store_ne _ _ hsn, i1 s]
        by_cases hlt : s < n
        · have : s < n + 1 := by omega
          simp [hlt, this]
        · have : ¬ s < n + 1 := by omega
          simp [hlt, this]
    · simp only [baseBlockTrack.chainsStep, h2, Option.getD_none, List.nil_append]
      by_cases hsn : s = n
      · subst hsn
        simp [GoMap.lookup_store_self]
      · rw [GoMap.lookup_store_ne _ _ hsn, i2 s]
        by_cases hlt : s < n
        · have : s < n + 1 := by omega
          simp [hlt, this]
        · have : ¬ s < n + 1 := by omega
          simp [hlt, this]
    · simp only [baseBlockTrack.chainsStep]
      by_cases hsn : s = n
      · subst hsn
        split_ifs <;> omega
      · have hlt : s < n := by omega
        have := i3 s hlt
        split_ifs <;> omega

/-- One pass of the inner copy loop over shard ids below `n`: it appends, for
every shard whose chain reaches position `i`, the header and the hash at that
position. -/
theorem copy_inner (st : chainsOfShards) (c : Nat → List HeaderHandler × List Bytes) (n : Nat)
    (hH : ∀ s, s < n → GoMap.lookup st.hdrsMap s = some (c s).1)
    (hS : ∀ s, s < n → GoMap.lookup st.hdrsHashesMap s = some (c s).2)
    (hpair : ∀ s, s < n → (c s).1.length ≤ (c s).2.length)
    (i : Nat) (l : List Nat) (hl : ∀ s ∈ l, s < n) (ordered : List HeaderHandler × List Bytes) :
    ∃ r, l.foldlM (copyStep st i) ordered = some r ∧
      r.1.map some = ordered.1.map some ++
        (l.filter (fun s => decide (i < (c s).1.length))).map (fun s => (c s).1[i]?) ∧
      r.2.map some = ordered.2.map some ++
        (l.filter (fun s => decide (i < (c s).1.length))).map (fun s => (c s).2[i]?) := by
  induction l generalizing ordered with
  | nil => exact ⟨ordered, rfl, by simp, by simp⟩
  | cons a rest ih =>
    have ha : a < n := hl a (List.mem_cons_self a rest)
    have hrest : ∀ s ∈ rest, s < n := fun s hs => hl s (List.mem_cons_of_mem a hs)
    by_cases hi : i < (c a).1.length
    · have hi2 : i < (c a).2.length := Nat.lt_of_lt_of_le hi (hpair a ha)
      have hstep : copyStep st i ordered a
          = some (ordered.1 ++ [(c a).1[i]], ordered.2 ++ [(c a).2[i]]) := by
        unfold copyStep
        simp only [hH a ha, hS a ha, Option.getD_some]
        rw [if_neg (by omega), List.getElem?_eq_getElem hi, List.getElem?_eq_getElem hi2]
      obtain ⟨r, h1, h2, h3⟩ := ih hrest (ordered.1 ++ [(c a).1[i]], ordered.2 ++ [(c a).2[i]])
      refine ⟨r, ?_, ?_, ?_⟩
      · rw [List.foldlM_cons, hstep]
        exact h1
      · rw [h2, List.filter_cons_of_pos (by simpa using hi)]
        simp [List.getElem?_eq_getElem hi]
      · rw [h3, List.filter_cons_of_pos (by simpa using hi)]
        simp [List.getElem?_eq_getElem hi2]
    · have hstep : copyStep st i ordered a = some ordered := by
        unfold copyStep
        simp only [hH a ha, Option.getD_some]
        rw [if_pos (by omega)]
      obtain ⟨r, h1, h2, h3⟩ := ih hrest ordered
      refine ⟨r, ?_, ?_, ?_⟩
      · rw [List.foldlM_cons, hstep]
        exact h1
      · rw [h2, List.filter_cons_of_neg (by simpa using hi)]
      · rw [h3, List.filter_cons_of_neg (by simpa using hi)]

/-- The outer copy loop over a list of positions. -/
theorem copy_outer (st : chainsOfShards) (c : Nat → List HeaderHandler × List Bytes) (n : Nat)
    (hH : ∀ s, s < n → GoMap.lookup st.hdrsMap s = some (c s).1)
    (hS : ∀ s, s < n → GoMap.lookup st.hdrsHashesMap s = some (c s).2)
    (hpair : ∀ s, s < n → (c s).1.length ≤ (c s).2.length)
    (positions : List Nat) (ordered : List HeaderHandler × List Bytes) :
    ∃ r, positions.foldlM
        (fun ordered i => (List.range n).foldlM (copyStep st i) ordered) ordered = some r ∧
      r.1.map some = ordered.1.map some ++
        (positions.flatMap (fun i =>
          ((List.range n).filter (fun s => decide (i < (c s).1.length))).map
            (fun s => (i, s)))).map (fun p => (c p.2).1[p.1]?) ∧
      r.2.map some = ordered.2.map some ++
        (positions.flatMap (fun i =>
          ((List.range n).filter (fun s => decide (i < (c s).1.length))).map
            (fun s => (i, s)))).map (fun p => (c p.2).2[p.1]?) := by
  induction positions generalizing ordered with
  | nil => exact ⟨ordered, rfl, by simp, by simp⟩
  | cons i rest ih =>
    obtain ⟨r1, a1, a2, a3⟩ := copy_inner st c n hH hS hpair i (List.range n)
      (fun s hs => List.mem_range.mp hs) ordered
    obtain ⟨r, b1, b2, b3⟩ := ih r1
    refine ⟨r, ?_, ?_, ?_⟩
    · rw [List.foldlM_cons, a1]
      exact b1
    · rw [b2, a2, List.flatMap_cons, List.map_append, List.map_map, List.append_assoc]
      rfl
    · rw [b3, a3, List.flatMap_cons, List.map_append, List.map_map, List.append_assoc]
      rfl

theorem copySlots_mem (lens : Nat → Nat) (n maxLen i s : Nat) :
    (i, s) ∈ copySlots lens n maxLen ↔ i < maxLen ∧ s < n ∧ i < lens s := by
  unfold copySlots
  simp only [List.mem_flatMap, List.mem_range, List.mem_map, List.mem_filter, decide_eq_true_eq,
    Prod.mk.injEq]
  constructor
  · rintro ⟨j, hj, t, ⟨ht, hlt⟩, rfl, rfl⟩
    exact ⟨hj, ht, hlt⟩
  · rintro ⟨h1, h2, h3⟩
    exact ⟨i, h1, s, ⟨h2, h3⟩, rfl, rfl⟩

theorem copySlots_pairwise (lens : Nat → Nat) (n maxLen : Nat) :
    (copySlots lens n maxLen).Pairwise positionThenShard := by
  unfold copySlots
  rw [List.pairwise_flatMap]
  constructor
  · intro i _
    rw [List.pairwise_map]
    refine ((List.pairwise_lt_range n).filter _).imp ?_
    intro a b hab
    exact Or.inr ⟨rfl, hab⟩
  · refine (List.pairwise_lt_range maxLen).imp ?_
    intro i j hij x hx y hy
    obtain ⟨a, _, rfl⟩ := List.mem_map.mp hx
    obtain ⟨b, _, rfl⟩ := List.mem_map.mp hy
    exact Or.inl hij

theorem positionThenShard_ne {a b : Nat × Nat} (h : positionThenShard a b) : a ≠ b := by
  intro hab
  subst hab
  rcases h with h | ⟨_, h⟩ <;> omega

/-- The copy visits the same pairs as the shard by shard enumeration of the
chains. -/
theorem copySlots_perm (lens : Nat → Nat) (n maxLen : Nat)
    (hmax : ∀ s, s < n → lens s ≤ maxLen) :
    (copySlots lens n maxLen).Perm
      ((List.range n).flatMap (fun s => (List.range (lens s)).map (fun i => (i, s)))) := by
  rw [List.perm_ext_iff_of_nodup]
  · rintro ⟨i, s⟩
    rw [copySlots_mem]
    simp only [List.mem_flatMap, List.mem_range, List.mem_map, Prod.mk.injEq]
    constructor
    · rintro ⟨_, h2, h3⟩
      exact ⟨s, h2, i, h3, rfl, rfl⟩
    · rintro ⟨t, ht, j, hj, rfl, rfl⟩
      exact ⟨Nat.lt_of_lt_of_le hj (hmax _ ht), ht, hj⟩
  · exact (copySlots_pairwise lens n maxLen).imp positionThenShard_ne
  · rw [List.nodup_flatMap]
    constructor
    · intro s _
      refine (List.nodup_range _).map ?_
      intro a b hab
      exact (Prod.mk.inj hab).1
    · refine (List.pairwise_lt_range n).imp ?_
      intro a b hab x hx hy
      obtain ⟨_, _, rfl⟩ := List.mem_map.mp hx
      obtain ⟨_, _, h⟩ := List.mem_map.mp hy
      have := (Prod.mk.inj h).2
      omega

theorem copySlots_length (lens : Nat → Nat) (n maxLen : Nat)
    (hmax : ∀ s, s < n → lens s ≤ maxLen) :
    (copySlots lens n maxLen).length = ((List.range n).map lens).sum := by
  rw [(copySlots_perm lens n maxLen hmax).length_eq, List.length_flatMap]
  congr 1
  apply List.map_congr_left
  intro s _
  simp

theorem range_map_getElem? {α : Type} (l : List α) :
    (List.range l.length).map (fun i => l[i]?) = l.map some := by
  apply List.ext_getElem (by simp)
  intro i h1 h2
  have hi : i < l.length := by simpa using h2
  simp [List.getElem?_eq_getElem hi]

/-- A list whose elements are, in some order, those read at the copy slots
holds the headers of the chains, each as often as the chains do. -/
theorem perm_of_slots {α : Type} (chain : Nat → List α) (n maxLen : Nat)
    (hmax : ∀ s, s < n → (chain s).length ≤ maxLen) (ordered : List α)
    (h : ordered.map some
      = (copySlots (fun s => (chain s).length) n maxLen).map (fun p => (chain p.2)[p.1]?)) :
    ordered.Perm ((List.range n).flatMap chain) := by
  have hperm := (copySlots_perm (fun s => (chain s).length) n maxLen hmax).map
    (fun p => (chain p.2)[p.1]?)
  rw [← h, List.map_flatMap] at hperm
  have hchains : ((List.range n).flatMap fun s =>
      List.map (fun p : Nat × Nat => (chain p.2)[p.1]?)
        (List.map (fun i => (i, s)) (List.range (chain s).length)))
      = ((List.range n).flatMap chain).map some := by
    rw [List.map_flatMap]
    congr 1
    funext s
    rw [List.map_map]
    exact range_map_getElem? (chain s)
  rw [hchains] at hperm
  have hback := hperm.filterMap id
  simpa [List.filterMap_map] using hback

/-- C22, amended: with a block processor that gives every shard at least as
many hashes as headers, when `GetLastCrossNotarizedHeadersForAllShards` succeeds
(which it does exactly when the notarizer has a last header for every shard),
`ComputeLongestShardsChainsFromLastNotarized` returns the header at every
position of the longest chain of every shard below `NumberOfShards`, each
once, ordered by position first and shard id second; the ordered headers are
those of the chains and as many as the chains have together, the ordered
hashes are as many, entry `k` being the hash at the position and shard of
header `k`, and the returned map holds the chain of each shard. When it fails
the result is `(nil, nil, nil, err)`. -/
theorem ComputeLongestShardsChains_round_robin (bbt : baseBlockTrack)
    (hpair : ∀ s, s < bbt.numberOfShards →
      (bbt.longestChainOf s).1.length ≤ (bbt.longestChainOf s).2.length) :
    ((∃ m, bbt.GetLastCrossNotarizedHeadersForAllShards = Except.ok m) ↔
      ∀ s, s < bbt.numberOfShards → ∃ v, bbt.crossLastNotarized s = Except.ok v) ∧
    (∀ m, bbt.GetLastCrossNotarizedHeadersForAllShards = Except.ok m →
      ∃ (slots : List (Nat × Nat)) (headers : List HeaderHandler) (hashes : List Bytes)
        (hdrsMap : List (Nat × List HeaderHandler)),
        bbt.ComputeLongestShardsChainsFromLastNotarized
          = some (some headers, some hashes, some hdrsMap, none) ∧
        slots.Pairwise positionThenShard ∧
        (∀ i s, (i, s) ∈ slots ↔
          s < bbt.numberOfShards ∧ i < (bbt.longestChainOf s).1.length) ∧
        headers.map some = slots.map (fun p => (bbt.longestChainOf p.2).1[p.1]?) ∧
        hashes.map some = slots.map (fun p => (bbt.longestChainOf p.2).2[p.1]?) ∧
        headers.Perm
          ((List.range bbt.numberOfShards).flatMap (fun s => (bbt.longestChainOf s).1)) ∧
        headers.length
          = ((List.range bbt.numberOfShards).map
              (fun s => (bbt.longestChainOf s).1.length)).sum ∧
        hashes.length = headers.length ∧
        (∀ s, GoMap.lookup hdrsMap s
          = if s < bbt.numberOfShards then some (bbt.longestChainOf s).1 else none)) ∧
    (∀ err, bbt.GetLastCrossNotarizedHeadersForAllShards = Except.error err →
      bbt.ComputeLongestShardsChainsFromLastNotarized = some (none, none, none, some err)) := by
  refine ⟨?_, ?_, ?_⟩
  · constructor
    · rintro ⟨m, hm⟩ s hs
      exact (lastHeadersLoop_ok bbt _ [] m hm).1 s (List.mem_range.mpr hs)
    · intro h
      exact lastHeadersLoop_succeeds bbt _ [] (fun s hs => h s (List.mem_range.mp hs))
  · intro m hm
    have hlast : ∀ s, s < bbt.numberOfShards →
        bbt.ComputeLongestChain s ((GoMap.lookup m s).getD none) = bbt.longestChainOf s := by
      intro s hs
      have := (lastHeadersLoop_ok bbt _ [] m hm).2 s
      rw [if_pos (List.mem_range.mpr hs)] at this
      rw [this]
      rfl
    obtain ⟨i1, i2, i3⟩ := chainsLoop_maps bbt m bbt.numberOfShards
    unfold baseBlockTrack.ComputeLongestShardsChainsFromLastNotarized
    rw [hm]
    simp only
    generalize (List.range bbt.numberOfShards).foldl (bbt.chainsStep m)
      { hdrsMap := [], hdrsHashesMap := [], maxHdrLen := 0 } = st at i1 i2 i3
    have hH : ∀ s, s < bbt.numberOfShards →
        GoMap.lookup st.hdrsMap s = some (bbt.longestChainOf s).1 := by
      intro s hs
      rw [i1 s, if_pos hs, hlast s hs]
    have hS : ∀ s, s < bbt.numberOfShards →
        GoMap.lookup st.hdrsHashesMap s = some (bbt.longestChainOf s).2 := by
      intro s hs
      rw [i2 s, if_pos hs, hlast s hs]
    have hmax : ∀ s, s < bbt.numberOfShards →
        (bbt.longestChainOf s).1.length ≤ st.maxHdrLen := by
      intro s hs
      rw [← hlast s hs]
      exact i3 s hs
    obtain ⟨r, c1, c2, c3⟩ := copy_outer st bbt.longestChainOf bbt.numberOfShards hH hS hpair
      (List.range st.maxHdrLen) ([], [])
    simp only [List.map_nil, List.nil_append] at c2 c3
    have hslots : ∀ i s,
        (i, s) ∈ copySlots (fun s => (bbt.longestChainOf s).1.length) bbt.numberOfShards
            st.maxHdrLen ↔
          s < bbt.numberOfShards ∧ i < (bbt.longestChainOf s).1.length := by
      intro i s
      rw [copySlots_mem]
      constructor
      · rintro ⟨_, h2, h3⟩
        exact ⟨h2, h3⟩
      · rintro ⟨h2, h3⟩
        exact ⟨Nat.lt_of_lt_of_le h3 (hmax s h2), h2, h3⟩
    have hlen : r.1.length
        = ((List.range bbt.numberOfShards).map
            (fun s => (bbt.longestChainOf s).1.length)).sum := by
      have := congrArg List.length c2
      rw [List.length_map, List.length_map] at this
      rw [this]
      exact copySlots_length _ _ _ hmax
    have hlen2 : r.2.length = r.1.length := by
      have a := congrArg List.length c2
      have b := congrArg List.length c3
      rw [List.length_map, List.length_map] at a b
      rw [a, b]
    refine ⟨copySlots (fun s => (bbt.longestChainOf s).1.length) bbt.numberOfShards
      st.maxHdrLen, r.1, r.2, st.hdrsMap, ?_, copySlots_pairwise _ _ _, hslots, c2, c3,
      perm_of_slots (fun s => (bbt.longestChainOf s).1) _ _ hmax r.1 c2, hlen, hlen2, ?_⟩
    · rw [c1]
    · intro s
      rw [i1 s]
      by_cases hs : s < bbt.numberOfShards
      · rw [if_pos hs, if_pos hs, hlast s hs]
      · rw [if_neg hs, if_neg hs]
  · intro err herr
    unfold baseBlockTrack.ComputeLongestShardsChainsFromLastNotarized
    rw [herr]

/-- C22, amended, on the tracker of three shards with chains of 2, 0 and 3
headers: the five headers come out position by position, shard 0 before
shard 2. -/
theorem ComputeLongestShardsChains_round_robin_witness :
    (∀ s, s < trackerWithChains.numberOfShards →
      (trackerWithChains.longestChainOf s).1.length
        ≤ (trackerWithChains.longestChainOf s).2.length) ∧
    ∃ (headers : List HeaderHandler) (hashes : List Bytes)
      (hdrsMap : List (Nat × List HeaderHandler)),
      trackerWithChains.ComputeLongestShardsChainsFromLastNotarized
        = some (some headers, some hashes, some hdrsMap, none) ∧
      headers.length = 5 ∧ hashes.length = 5 ∧
      headers.map (fun h => (h.nonce, h.shardID)) = [(2, 0), (2, 2), (3, 0), (3, 2), (4, 2)] := by
  have hpair : ∀ s, s < trackerWithChains.numberOfShards →
      (trackerWithChains.longestChainOf s).1.length
        ≤ (trackerWithChains.longestChainOf s).2.length := by decide
  refine ⟨hpair, ?_⟩
  obtain ⟨m, hm⟩ := (ComputeLongestShardsChains_round_robin trackerWithChains hpair).1.mpr
    (fun s _ => ⟨_, rfl⟩)
  obtain ⟨_, headers, hashes, hdrsMap, h1, _, _, _, _, _, h6, h7, _⟩ :=
    (ComputeLongestShardsChains_round_robin trackerWithChains hpair).2.1 m hm
  refine ⟨headers, hashes, hdrsMap, h1, h6.trans (by decide), (h7.trans h6).trans (by decide), ?_⟩
  have hrun : trackerWithChains.ComputeLongestShardsChainsFromLastNotarized
      = some (some [{ shardID := 0, round := 2, nonce := 2 },
          { shardID := 2, round := 2, nonce := 2 }, { shardID := 0, round := 3, nonce := 3 },
          { shardID := 2, round := 3, nonce := 3 }, { shardID := 2, round := 4, nonce := 4 }],
        some [[0, 2], [2, 2], [0, 3], [2, 3], [2, 4]],
        some [(0, [{ shardID := 0, round := 2, nonce := 2 },
            { shardID := 0, round := 3, nonce := 3 }]), (1, []),
          (2, [{ shardID := 2, round := 2, nonce := 2 },
            { shardID := 2, round := 3, nonce := 3 },
            { shardID := 2, round := 4, nonce := 4 }])], none) := rfl
  rw [hrun] at h1
  simp only [Option.some.injEq, Prod.mk.injEq, and_true] at h1
  rw [← h1.1]
  decide

/-- C22, as stated, fails: with a block processor that gives shard 0 two
headers and one hash, `GetLastCrossNotarizedHeadersForAllShards` succeeds, yet
`ComputeLongestShardsChainsFromLastNotarized` returns nothing: at position 1
the copy reads `hdrsHashesForShard[1]` out of range. -/
theorem ComputeLongestShardsChains_short_hashes :
    trackerWithShortHashes.GetLastCrossNotarizedHeadersForAllShards
      = Except.ok [(0, some { shardID := 0, round := 1, nonce := 1 }),
          (1, some { shardID := 1, round := 1, nonce := 1 }),
          (2, some { shardID := 2, round := 1, nonce := 1 })] ∧
    (trackerWithShortHashes.longestChainOf 0).1.length = 2 ∧
    (trackerWithShortHashes.longestChainOf 0).2.length = 1 ∧
    trackerWithShortHashes.ComputeLongestShardsChainsFromLastNotarized = none := by
  refine ⟨rfl, by decide, by decide, rfl⟩

/-- With a notarizer that fails for shard 1 the result is `(nil, nil, nil,
err)`. -/
theorem ComputeLongestShardsChains_failure :
    trackerWithFailure.ComputeLongestShardsChainsFromLastNotarized
      = some (none, none, none,
          some (GoError.sentinel (ProcessError.collaborator 7))) := by
  rfl

end Track

namespace Postprocess

/-! ## Marshalled data and finished transactions of the post-processor -/

theorem cachedTxs_cons_none (bpp : basePostProcessor) {txHash : Bytes} (rest : List Bytes)
    (h : (GoMap.lookup bpp.interResultsForBlock txHash).bind (fun i => i.tx) = none) :
    bpp.cachedTxs (txHash :: rest) = bpp.cachedTxs rest := by
  unfold basePostProcessor.cachedTxs
  rw [List.filterMap_cons]
  simp only [h]

theorem cachedTxs_cons_some (bpp : basePostProcessor) {txHash : Bytes} (rest : List Bytes)
    {tx : TransactionHandler}
    (h : (GoMap.lookup bpp.interResultsForBlock txHash).bind (fun i => i.tx) = some tx) :
    bpp.cachedTxs (txHash :: rest) = tx :: bpp.cachedTxs rest := by
  unfold basePostProcessor.cachedTxs
  rw [List.filterMap_cons]
  simp only [h]

theorem marshalLoop_ok (bpp : basePostProcessor) (txHashes : List Bytes) (mrsTxs : List Bytes)
    (hok : ∀ tx ∈ bpp.cachedTxs txHashes, bpp.marshal tx ≠ none) :
    ∃ l, bpp.marshalLoop txHashes mrsTxs = (some (mrsTxs ++ l), none) ∧
      l.map some = (bpp.cachedTxs txHashes).map bpp.marshal := by
  induction txHashes generalizing mrsTxs with
  | nil => exact ⟨[], by simp [basePostProcessor.marshalLoop], by simp [basePostProcessor.cachedTxs]⟩
  | cons txHash rest ih =>
    simp only [basePostProcessor.marshalLoop]
    cases hget : GoMap.lookup bpp.interResultsForBlock txHash with
    | none =>
      have hc := @cachedTxs_cons_none bpp txHash rest (by rw [hget]; rfl)
      rw [hc] at hok ⊢
      exact ih mrsTxs hok
    | some txInfoObject =>
      cases htx : txInfoObject.tx with
      | none =>
        have hc := @cachedTxs_cons_none bpp txHash rest (by rw [hget]; exact htx)
        rw [hc] at hok ⊢
        simp only [htx]
        exact ih mrsTxs hok
      | some tx =>
        have hc := @cachedTxs_cons_some bpp txHash rest tx
          (by rw [hget]; exact htx)
        rw [hc] at hok ⊢
        simp only [htx]
        cases hm : bpp.marshal tx with
        | none => exact absurd hm (hok tx (List.mem_cons_self _ _))
        | some txMrs =>
          obtain ⟨l, h1, h2⟩ := ih (mrsTxs ++ [txMrs])
            (fun t ht => hok t (List.mem_cons_of_mem _ ht))
          refine ⟨txMrs :: l, ?_, ?_⟩
          · simp only [h1, List.append_assoc, List.singleton_append]
          · simp only [List.map_cons, hm, h2]

theorem marshalLoop_fail (bpp : basePostProcessor) (txHashes : List Bytes)
    (mrsTxs : List Bytes) (hfail : ∃ tx ∈ bpp.cachedTxs txHashes, bpp.marshal tx = none) :
    bpp.marshalLoop txHashes mrsTxs = (none, some ProcessError.ErrMarshalWithoutSuccess) := by
  induction txHashes generalizing mrsTxs with
  | nil =>
    obtain ⟨tx, htx, _⟩ := hfail
    simp [basePostProcessor.cachedTxs] at htx
  | cons txHash rest ih =>
    simp only [basePostProcessor.marshalLoop]
    cases hget : GoMap.lookup bpp.interResultsForBlock txHash with
    | none =>
      have hc := @cachedTxs_cons_none bpp txHash rest (by rw [hget]; rfl)
      rw [hc] at hfail
      exact ih mrsTxs hfail
    | some txInfoObject =>
      cases htx : txInfoObject.tx with
      | none =>
        have hc := @cachedTxs_cons_none bpp txHash rest (by rw [hget]; exact htx)
        rw [hc] at hfail
        simp only [htx]
        exact ih mrsTxs hfail
      | some tx =>
        have hc := @cachedTxs_cons_some bpp txHash rest tx
          (by rw [hget]; exact htx)
        rw [hc] at hfail
        simp only [htx]
        cases hm : bpp.marshal tx with
        | none => rfl
        | some txMrs =>
          simp only []
          apply ih
          obtain ⟨t, ht, hnone⟩ := hfail
          rcases List.mem_cons.mp ht with h | h
          · rw [h, hm] at hnone
            exact absurd hnone (by simp)
          · exact ⟨t, h, hnone⟩

/-- C19: for every list of hashes, `CreateMarshalizedData` returns, in the
order of the input hashes, the marshalled transaction of each hash that is
cached with a non-nil transaction, skipping the hashes that are absent or have
a nil transaction, so that the result is never longer than the input; if
marshalling any of them fails it returns `(nil, ErrMarshalWithoutSuccess)`. -/
theorem CreateMarshalizedData_in_order (bpp : basePostProcessor) (txHashes : List Bytes) :
    ((∀ tx ∈ bpp.cachedTxs txHashes, bpp.marshal tx ≠ none) →
      ∃ l, bpp.CreateMarshalizedData txHashes = (some l, none) ∧
        l.map some = (bpp.cachedTxs txHashes).map bpp.marshal ∧
        l.length ≤ txHashes.length) ∧
    ((∃ tx ∈ bpp.cachedTxs txHashes, bpp.marshal tx = none) →
      bpp.CreateMarshalizedData txHashes
        = (none, some ProcessError.ErrMarshalWithoutSuccess)) := by
  constructor
  · intro hok
    obtain ⟨l, h1, h2⟩ := marshalLoop_ok bpp txHashes [] hok
    refine ⟨l, by simpa [basePostProcessor.CreateMarshalizedData] using h1, h2, ?_⟩
    have hlen : l.length = (bpp.cachedTxs txHashes).length := by
      have := congrArg List.length h2
      simpa using this
    rw [hlen]
    unfold basePostProcessor.cachedTxs
    exact List.length_filterMap_le _ _
  · intro hfail
    exact marshalLoop_fail bpp txHashes [] hfail

/-- The sample post-processor on four hashes, one absent and one with a nil
transaction: the two cached transactions, in the order of the hashes. -/
theorem CreateMarshalizedData_sample :
    samplePostProcessor.CreateMarshalizedData [[2], [9], [3], [1]]
      = (some [[12], [11]], none) := by
  decide

theorem finished_fold (selfId : Nat) (es : List (Bytes × txInfo))
    (acc : List (Bytes × Option TransactionHandler)) (txHash : Bytes)
    (hnodup : (es.map (fun e => e.1)).Nodup) :
    GoMap.lookup
        (es.foldl
          (fun scrPool e =>
            if e.2.receiverShardID ≠ selfId then scrPool
            else if e.2.senderShardID ≠ selfId then scrPool
            else GoMap.store scrPool e.1 e.2.tx)
          acc) txHash
      = ((GoMap.lookup es txHash).bind
          (fun i => if i.senderShardID = selfId ∧ i.receiverShardID = selfId then some i.tx
            else none)).orElse (fun _ => GoMap.lookup acc txHash) := by
  induction es generalizing acc with
  | nil => simp [GoMap.lookup]
  | cons e es ih =>
    obtain ⟨k, info⟩ := e
    rw [List.map_cons, List.nodup_cons] at hnodup
    obtain ⟨hk, hes⟩ := hnodup
    simp only [List.foldl_cons]
    rw [ih _ hes]
    by_cases hkey : txHash = k
    · subst hkey
      rw [GoMap.lookup_of_not_mem hk, GoMap.lookup_cons_self]
      simp only [Option.bind_none, Option.bind_some, Option.orElse]
      by_cases hr : info.receiverShardID = selfId
      · by_cases hsnd : info.senderShardID = selfId
        · simp [hr, hsnd, GoMap.lookup_store_self]
        · simp [hr, hsnd]
      · simp [hr]
    · rw [GoMap.lookup_cons_ne _ _ hkey]
      have hacc : GoMap.lookup
          (if info.receiverShardID ≠ selfId then acc
            else if info.senderShardID ≠ selfId then acc
            else GoMap.store acc k info.tx) txHash = GoMap.lookup acc txHash := by
        split_ifs
        · rfl
        · rfl
        · exact GoMap.lookup_store_ne _ _ hkey
      simp only [hacc]

theorem finished_keys (selfId : Nat) (es : List (Bytes × txInfo))
    (acc : List (Bytes × Option TransactionHandler))
    (hacc : (acc.map (fun e => e.1)).Nodup) :
    ((es.foldl
        (fun scrPool e =>
          if e.2.receiverShardID ≠ selfId then scrPool
          else if e.2.senderShardID ≠ selfId then scrPool
          else GoMap.store scrPool e.1 e.2.tx)
        acc).map (fun e => e.1)).Nodup := by
  induction es generalizing acc with
  | nil => exact hacc
  | cons e es ih =>
    simp only [List.foldl_cons]
    apply ih
    split_ifs
    · exact hacc
    · exact hacc
    · exact GoMap.keys_store _ _ _ hacc

/-- C18: for every state of the post-processor (whose map has one entry per
key, as a Go map has), `GetAllCurrentFinishedTxs` returns a map holding exactly
the entries (hash -> tx) of `interResultsForBlock` whose sender shard and
receiver shard both equal the node's own shard id, and it leaves the
post-processor, `interResultsForBlock` included, unchanged. -/
theorem GetAllCurrentFinishedTxs_exact (bpp : basePostProcessor)
    (hmap : (bpp.interResultsForBlock.map (fun e => e.1)).Nodup) :
    (∀ txHash, GoMap.lookup bpp.GetAllCurrentFinishedTxs.2 txHash = bpp.finishedEntry txHash) ∧
    (bpp.GetAllCurrentFinishedTxs.2.map (fun e => e.1)).Nodup ∧
    bpp.GetAllCurrentFinishedTxs.1 = bpp ∧
    bpp.GetAllCurrentFinishedTxs.1.interResultsForBlock = bpp.interResultsForBlock := by
  refine ⟨?_, ?_, rfl, rfl⟩
  · intro txHash
    unfold basePostProcessor.GetAllCurrentFinishedTxs basePostProcessor.finishedEntry
    rw [finished_fold bpp.selfId _ [] txHash hmap]
    cases (GoMap.lookup bpp.interResultsForBlock txHash).bind
        (fun i => if i.senderShardID = bpp.selfId ∧ i.receiverShardID = bpp.selfId
          then some i.tx else none) with
    | none => simp [GoMap.lookup, Option.orElse]
    | some v => simp [Option.orElse]
  · unfold basePostProcessor.GetAllCurrentFinishedTxs
    exact finished_keys bpp.selfId _ [] (by simp)

/-- C18 on the sample post-processor of shard 1: of its four cached entries,
the two with both shards equal to 1 are returned, one of them with a nil
transaction. -/
theorem GetAllCurrentFinishedTxs_exact_witness :
    samplePostProcessor.GetAllCurrentFinishedTxs.2 = [([1], some { id := 11 }), ([3], none)] ∧
    GoMap.lookup samplePostProcessor.GetAllCurrentFinishedTxs.2 [2]
      = samplePostProcessor.finishedEntry [2] :=
  ⟨by decide, (GetAllCurrentFinishedTxs_exact samplePostProcessor (by decide)).1 [2]⟩

end Postprocess

namespace Preprocess

/-! ## Processing of the smart contract results of a block -/

theorem cachedTx_store (m : List (Bytes × txInfo)) (txHash : Bytes) (t : TransactionHandler)
    (snd dst : Nat) (hcached : cachedTx m txHash = some t) (other : Bytes) :
    cachedTx (GoMap.store m txHash { tx := some t, senderShardID := snd, receiverShardID := dst })
        other = cachedTx m other := by
  unfold cachedTx at hcached ⊢
  by_cases h : other = txHash
  · subst h
    rw [GoMap.lookup_store_self, hcached]
    rfl
  · rw [GoMap.lookup_store_ne _ _ h]

theorem stepError_none_iff (haveTime : Nat → Bool)
    (process : Nat → SmartContractResult → Option ProcessError)
    (m : List (Bytes × txInfo)) (k : Nat) (txHash : Bytes) :
    stepError haveTime process m k txHash = none ↔
      haveTime k = true ∧
        ∃ v, cachedTx m txHash = some (TransactionHandler.smartContractResult v) ∧
          process k v = none := by
  unfold stepError
  cases ht : haveTime k with
  | false => simp
  | true =>
    cases hc : cachedTx m txHash with
    | none => simp
    | some t =>
      cases t with
      | otherHandler id => simp
      | smartContractResult v => simp

theorem stepPassed_of_ok (haveTime : Nat → Bool)
    (process : Nat → SmartContractResult → Option ProcessError)
    (m : List (Bytes × txInfo)) (k : Nat) (txHash : Bytes)
    (hok : stepError haveTime process m k txHash = none) :
    (stepPassed haveTime m k txHash).map TransactionHandler.smartContractResult
      = cachedTx m txHash := by
  obtain ⟨ht, v, hv, _⟩ := (stepError_none_iff haveTime process m k txHash).mp hok
  simp [stepPassed, ht, hv]

/-- One miniblock: the inner loop follows `processInOrder` over its hashes. -/
theorem processHashes_eq (haveTime : Nat → Bool)
    (process : Nat → SmartContractResult → Option ProcessError) (miniBlock : MiniBlock)
    (m : List (Bytes × txInfo)) (hashes : List Bytes) (scr : smartContractResults) (k : Nat)
    (hk1 : scr.haveTimeCalls = k) (hk2 : scr.processed.length = k)
    (hm : ∀ h, cachedTx scr.txHashAndInfo h = cachedTx m h) :
    (smartContractResults.processHashes haveTime process miniBlock hashes scr).1.processed
      = scr.processed ++ (processInOrder haveTime process m k hashes).1 ∧
    (smartContractResults.processHashes haveTime process miniBlock hashes scr).2
      = (processInOrder haveTime process m k hashes).2 ∧
    (smartContractResults.processHashes haveTime process miniBlock hashes scr).1.selfId
      = scr.selfId ∧
    ((smartContractResults.processHashes haveTime process miniBlock hashes scr).2 = none →
      (smartContractResults.processHashes haveTime process miniBlock hashes scr).1.haveTimeCalls
          = k + hashes.length ∧
      (smartContractResults.processHashes haveTime process miniBlock hashes
          scr).1.processed.length = k + hashes.length ∧
      ∀ h, cachedTx (smartContractResults.processHashes haveTime process miniBlock hashes
          scr).1.txHashAndInfo h = cachedTx m h) := by
  induction hashes generalizing scr k with
  | nil =>
    simp only [smartContractResults.processHashes, processInOrder, List.append_nil,
      List.length_nil, Nat.add_zero]
    exact ⟨trivial, trivial, trivial, fun _ => ⟨hk1, hk2, hm⟩⟩
  | cons txHash rest ih =>
    have hc : cachedTx m txHash
        = (GoMap.lookup scr.txHashAndInfo txHash).bind (fun i => i.tx) := (hm txHash).symm
    cases ht : haveTime k with
    | false =>
      simp [smartContractResults.processHashes, processInOrder, stepError, stepPassed, hk1, ht]
    | true =>
      cases hl : GoMap.lookup scr.txHashAndInfo txHash with
      | none =>
        rw [hl] at hc
        have hc1 : cachedTx m txHash = none := hc
        simp [smartContractResults.processHashes, processInOrder, stepError, stepPassed, hk1,
          ht, hl, hc1]
      | some info =>
        rw [hl] at hc
        have hc1 : cachedTx m txHash = info.tx := hc
        cases htx : info.tx with
        | none =>
          rw [htx] at hc1
          simp [smartContractResults.processHashes, processInOrder, stepError, stepPassed, hk1,
            ht, hl, hc1, htx]
        | some t =>
          rw [htx] at hc1
          cases t with
          | otherHandler id =>
            simp [smartContractResults.processHashes, processInOrder, stepError, stepPassed,
              hk1, ht, hl, hc1, htx]
          | smartContractResult v =>
            cases hp : process k v with
            | some e =>
              simp [smartContractResults.processHashes, processInOrder, stepError, stepPassed,
                smartContractResults.processSmartContractResult, hk1, hk2, ht, hl, hc1, htx, hp]
            | none =>
              have hstore : ∀ h, cachedTx
                  (GoMap.store scr.txHashAndInfo txHash
                    { tx := some (TransactionHandler.smartContractResult v),
                      senderShardID := miniBlock.SenderShardID,
                      receiverShardID := miniBlock.ReceiverShardID }) h = cachedTx m h := by
                intro h
                rw [cachedTx_store _ _ _ _ _ (by unfold cachedTx; rw [hl]; exact htx) h]
                exact hm h
              obtain ⟨i1, i2, i3, i4⟩ := ih
                { scr with
                  haveTimeCalls := scr.haveTimeCalls + 1
                  processed := scr.processed ++ [v]
                  txHashAndInfo := GoMap.store scr.txHashAndInfo txHash
                    { tx := some (TransactionHandler.smartContractResult v),
                      senderShardID := miniBlock.SenderShardID,
                      receiverShardID := miniBlock.ReceiverShardID } }
                (k + 1) (by simp [hk1]) (by simp [hk2]) hstore
              have hstep : smartContractResults.processHashes haveTime process miniBlock
                  (txHash :: rest) scr
                  = smartContractResults.processHashes haveTime process miniBlock rest
                    { scr with
                      haveTimeCalls := scr.haveTimeCalls + 1
                      processed := scr.processed ++ [v]
                      txHashAndInfo := GoMap.store scr.txHashAndInfo txHash
                        { tx := some (TransactionHandler.smartContractResult v),
                          senderShardID := miniBlock.SenderShardID,
                          receiverShardID := miniBlock.ReceiverShardID } } := by
                simp [smartContractResults.processHashes,
                  smartContractResults.processSmartContractResult, hk1, hk2, ht, hl, htx, hp]
              have href : processInOrder haveTime process m k (txHash :: rest)
                  = (v :: (processInOrder haveTime process m (k + 1) rest).1,
                      (processInOrder haveTime process m (k + 1) rest).2) := by
                simp [processInOrder, stepError, stepPassed, ht, hc1, hp]
              rw [hstep, href]
              refine ⟨?_, i2, i3, ?_⟩
              · rw [i1]
                simp
              · intro hnone
                obtain ⟨j1, j2, j3⟩ := i4 hnone
                refine ⟨?_, ?_, j3⟩
                · rw [j1, List.length_cons]
                  omega
                · rw [j2, List.length_cons]
                  omega

theorem processInOrder_cons_err (haveTime : Nat → Bool)
    (process : Nat → SmartContractResult → Option ProcessError)
    (m : List (Bytes × txInfo)) (k : Nat) (txHash : Bytes) (rest : List Bytes)
    {err : ProcessError} (hs : stepError haveTime process m k txHash = some err) :
    processInOrder haveTime process m k (txHash :: rest)
      = ((stepPassed haveTime m k txHash).toList, some err) := by
  simp only [processInOrder, hs]

theorem processInOrder_cons_ok (haveTime : Nat → Bool)
    (process : Nat → SmartContractResult → Option ProcessError)
    (m : List (Bytes × txInfo)) (k : Nat) (txHash : Bytes) (rest : List Bytes)
    (hs : stepError haveTime process m k txHash = none) :
    processInOrder haveTime process m k (txHash :: rest)
      = ((stepPassed haveTime m k txHash).toList ++
            (processInOrder haveTime process m (k + 1) rest).1,
          (processInOrder haveTime process m (k + 1) rest).2) := by
  simp only [processInOrder, hs]

theorem processInOrder_append (haveTime : Nat → Bool)
    (process : Nat → SmartContractResult → Option ProcessError)
    (m : List (Bytes × txInfo)) (k : Nat) (a b : List Bytes) :
    processInOrder haveTime process m k (a ++ b)
      = match (processInOrder haveTime process m k a).2 with
        | some err => ((processInOrder haveTime process m k a).1, some err)
        | none =>
          ((processInOrder haveTime process m k a).1 ++
              (processInOrder haveTime process m (k + a.length) b).1,
            (processInOrder haveTime process m (k + a.length) b).2) := by
  induction a generalizing k with
  | nil => simp [processInOrder]
  | cons txHash rest ih =>
    rw [List.cons_append]
    cases hs : stepError haveTime process m k txHash with
    | some err =>
      rw [processInOrder_cons_err _ _ _ _ _ _ hs, processInOrder_cons_err _ _ _ _ _ _ hs]
    | none =>
      rw [processInOrder_cons_ok _ _ _ _ _ _ hs, processInOrder_cons_ok _ _ _ _ _ _ hs,
        ih (k + 1)]
      have hlen : k + 1 + rest.length = k + (txHash :: rest).length := by
        simp only [List.length_cons]
        omega
      rw [hlen]
      cases hr : (processInOrder haveTime process m (k + 1) rest).2 with
      | some err => rfl
      | none => simp

theorem hashesProcessedHere_cons (selfId : Nat) (miniBlock : MiniBlock) (body : List MiniBlock) :
    hashesProcessedHere selfId (miniBlock :: body)
      = if isProcessedHere selfId miniBlock
        then miniBlock.TxHashes ++ hashesProcessedHere selfId body
        else hashesProcessedHere selfId body := by
  unfold hashesProcessedHere
  by_cases h : isProcessedHere selfId miniBlock = true
  · simp [List.filter_cons, h, List.flatMap_cons]
  · simp [List.filter_cons, h]

/-- The whole body: the two loops follow `processInOrder` over the hashes of
the miniblocks that are processed here. -/
theorem ProcessBlockTransactions_eq (haveTime : Nat → Bool)
    (process : Nat → SmartContractResult → Option ProcessError)
    (m : List (Bytes × txInfo)) (body : List MiniBlock) (scr : smartContractResults) (k : Nat)
    (hk1 : scr.haveTimeCalls = k) (hk2 : scr.processed.length = k)
    (hm : ∀ h, cachedTx scr.txHashAndInfo h = cachedTx m h) :
    (smartContractResults.ProcessBlockTransactions haveTime process body scr).1.processed
      = scr.processed ++
        (processInOrder haveTime process m k (hashesProcessedHere scr.selfId body)).1 ∧
    (smartContractResults.ProcessBlockTransactions haveTime process body scr).2
      = (processInOrder haveTime process m k (hashesProcessedHere scr.selfId body)).2 := by
  induction body generalizing scr k with
  | nil => simp [smartContractResults.ProcessBlockTransactions, hashesProcessedHere, processInOrder]
  | cons miniBlock body ih =>
    rw [hashesProcessedHere_cons]
    simp only [smartContractResults.ProcessBlockTransactions]
    by_cases h1 : miniBlock.blockType = BlockType.SmartContractResultBlock
    · by_cases h2 : miniBlock.ReceiverShardID = scr.selfId
      · by_cases h3 : miniBlock.SenderShardID = scr.selfId
        · have hskip : isProcessedHere scr.selfId miniBlock = false := by
            simp [isProcessedHere, h3]
          simp only [h1, h2, h3, hskip, ne_eq, not_true_eq_false, if_false, if_true,
            Bool.false_eq_true]
          exact ih scr k hk1 hk2 hm
        · have hhere : isProcessedHere scr.selfId miniBlock = true := by
            simp [isProcessedHere, h1, h2, h3]
          simp only [h1, h2, h3, hhere, ne_eq, not_true_eq_false, if_false, if_true]
          obtain ⟨p1, p2, p3, p4⟩ := processHashes_eq haveTime process miniBlock m
            miniBlock.TxHashes scr k hk1 hk2 hm
          rw [processInOrder_append]
          cases hres : smartContractResults.processHashes haveTime process miniBlock
              miniBlock.TxHashes scr with
          | mk scr1 err1 =>
            rw [hres] at p1 p2 p3 p4
            simp only at p1 p2 p3 p4
            cases err1 with
            | some err =>
              simp only [← p2]
              exact ⟨p1, trivial⟩
            | none =>
              obtain ⟨q1, q2, q3⟩ := p4 rfl
              obtain ⟨r1, r2⟩ := ih scr1 (k + miniBlock.TxHashes.length) q1 q2 q3
              simp only [← p2]
              rw [p3] at r1 r2
              refine ⟨?_, r2⟩
              rw [r1, p1, List.append_assoc]
      · have hskip : isProcessedHere scr.selfId miniBlock = false := by
          simp [isProcessedHere, h2]
        simp only [h1, h2, hskip, ne_eq, not_true_eq_false, not_false_eq_true, if_false,
          if_true, Bool.false_eq_true]
        exact ih scr k hk1 hk2 hm
    · have hskip : isProcessedHere scr.selfId miniBlock = false := by
        simp [isProcessedHere, h1]
      simp only [h1, hskip, ne_eq, not_false_eq_true, if_true, Bool.false_eq_true, if_false]
      exact ih scr k hk1 hk2 hm

theorem processInOrder_none_iff (haveTime : Nat → Bool)
    (process : Nat → SmartContractResult → Option ProcessError)
    (m : List (Bytes × txInfo)) (k : Nat) (hashes : List Bytes) :
    (processInOrder haveTime process m k hashes).2 = none ↔
      ∀ j (hj : j < hashes.length), stepError haveTime process m (k + j) hashes[j] = none := by
  induction hashes generalizing k with
  | nil => simp [processInOrder]
  | cons txHash rest ih =>
    cases hs : stepError haveTime process m k txHash with
    | some err =>
      rw [processInOrder_cons_err _ _ _ _ _ _ hs]
      constructor
      · intro h
        cases h
      · intro h
        have h0 := h 0 (by simp)
        simp only [Nat.add_zero, List.getElem_cons_zero] at h0
        rw [hs] at h0
        cases h0
    | none =>
      rw [processInOrder_cons_ok _ _ _ _ _ _ hs]
      simp only
      rw [ih (k + 1)]
      constructor
      · intro h j hj
        cases j with
        | zero => simpa using hs
        | succ j =>
          have hj1 : j < rest.length := by simpa using hj
          have e : k + (j + 1) = k + 1 + j := by omega
          simp only [List.getElem_cons_succ]
          rw [e]
          exact h j hj1
      · intro h j hj
        have h1 := h (j + 1) (by simpa using hj)
        have e : k + (j + 1) = k + 1 + j := by omega
        simp only [List.getElem_cons_succ] at h1
        rw [e] at h1
        exact h1

theorem stepPassed_toList_of_ok (haveTime : Nat → Bool)
    (process : Nat → SmartContractResult → Option ProcessError)
    (m : List (Bytes × txInfo)) (k : Nat) (txHash : Bytes)
    (hok : stepError haveTime process m k txHash = none) :
    (stepPassed haveTime m k txHash).toList.map
        (fun v => some (TransactionHandler.smartContractResult v))
      = [cachedTx m txHash] := by
  obtain ⟨ht, v, hv, _⟩ := (stepError_none_iff haveTime process m k txHash).mp hok
  simp [stepPassed, ht, hv]

theorem processInOrder_passed_of_none (haveTime : Nat → Bool)
    (process : Nat → SmartContractResult → Option ProcessError)
    (m : List (Bytes × txInfo)) (k : Nat) (hashes : List Bytes)
    (hnone : (processInOrder haveTime process m k hashes).2 = none) :
    (processInOrder haveTime process m k hashes).1.map
        (fun v => some (TransactionHandler.smartContractResult v))
      = hashes.map (cachedTx m) := by
  induction hashes generalizing k with
  | nil => simp [processInOrder]
  | cons txHash rest ih =>
    cases hs : stepError haveTime process m k txHash with
    | some err =>
      rw [processInOrder_cons_err _ _ _ _ _ _ hs] at hnone
      cases hnone
    | none =>
      rw [processInOrder_cons_ok _ _ _ _ _ _ hs] at hnone ⊢
      simp only [List.map_append, List.map_cons]
      rw [stepPassed_toList_of_ok _ _ _ _ _ hs, ih (k + 1) hnone]
      rfl

theorem processInOrder_some (haveTime : Nat → Bool)
    (process : Nat → SmartContractResult → Option ProcessError)
    (m : List (Bytes × txInfo)) (k : Nat) (hashes : List Bytes) (err : ProcessError)
    (hsome : (processInOrder haveTime process m k hashes).2 = some err) :
    ∃ pre h post, hashes = pre ++ h :: post ∧
      (processInOrder haveTime process m k pre).2 = none ∧
      stepError haveTime process m (k + pre.length) h = some err ∧
      (processInOrder haveTime process m k hashes).1
        = (processInOrder haveTime process m k pre).1 ++
            (stepPassed haveTime m (k + pre.length) h).toList := by
  induction hashes generalizing k with
  | nil =>
    simp only [processInOrder] at hsome
    cases hsome
  | cons txHash rest ih =>
    cases hs : stepError haveTime process m k txHash with
    | some e =>
      rw [processInOrder_cons_err _ _ _ _ _ _ hs] at hsome ⊢
      simp only [Option.some.injEq] at hsome
      subst hsome
      exact ⟨[], txHash, rest, rfl, rfl, by simpa using hs, by simp [processInOrder]⟩
    | none =>
      rw [processInOrder_cons_ok _ _ _ _ _ _ hs] at hsome ⊢
      obtain ⟨pre, h, post, e1, e2, e3, e4⟩ := ih (k + 1) hsome
      have hlen : k + (txHash :: pre).length = k + 1 + pre.length := by
        simp only [List.length_cons]
        omega
      refine ⟨txHash :: pre, h, post, ?_, ?_, ?_, ?_⟩
      · rw [e1]
        rfl
      · rw [processInOrder_cons_ok _ _ _ _ _ _ hs]
        exact e2
      · rw [hlen]
        exact e3
      · rw [processInOrder_cons_ok _ _ _ _ _ _ hs, hlen]
        simp only
        rw [e4, List.append_assoc]

/-- C17: on a preprocessor at the start of a run, `ProcessBlockTransactions`
passes to the SCR processor the cached smart contract results of the hashes of
the miniblocks of type `SmartContractResultBlock` received by the own shard
from another shard, in body order then hash order, until the first failure,
and skips every other miniblock. It returns nil iff for each such hash
`haveTime` answered true, a cached `SmartContractResult` existed and the
processor succeeded, and then every such hash was passed; otherwise it stops at
the first failing hash, with `ErrTimeIsOut`, `ErrMissingTransaction`,
`ErrWrongTypeAssertion` or the error of the processor. -/
theorem ProcessBlockTransactions_in_order (haveTime : Nat → Bool)
    (process : Nat → SmartContractResult → Option ProcessError)
    (body : List MiniBlock) (scr : smartContractResults)
    (hstart : scr.processed = [] ∧ scr.haveTimeCalls = 0) :
    ((smartContractResults.ProcessBlockTransactions haveTime process body scr).1.processed,
        (smartContractResults.ProcessBlockTransactions haveTime process body scr).2)
      = processInOrder haveTime process scr.txHashAndInfo 0
          (hashesProcessedHere scr.selfId body) ∧
    ((smartContractResults.ProcessBlockTransactions haveTime process body scr).2 = none ↔
      ∀ k (hk : k < (hashesProcessedHere scr.selfId body).length),
        haveTime k = true ∧
          ∃ v, cachedTx scr.txHashAndInfo (hashesProcessedHere scr.selfId body)[k]
              = some (TransactionHandler.smartContractResult v) ∧
            process k v = none) ∧
    ((smartContractResults.ProcessBlockTransactions haveTime process body scr).2 = none →
      (smartContractResults.ProcessBlockTransactions haveTime process body scr).1.processed.map
          (fun v => some (TransactionHandler.smartContractResult v))
        = (hashesProcessedHere scr.selfId body).map (cachedTx scr.txHashAndInfo)) ∧
    (∀ err,
      (smartContractResults.ProcessBlockTransactions haveTime process body scr).2 = some err →
      ∃ pre h post, hashesProcessedHere scr.selfId body = pre ++ h :: post ∧
        (∀ k (hk : k < pre.length),
          haveTime k = true ∧
            ∃ v, cachedTx scr.txHashAndInfo pre[k]
                = some (TransactionHandler.smartContractResult v) ∧
              process k v = none) ∧
        ((haveTime pre.length = false ∧ err = ProcessError.ErrTimeIsOut ∧
            (smartContractResults.ProcessBlockTransactions haveTime process body
                scr).1.processed.map (fun v => some (TransactionHandler.smartContractResult v))
              = pre.map (cachedTx scr.txHashAndInfo)) ∨
         (haveTime pre.length = true ∧ cachedTx scr.txHashAndInfo h = none ∧
            err = ProcessError.ErrMissingTransaction ∧
            (smartContractResults.ProcessBlockTransactions haveTime process body
                scr).1.processed.map (fun v => some (TransactionHandler.smartContractResult v))
              = pre.map (cachedTx scr.txHashAndInfo)) ∨
         (haveTime pre.length = true ∧
            (∃ id, cachedTx scr.txHashAndInfo h = some (TransactionHandler.otherHandler id)) ∧
            err = ProcessError.ErrWrongTypeAssertion ∧
            (smartContractResults.ProcessBlockTransactions haveTime process body
                scr).1.processed.map (fun v => some (TransactionHandler.smartContractResult v))
              = pre.map (cachedTx scr.txHashAndInfo)) ∨
         (haveTime pre.length = true ∧
            (∃ v, cachedTx scr.txHashAndInfo h
                = some (TransactionHandler.smartContractResult v) ∧
              process pre.length v = some err) ∧
            (smartContractResults.ProcessBlockTransactions haveTime process body
                scr).1.processed.map (fun v => some (TransactionHandler.smartContractResult v))
              = (pre ++ [h]).map (cachedTx scr.txHashAndInfo)))) := by
  obtain ⟨hp, hc⟩ := hstart
  obtain ⟨e1, e2⟩ := ProcessBlockTransactions_eq haveTime process scr.txHashAndInfo body scr 0
    hc (by rw [hp]; rfl) (fun _ => rfl)
  rw [hp, List.nil_append] at e1
  rw [e1, e2]
  refine ⟨rfl, ?_, ?_, ?_⟩
  · rw [processInOrder_none_iff]
    constructor
    · intro h k hk
      have hk1 := h k hk
      rw [Nat.zero_add] at hk1
      exact (stepError_none_iff _ _ _ _ _).mp hk1
    · intro h k hk
      rw [Nat.zero_add]
      exact (stepError_none_iff _ _ _ _ _).mpr (h k hk)
  · intro hnone
    exact processInOrder_passed_of_none _ _ _ _ _ hnone
  · intro err hsome
    obtain ⟨pre, h, post, d1, d2, d3, d4⟩ := processInOrder_some _ _ _ _ _ _ hsome
    rw [Nat.zero_add] at d3 d4
    have hpre := processInOrder_passed_of_none _ _ _ _ _ d2
    refine ⟨pre, h, post, d1, ?_, ?_⟩
    · intro k hk
      have hk1 := (processInOrder_none_iff _ _ _ _ _).mp d2 k hk
      rw [Nat.zero_add] at hk1
      exact (stepError_none_iff _ _ _ _ _).mp hk1
    · rw [d4, List.map_append, hpre]
      unfold stepError at d3
      unfold stepPassed
      cases ht : haveTime pre.length with
      | false =>
        left
        simp only [ht, Bool.not_false, if_true, Option.some.injEq] at d3
        simp [ht, d3.symm]
      | true =>
        right
        simp only [ht, Bool.not_true, Bool.false_eq_true, if_false] at d3
        cases hcached : cachedTx scr.txHashAndInfo h with
        | none =>
          left
          simp only [hcached, Option.some.injEq] at d3
          simp [d3.symm]
        | some t =>
          right
          cases t with
          | otherHandler id =>
            left
            simp only [hcached, Option.some.injEq] at d3
            simp [d3.symm]
          | smartContractResult v =>
            right
            simp only [hcached] at d3
            simp [d3, hcached]

/-- The sample preprocessor on the sample body: the first and fourth miniblocks
are processed, in order, and the run returns nil. -/
theorem ProcessBlockTransactions_in_order_witness :
    (samplePreprocessor.processed = [] ∧ samplePreprocessor.haveTimeCalls = 0) ∧
    ((smartContractResults.ProcessBlockTransactions (fun _ => true) (fun _ _ => none)
          sampleBody samplePreprocessor).1.processed,
        (smartContractResults.ProcessBlockTransactions (fun _ => true) (fun _ _ => none)
          sampleBody samplePreprocessor).2)
      = ([{ id := 11 }, { id := 12 }, { id := 11 }], none) :=
  ⟨⟨rfl, rfl⟩,
    (ProcessBlockTransactions_in_order (fun _ => true) (fun _ _ => none) sampleBody
      samplePreprocessor ⟨rfl, rfl⟩).1.trans (by decide)⟩

end Preprocess

namespace Mock

/-! ## Communication identifier of the shard coordinator mock -/

/-- C21: for every current shard `c` and destination shard `d`,
`CommunicationIdentifier(d)` is `"_c"` when `d = c` and otherwise `"_"`, the
smaller of `c` and `d`, `"_"`, the larger of them, in decimal, the first being
strictly smaller than the last; the identifier computed on shard `a` for
destination `b` is the one computed on shard `b` for destination `a`. -/
theorem CommunicationIdentifier_ordered (scm : multipleShardsCoordinatorMock) (d : Nat) :
    scm.CommunicationIdentifier d
      = (if d = scm.CurrentShard then "_" ++ sprintfDecimal scm.CurrentShard
        else "_" ++ sprintfDecimal (min scm.CurrentShard d) ++ "_" ++
          sprintfDecimal (max scm.CurrentShard d)) ∧
    (d ≠ scm.CurrentShard → min scm.CurrentShard d < max scm.CurrentShard d) ∧
    (∀ other : multipleShardsCoordinatorMock, other.CurrentShard = d →
      other.CommunicationIdentifier scm.CurrentShard = scm.CommunicationIdentifier d) := by
  refine ⟨?_, ?_, ?_⟩
  · unfold multipleShardsCoordinatorMock.CommunicationIdentifier
    by_cases h1 : d = scm.CurrentShard
    · simp only [h1, if_true]
    · by_cases h2 : d < scm.CurrentShard
      · have e1 : min scm.CurrentShard d = d := Nat.min_eq_right (Nat.le_of_lt h2)
        have e2 : max scm.CurrentShard d = scm.CurrentShard := Nat.max_eq_left (Nat.le_of_lt h2)
        simp only [h1, h2, if_false, if_true, e1, e2]
      · have h3 : scm.CurrentShard ≤ d := Nat.le_of_not_lt h2
        have e1 : min scm.CurrentShard d = scm.CurrentShard := Nat.min_eq_left h3
        have e2 : max scm.CurrentShard d = d := Nat.max_eq_right h3
        simp only [h1, h2, if_false, e1, e2]
  · intro hne
    rcases Nat.lt_or_gt_of_ne hne with h | h
    · rw [Nat.min_eq_right (Nat.le_of_lt h), Nat.max_eq_left (Nat.le_of_lt h)]
      exact h
    · rw [Nat.min_eq_left (Nat.le_of_lt h), Nat.max_eq_right (Nat.le_of_lt h)]
      exact h
  · intro other hother
    unfold multipleShardsCoordinatorMock.CommunicationIdentifier
    rw [hother]
    by_cases h1 : d = scm.CurrentShard
    · simp only [h1, if_true]
    · have h1s : ¬ scm.CurrentShard = d := fun h => h1 h.symm
      by_cases h2 : d < scm.CurrentShard
      · have h3 : ¬ scm.CurrentShard < d := Nat.lt_asymm h2
        simp only [h1, h1s, h2, h3, if_false, if_true]
      · have h3 : scm.CurrentShard < d := by omega
        simp only [h1, h1s, h2, h3, if_false, if_true]

/-- On shard 12 for destination 3 and on shard 3 for destination 12 the
identifier is `"_3_12"`; on shard 3 for itself it is `"_3"`. -/
theorem CommunicationIdentifier_sample :
    ({ noShards := 20, CurrentShard := 12 } :
        multipleShardsCoordinatorMock).CommunicationIdentifier 3 = "_3_12" ∧
    ({ noShards := 20, CurrentShard := 3 } :
        multipleShardsCoordinatorMock).CommunicationIdentifier 12 = "_3_12" ∧
    ({ noShards := 20, CurrentShard := 3 } :
        multipleShardsCoordinatorMock).CommunicationIdentifier 3 = "_3" := by
  refine ⟨by decide, by decide, by decide⟩

end Mock
